import Mathlib

/-!
# Graphite remote adapter: path translation and carbon transport

A shallow embedding of the write-side translation of
`client/graphite/paths` (`match`, `loadContext`, `templatedPaths`,
`pathsFromMetric`, `defaultPath`, `ToDatapoints`) and of the sending side of
`client/graphite` (`prepareWrite`, `connectToCarbon`, `disconnectFromCarbon`,
`Write`, `compressLZ4`), of the writer and the reader of `utils/lz4`, and of
the reading side as far as the specification describes it (`Unescape`,
`MetricLabelsFromPath`, `queryToTargets`), and theorems about them.

Conventions of the embedding:

* a Go `string` or `[]byte` value is a list of bytes (`Bytes`);
* a Go `map` is an association list whose keys are pairwise distinct; the
  order of the list is the order in which `range` enumerates the map;
* code of other packages that the translation calls (template execution,
  regular expressions, `Escape`, `EscapeTagged`, `FastFingerprint`, the
  formatting of floating point numbers) is collected in the structure `Ext`
  and every definition takes it as a parameter;
* a `bytes.Buffer` whose storage is handed out with `Bytes()` is modelled
  with an explicit heap of backing arrays, so that two slices that share an
  array are visible as such;
* the network is modelled by its answers (the outcome of each dial and of each
  copy to the socket, the readings of the clock), given per buffer as a
  `Round`, and by the list of `Event`s a call performs;
* the LZ4 library is a parameter: `Compressor` and `Decompressor` give the
  outcome of each of its calls, and the underlying writer and reader are given
  by their answers.
-/

namespace GraphiteAdapter

/-! ## Bytes, strings and maps -/

/-- A Go `string` or `[]byte` value. -/
abbrev Bytes := List UInt8

/-- The bytes of an ASCII literal. -/
def bytes (s : String) : Bytes := s.toList.map (fun c => UInt8.ofNat c.toNat)

/-- Go's `<` on strings: lexicographic on the bytes. -/
def stringLess : Bytes → Bytes → Bool
  | [], [] => false
  | [], _ :: _ => true
  | _ :: _, [] => false
  | a :: as, b :: bs =>
    if a.toNat < b.toNat then true
    else if b.toNat < a.toNat then false
    else stringLess as bs

/-- Go's `<=` on strings, as a relation. -/
def StringLE (a b : Bytes) : Prop := stringLess b a = false

instance StringLE.decidable : DecidableRel StringLE :=
  fun a b => inferInstanceAs (Decidable (stringLess b a = false))

/-- The statement `m[k] = v` on a map. -/
def mapSet {V : Type} : List (Bytes × V) → Bytes → V → List (Bytes × V)
  | [], k, v => [(k, v)]
  | (k', v') :: rest, k, v =>
    if k' = k then (k, v) :: rest else (k', v') :: mapSet rest k v

/-- The type `model.Metric`: label name to label value. -/
abbrev Metric := List (Bytes × Bytes)

/-- The expression `m[ln]` on a metric: the zero value `""` for an absent label. -/
def Metric.get (m : Metric) (ln : Bytes) : Bytes := (m.lookup ln).getD []

/-- The label names of a metric, in enumeration order. -/
def Metric.names (m : Metric) : List Bytes := m.map Prod.fst

/-- The constant `model.MetricNameLabel`. -/
def MetricNameLabel : Bytes := bytes "__name__"

/-! ## Floating point sample values -/

/-- A `float64`, by its IEEE-754 bit pattern. -/
structure Float64 where
  bits : Nat
deriving DecidableEq, Repr

/-- The sign bit of a `float64`. -/
def Float64.signBit (f : Float64) : Nat := (f.bits / 2 ^ 63) % 2

/-- The biased exponent field of a `float64`. -/
def Float64.exponent (f : Float64) : Nat := (f.bits / 2 ^ 52) % 2048

/-- The fraction field of a `float64`. -/
def Float64.fraction (f : Float64) : Nat := f.bits % 2 ^ 52

/-- The function `math.IsNaN`. -/
def IsNaN (f : Float64) : Bool := f.exponent == 2047 && f.fraction != 0

/-- The function `math.IsInf`: `sign > 0` asks for `+Inf`, `sign < 0` for `-Inf`,
`sign = 0` for either. -/
def IsInf (f : Float64) (sign : Int) : Bool :=
  f.exponent == 2047 && f.fraction == 0 &&
    ((decide (sign ≥ 0) && f.signBit == 0) || (decide (sign ≤ 0) && f.signBit == 1))

/-- The function `math.Inf`. -/
def Inf (sign : Int) : Float64 :=
  if sign ≥ 0 then ⟨0x7FF0000000000000⟩ else ⟨0xFFF0000000000000⟩

/-- The type `model.Sample`; the timestamp is a `model.Time`, in milliseconds. -/
structure Sample where
  Metric : Metric
  Value : Float64
  Timestamp : Int

/-! ## Code of other packages -/

/-- A value of the template context built by `loadContext`. -/
inductive CtxValue (V : Type) where
  | data (v : V)
  | labels (l : List (Bytes × Bytes))

/-- The code the translation calls that is not part of `client/graphite/paths`. -/
structure Ext where
  /-- the values of `template_data` (`interface{}`) -/
  Value : Type
  /-- the type `config.Template` -/
  Tmpl : Type
  /-- the comparison `rule.Tmpl == config.Template{}` is decidable -/
  tmplEq : DecidableEq Tmpl
  /-- the zero value `config.Template{}` -/
  zeroTmpl : Tmpl
  /-- the call `Tmpl.Execute(&path, context)`: the error, or the bytes written to `path` -/
  Execute : Tmpl → List (Bytes × CtxValue Value) → Except String Bytes
  /-- the type `config.Regexp` -/
  Regexp : Type
  /-- the method `Regexp.MatchString` -/
  MatchString : Regexp → Bytes → Bool
  /-- the function `graphitetmpl.Escape` -/
  Escape : Bytes → Bytes
  /-- the function `graphitetmpl.EscapeTagged` -/
  EscapeTagged : Bytes → Bytes
  /-- the method `model.Metric.FastFingerprint`, a `uint64` -/
  FastFingerprint : Metric → Nat
  /-- the call `strconv.AppendFloat(buf, f, 'f', prec, 64)` on an empty `buf` -/
  AppendFloat : Float64 → Nat → Bytes
  /-- the expression `float64(ts.UnixNano()) / 1e9` -/
  unixSeconds : Int → Float64

instance Ext.instDecEqTmpl (E : Ext) : DecidableEq E.Tmpl := E.tmplEq

/-- The type `config.Rule`. -/
structure Rule (E : Ext) where
  Match : List (Bytes × Bytes)
  MatchRE : List (Bytes × E.Regexp)
  Continue : Bool
  Tmpl : E.Tmpl

/-- The type `paths.Format`. -/
inductive Format where
  | FormatCarbon
  | FormatCarbonTags
  | FormatCarbonOpenMetrics
deriving DecidableEq, Repr

/-! ## `template.go` -/

/-- The function `loadContext`. -/
def loadContext {V : Type} (templateData : List (Bytes × V)) (m : Metric) :
    List (Bytes × CtxValue V) :=
  let ctx := templateData.foldl (fun ctx kv => mapSet ctx kv.1 (CtxValue.data kv.2)) []
  let labels := m.foldl (fun labels kv => mapSet labels kv.1 kv.2) []
  mapSet ctx (bytes "labels") (CtxValue.labels labels)

/-- The first loop of `match`: the exact-match constraints. -/
def matchExact (m : Metric) : List (Bytes × Bytes) → Bool
  | [] => true
  | (ln, lv) :: rest => if m.get ln ≠ lv then false else matchExact m rest

/-- The second loop of `match`: the regular expression constraints. -/
def matchRegexps (E : Ext) (m : Metric) : List (Bytes × E.Regexp) → Bool
  | [] => true
  | (ln, r) :: rest =>
    if !(E.MatchString r (m.get ln)) then false else matchRegexps E m rest

/-- The function `match` of `template.go`. -/
def matchMetric (E : Ext) (m : Metric) (mt : List (Bytes × Bytes))
    (matchRE : List (Bytes × E.Regexp)) : Bool :=
  if matchExact m mt = false then false
  else if matchRegexps E m matchRE = false then false
  else true

/-! ## `write.go`: paths -/

/-- The loop of `templatedPaths`, from the state `(paths, stop)` over the rules
still to visit; the result is `(paths, stop, err)`. -/
def templatedPathsLoop (E : Ext) (m : Metric) (templateData : List (Bytes × E.Value)) :
    List (Rule E) → List Bytes → Bool → List Bytes × Bool × Option String
  | [], paths, stop => (paths, stop, none)
  | rule :: rest, paths, stop =>
    if matchMetric E m rule.Match rule.MatchRE = false then
      templatedPathsLoop E m templateData rest paths stop
    else if rule.Continue = false ∧ rule.Tmpl = E.zeroTmpl then
      ([], true, none)
    else
      let context := loadContext templateData m
      let stop := !rule.Continue
      match E.Execute rule.Tmpl context with
      | Except.error e => (paths, stop, some e)
      | Except.ok path =>
        let paths := paths ++ [path]
        if rule.Continue = false then (paths, stop, none)
        else templatedPathsLoop E m templateData rest paths stop

/-- The function `templatedPaths`. -/
def templatedPaths (E : Ext) (m : Metric) (rules : List (Rule E))
    (templateData : List (Bytes × E.Value)) : List Bytes × Bool × Option String :=
  templatedPathsLoop E m templateData rules [] false

/-- The call `sort.Sort(labels)` on `model.LabelNames`: ascending in Go's string order. -/
def sortLabelNames (labels : List Bytes) : List Bytes := List.insertionSort StringLE labels

/-- One iteration of the label loop of `defaultPath` on the state `(lbuffer, first)`. -/
def defaultPathStep (E : Ext) (m : Metric) (format : Format) (st : Bytes × Bool) (l : Bytes) :
    Bytes × Bool :=
  if l = MetricNameLabel ∨ l.length = 0 then st
  else
    let k := l
    let v := m.get l
    if format = Format.FormatCarbonOpenMetrics then
      let lbuffer := if st.2 = false then st.1 ++ bytes "," else st.1
      (lbuffer ++ k ++ bytes "=" ++ bytes "\x22" ++ E.Escape v ++ bytes "\x22", false)
    else if format = Format.FormatCarbonTags then
      (st.1 ++ bytes ";" ++ k ++ bytes "=" ++ E.EscapeTagged v, false)
    else
      (st.1 ++ bytes "." ++ k ++ bytes "." ++ E.Escape v, false)

/-- The function `defaultPath`. -/
def defaultPath (E : Ext) (m : Metric) (format : Format) (pfx : Bytes) : Bytes :=
  let labels := sortLabelNames m.names
  let lbuffer := (labels.foldl (defaultPathStep E m format) ([], true)).1
  let metricNameLabel := E.Escape (m.get MetricNameLabel)
  let buffer := pfx ++ metricNameLabel
  if lbuffer.length > 0 then
    if format = Format.FormatCarbonOpenMetrics then
      buffer ++ bytes "\x7b" ++ lbuffer ++ bytes "\x7d"
    else
      buffer ++ lbuffer
  else buffer

/-! ## The paths cache (`github.com/patrickmn/go-cache`) -/

/-- An item of the cache: the stored paths and the expiry instant in
nanoseconds, `0` for none. -/
structure Item where
  Object : List Bytes
  Expiration : Int

/-- The package variables `pathsCacheEnabled` and `pathsCache`. -/
structure PathsCache where
  enabled : Bool
  defaultExpiration : Int
  items : List (Bytes × Item)

/-- The method `Cache.Get` at the instant `now`. -/
def PathsCache.Get (c : PathsCache) (k : Bytes) (now : Int) : Option (List Bytes) :=
  match c.items.lookup k with
  | none => none
  | some item =>
    if item.Expiration > 0 ∧ now > item.Expiration then none else some item.Object

/-- The call `Cache.Set(k, x, cache.DefaultExpiration)` at the instant `now`. -/
def PathsCache.Set (c : PathsCache) (k : Bytes) (x : List Bytes) (now : Int) : PathsCache :=
  let d := c.defaultExpiration
  let e := if d > 0 then now + d else 0
  { c with items := mapSet c.items k ⟨x, e⟩ }

/-- The call `strconv.AppendUint(buf, n, 16)` on an empty `buf`. -/
def appendUint16 (n : Nat) : Bytes := (Nat.toDigits 16 n).map (fun c => UInt8.ofNat c.toNat)

/-- The cache lookup at the head of `pathsFromMetric`. -/
def cachedPaths (E : Ext) (cache : PathsCache) (now : Int) (m : Metric) : Option (List Bytes) :=
  if cache.enabled then cache.Get (appendUint16 (E.FastFingerprint m)) now else none

/-- The function `pathsFromMetric`, with the cache as state: the result is
`(paths, err, cache)`. -/
def pathsFromMetric (E : Ext) (cache : PathsCache) (now : Int) (m : Metric) (format : Format)
    (pfx : Bytes) (rules : List (Rule E)) (templateData : List (Bytes × E.Value)) :
    List Bytes × Option String × PathsCache :=
  match cachedPaths E cache now m with
  | some cached => (cached, none, cache)
  | none =>
    let r := templatedPaths E m rules templateData
    let paths := if r.2.1 = false then r.1 ++ [defaultPath E m format pfx] else r.1
    let cache :=
      if cache.enabled then cache.Set (appendUint16 (E.FastFingerprint m)) paths now else cache
    (paths, r.2.2, cache)

/-! ## Byte slices and `bytes.Buffer` -/

/-- The backing arrays allocated so far. An array is named by its position in
the list and is stored with its full capacity. -/
abbrev Heap := List Bytes

/-- A `[]byte` value: a window of `len` bytes at offset `off` of the array `arr`. -/
structure Slice where
  arr : Nat
  off : Nat
  len : Nat
deriving DecidableEq, Repr

/-- The bytes a slice shows in a heap. -/
def Heap.read (h : Heap) (s : Slice) : Bytes := ((h.getD s.arr []).drop s.off).take s.len

/-- The array `a` after `copy(a[i:], p)`, for `p` that fits. -/
def overwrite (a : Bytes) (i : Nat) (p : Bytes) : Bytes :=
  a.take i ++ p ++ a.drop (i + p.length)

/-- The heap after `copy(arr[i:], p)`. -/
def Heap.copy (h : Heap) (arr i : Nat) (p : Bytes) : Heap :=
  h.set arr (overwrite (h.getD arr []) i p)

/-- A `bytes.Buffer` that is only written to: `buf` is the window
`[0, len)` of the array `arr`, whose capacity is `cap`; the read offset stays `0`. -/
structure Buffer where
  arr : Nat
  len : Nat
  cap : Nat
deriving DecidableEq, Repr

/-- The expression `bytes.NewBuffer(make([]byte, 0, c))`. -/
def NewBuffer (h : Heap) (c : Nat) : Heap × Buffer :=
  (h ++ [List.replicate c 0], ⟨h.length, 0, c⟩)

/-- The method `Buffer.Write`. While `p` fits in the capacity the buffer is
resliced and `p` is copied into the same array (`tryGrowByReslice`); otherwise
`grow` moves the content to a new array of capacity `max (2 * cap) (len + n)`. -/
def Buffer.Write (h : Heap) (b : Buffer) (p : Bytes) : Heap × Buffer :=
  if p.length ≤ b.cap - b.len then
    (h.copy b.arr b.len p, { b with len := b.len + p.length })
  else
    let c := max (2 * b.cap) (b.len + p.length)
    let content := (h.getD b.arr []).take b.len ++ p
    (h ++ [content ++ List.replicate (c - content.length) 0], ⟨h.length, b.len + p.length, c⟩)

/-- The method `Buffer.WriteByte`. -/
def Buffer.WriteByte (h : Heap) (b : Buffer) (c : UInt8) : Heap × Buffer := b.Write h [c]

/-- The method `Buffer.Bytes`: the unread part of the buffer, not a copy of it. -/
def Buffer.Bytes (b : Buffer) : Slice := ⟨b.arr, 0, b.len⟩

/-- The method `Buffer.Reset`: the buffer is emptied and keeps its array. -/
def Buffer.Reset (b : Buffer) : Buffer := { b with len := 0 }

/-! ## `write.go`: datapoints -/

/-- The result of `ToDatapoints`: the returned slices and error, the heap the
slices point into, and the paths cache after the call. -/
structure Datapoints where
  dataPoints : List Slice
  err : Option String
  heap : Heap
  cache : PathsCache

/-- The content of the returned slices when `ToDatapoints` returns. -/
def Datapoints.lines (d : Datapoints) : List Bytes := d.dataPoints.map d.heap.read

/-- The loop `for i := range paths` of `ToDatapoints` that computes `length`. -/
def maxPathLength (paths : List Bytes) : Nat :=
  paths.foldl (fun length path => if path.length > length then path.length else length) 0

/-- One iteration of the loop `for _, path := range paths` of `ToDatapoints` on the
state `(heap, buf, dataPoints)`. -/
def datapointStep (val tm : Bytes) (st : Heap × Buffer × List Slice) (path : Bytes) :
    Heap × Buffer × List Slice :=
  let s1 := st.2.1.Write st.1 path
  let s2 := s1.2.WriteByte s1.1 32
  let s3 := s2.2.Write s2.1 val
  let s4 := s3.2.WriteByte s3.1 32
  let s5 := s4.2.Write s4.1 tm
  let s6 := s5.2.WriteByte s5.1 10
  let dataPoints := st.2.2 ++ [s6.2.Bytes]
  (s6.1, s6.2.Reset, dataPoints)

/-- The function `ToDatapoints`, with the paths cache as state. -/
def ToDatapoints (E : Ext) (cache : PathsCache) (now : Int) (s : Sample) (format : Format)
    (pfx : Bytes) (rules : List (Rule E)) (templateData : List (Bytes × E.Value)) :
    Datapoints :=
  let t := E.unixSeconds s.Timestamp
  let v := s.Value
  if IsNaN v || IsInf v 0 then ⟨[], some "invalid sample value", [], cache⟩
  else
    let r := pathsFromMetric E cache now s.Metric format pfx rules templateData
    match r.2.1 with
    | some err => ⟨[], some err, [], r.2.2⟩
    | none =>
      let paths := r.1
      let val := E.AppendFloat v 6
      let tm := E.AppendFloat t 0
      let length := maxPathLength paths
      let nb := NewBuffer [] (length + val.length + tm.length + 3)
      let st := paths.foldl (datapointStep val tm) (nb.1, nb.2, [])
      ⟨st.2.2, none, st.1, r.2.2⟩

/-- The lines a caller of `ToDatapoints` is meant to receive for the paths
`paths`: for each path, the path, a space, the value with 6 fractional digits,
a space, the timestamp in seconds with no fractional digit, a newline. -/
def expectedLines (E : Ext) (s : Sample) (paths : List Bytes) : List Bytes :=
  paths.map (fun path =>
    path ++ bytes " " ++ E.AppendFloat s.Value 6 ++ bytes " " ++
      E.AppendFloat (E.unixSeconds s.Timestamp) 0 ++ bytes "\n")

/-! ## A concrete environment

An instance of `Ext` on which the definitions can be evaluated: templates are
sequences of literal text and label references, regular expressions are
anchored literals with an optional trailing `.*`, and the number formatting
is exact decimal conversion. -/

/-- The decimal digits of a natural number. -/
def decimal (n : Nat) : Bytes := (Nat.toDigits 10 n).map (fun c => UInt8.ofNat c.toNat)

/-- The quotient `num / den` rounded to the nearest integer, halves to even. -/
def roundHalfEven (num den : Nat) : Nat :=
  let q := num / den
  let r := num % den
  if 2 * r > den ∨ (2 * r = den ∧ q % 2 = 1) then q + 1 else q

/-- The magnitude of a finite `float64` as a fraction `(num, den)`. -/
def Float64.magnitude (f : Float64) : Nat × Nat :=
  let mant := if f.exponent = 0 then f.fraction else 2 ^ 52 + f.fraction
  let e := if f.exponent = 0 then 1 else f.exponent
  if e ≥ 1075 then (mant * 2 ^ (e - 1075), 1) else (mant, 2 ^ (1075 - e))

/-- The format `'f'` of `strconv` with `prec` fractional digits: the exact
value, rounded to `prec` decimals, halves to even. -/
def formatFixed (f : Float64) (prec : Nat) : Bytes :=
  if IsNaN f then bytes "NaN"
  else if IsInf f 1 then bytes "+Inf"
  else if IsInf f (-1) then bytes "-Inf"
  else
    let n := roundHalfEven (f.magnitude.1 * 10 ^ prec) f.magnitude.2
    let sign := if f.signBit = 1 then bytes "-" else []
    let whole := decimal (n / 10 ^ prec)
    let frac := decimal (n % 10 ^ prec)
    if prec = 0 then sign ++ whole
    else sign ++ whole ++ bytes "." ++ List.replicate (prec - frac.length) 48 ++ frac

/-- The position of the highest set bit of a positive number. -/
def log2Floor (n : Nat) : Nat := (Nat.toDigits 2 n).length - 1

/-- The `float64` nearest to `num / den` (halves to even), with the given sign. -/
def Float64.ofRatio (neg : Bool) (num den : Nat) : Float64 :=
  let sign := if neg then 2 ^ 63 else 0
  if num = 0 ∨ den = 0 then ⟨sign⟩
  else
    let d : Int := (log2Floor num : Int) - (log2Floor den : Int)
    let k : Int := if num * 2 ^ (-d).toNat ≥ den * 2 ^ d.toNat then d else d - 1
    let e : Int := max (k - 52) (-1074)
    let mant := roundHalfEven (num * 2 ^ (-e).toNat) (den * 2 ^ e.toNat)
    let e := if mant = 2 ^ 53 then e + 1 else e
    let mant := if mant = 2 ^ 53 then 2 ^ 52 else mant
    if mant < 2 ^ 52 then ⟨sign + mant⟩
    else if e + 1075 ≥ 2047 then ⟨sign + 2047 * 2 ^ 52⟩
    else ⟨sign + (e + 1075).toNat * 2 ^ 52 + (mant - 2 ^ 52)⟩

/-- The value of a finite `float64` divided by `10 ^ 9`, as a `float64`. -/
def Float64.divBillion (f : Float64) : Float64 :=
  Float64.ofRatio (f.signBit = 1) f.magnitude.1 (f.magnitude.2 * 10 ^ 9)

/-- An `int64` from an integer, with wrap-around. -/
def wrapInt64 (i : Int) : Int := (i + 2 ^ 63) % 2 ^ 64 - 2 ^ 63

/-- The expression `float64(ts.UnixNano()) / 1e9` for a `model.Time` of `ts` milliseconds. -/
def unixSeconds (ts : Int) : Float64 :=
  let nanos := wrapInt64 (ts * 1000000)
  (Float64.ofRatio (decide (nanos < 0)) nanos.natAbs 1).divBillion

/-- A piece of a template: literal text, the value of a label, or an action
that fails. -/
inductive Piece where
  | text (b : Bytes)
  | label (name : Bytes)
  | fail (msg : String)
deriving DecidableEq, Repr

/-- The output of one piece in a context. -/
def Piece.render (ctx : List (Bytes × CtxValue Bytes)) : Piece → Except String Bytes
  | Piece.text b => Except.ok b
  | Piece.label name =>
    match ctx.lookup (bytes "labels") with
    | some (CtxValue.labels l) => Except.ok ((l.lookup name).getD [])
    | _ => Except.error "no labels in the context"
  | Piece.fail msg => Except.error msg

/-- The output of a sequence of pieces: the first error, or the outputs in a row. -/
def renderPieces (ctx : List (Bytes × CtxValue Bytes)) : List Piece → Except String Bytes
  | [] => Except.ok []
  | p :: rest =>
    match p.render ctx with
    | Except.error e => Except.error e
    | Except.ok b =>
      match renderPieces ctx rest with
      | Except.error e => Except.error e
      | Except.ok bs => Except.ok (b ++ bs)

/-- The execution of a template; `none` is the template that was not configured. -/
def executePieces (t : Option (List Piece)) (ctx : List (Bytes × CtxValue Bytes)) :
    Except String Bytes :=
  match t with
  | none => Except.error "incomplete or empty template"
  | some ps => renderPieces ctx ps

/-- An anchored pattern: a literal, followed by `.*` when `wildcard` is set. -/
structure Pattern where
  literal : Bytes
  wildcard : Bool
deriving DecidableEq, Repr

/-- Whether an anchored pattern matches a string. -/
def Pattern.matchString (p : Pattern) (s : Bytes) : Bool :=
  if p.wildcard then p.literal.isPrefixOf s else decide (s = p.literal)

/-- One byte as `%` and two uppercase hexadecimal digits. -/
def percentByte (b : UInt8) : Bytes :=
  [37, UInt8.ofNat (Nat.digitChar (b.toNat / 16)).toUpper.toNat,
    UInt8.ofNat (Nat.digitChar (b.toNat % 16)).toUpper.toNat]

/-- Modelled from the spec: `Escape` of `client/graphite/template`, whose source
file is not available. Each of `.`, `/`, `%`, `=` and every byte that is not
printable ASCII is percent-encoded, each of `( ) { } , ' "` and the backslash
is preceded by a backslash, every other printable character is copied. -/
def escapeByte (b : UInt8) : Bytes :=
  if b = 46 ∨ b = 47 ∨ b = 37 ∨ b = 61 then percentByte b
  else if b = 40 ∨ b = 41 ∨ b = 123 ∨ b = 125 ∨ b = 44 ∨ b = 39 ∨ b = 34 ∨ b = 92 then [92, b]
  else if 33 ≤ b.toNat ∧ b.toNat ≤ 126 then [b]
  else percentByte b

/-- Modelled from the spec: `Escape`, byte by byte. -/
def escape (s : Bytes) : Bytes := s.flatMap escapeByte

/-- Modelled from the spec: `EscapeTagged` of `client/graphite/template`, whose
source file is not available. Bytes that are not ASCII are percent-encoded,
`;`, `=`, `~`, the space and the other non-printable characters become `_`,
every other character is copied. -/
def escapeTaggedByte (b : UInt8) : Bytes :=
  if 128 ≤ b.toNat then percentByte b
  else if b = 59 ∨ b = 61 ∨ b = 126 ∨ b.toNat ≤ 32 ∨ b = 127 then [95]
  else [b]

/-- Modelled from the spec: `EscapeTagged`, byte by byte. -/
def escapeTagged (s : Bytes) : Bytes := s.flatMap escapeTaggedByte

/-- One step of the 64-bit FNV-1a hash. -/
def hashAddByte (h : Nat) (b : UInt8) : Nat := ((h ^^^ b.toNat) * 1099511628211) % 2 ^ 64

/-- The fingerprint of `github.com/prometheus/common/model`: the exclusive or,
over the labels, of the FNV-1a hash of name, separator byte and value. -/
def fastFingerprint (m : Metric) : Nat :=
  if m.length = 0 then 14695981039346656037
  else
    m.foldl (fun result kv =>
      let sum := kv.1.foldl hashAddByte 14695981039346656037
      let sum := hashAddByte sum 255
      let sum := kv.2.foldl hashAddByte sum
      result ^^^ sum) 0

/-- The concrete environment. -/
def demo : Ext where
  Value := Bytes
  Tmpl := Option (List Piece)
  tmplEq := inferInstance
  zeroTmpl := none
  Execute := executePieces
  Regexp := Pattern
  MatchString := Pattern.matchString
  Escape := escape
  EscapeTagged := escapeTagged
  FastFingerprint := fastFingerprint
  AppendFloat := formatFixed
  unixSeconds := unixSeconds

/-- The paths cache when `InitPathsCache` was not called. -/
def cacheOff : PathsCache := ⟨false, 0, []⟩

/-- The paths cache after `InitPathsCache` with a time to live of one minute. -/
def cacheOn : PathsCache := ⟨true, 60000000000, []⟩

/-! ## Vocabulary of the statements -/

/-- The rules of a list that match a metric, in rule order. -/
def matching (E : Ext) (m : Metric) (rules : List (Rule E)) : List (Rule E) :=
  rules.filter (fun r => matchMetric E m r.Match r.MatchRE)

/-- The template of rule `r` renders to `p` for metric `m`. -/
def Renders (E : Ext) (m : Metric) (templateData : List (Bytes × E.Value)) (r : Rule E)
    (p : Bytes) : Prop :=
  E.Execute r.Tmpl (loadContext templateData m) = Except.ok p

/-- The labels `defaultPath` writes: neither the metric name label nor the empty name. -/
def qualifying (ls : List Bytes) : List Bytes :=
  ls.filter (fun l => decide (l ≠ MetricNameLabel ∧ l ≠ []))

/-- The text `name="Escape(value)"` of one label in the BraceTags format. -/
def bracePair (E : Ext) (m : Metric) (l : Bytes) : Bytes :=
  l ++ bytes "=" ++ bytes "\x22" ++ E.Escape (m.get l) ++ bytes "\x22"

/-- A sample value is finite when it is neither NaN nor an infinity. -/
def Finite (v : Float64) : Prop := (IsNaN v || IsInf v 0) = false

/-! ## Sample data: the rules and metrics of `write_test.go` -/

/-- The first rule of the test configuration: `owner: team-X`, `testlabel` matching
`^test:.*$`, `continue: true`, a template. -/
def rule1 : Rule demo :=
  ⟨[(bytes "owner", bytes "team-X")], [(bytes "testlabel", ⟨bytes "test:", true⟩)], true,
    some [Piece.text (bytes "tmpl_1."), Piece.label (bytes "owner")]⟩

/-- The second rule: `owner: team-X`, `testlabel2: test:value2`, `continue: false`, a template. -/
def rule2 : Rule demo :=
  ⟨[(bytes "owner", bytes "team-X"), (bytes "testlabel2", bytes "test:value2")], [], false,
    some [Piece.text (bytes "tmpl_2."), Piece.label (bytes "owner"), Piece.text (bytes ".data.foo")]⟩

/-- The third rule: `owner: team-Y`, `continue: false`, a template. -/
def rule3 : Rule demo :=
  ⟨[(bytes "owner", bytes "team-Y")], [], false,
    some [Piece.text (bytes "tmpl_3."), Piece.label (bytes "owner"), Piece.text (bytes ".data.foo")]⟩

/-- The fourth rule: `owner: team-Z`, `continue: false`, no template. -/
def rule4 : Rule demo := ⟨[(bytes "owner", bytes "team-Z")], [], false, none⟩

/-- The rule list of the test configuration. -/
def testRules : List (Rule demo) := [rule1, rule2, rule3, rule4]

/-- A metric of team X: only the first rule matches it. -/
def metricX : Metric :=
  [(MetricNameLabel, bytes "test:metric"), (bytes "testlabel", bytes "test:value"),
    (bytes "owner", bytes "team-X")]

/-- The metric of `TestMultiTemplatedPathsFromMetric`: the first two rules match it. -/
def multiMatchMetric : Metric :=
  [(MetricNameLabel, bytes "test:metric"), (bytes "testlabel", bytes "test:value"),
    (bytes "owner", bytes "team-X"), (bytes "testlabel2", bytes "test:value2")]

/-- The metric of `TestSkipedTemplatedPathsFromMetric`: only the fourth rule matches it. -/
def skipedMetric : Metric :=
  [(MetricNameLabel, bytes "test:metric"), (bytes "testlabel", bytes "test:value"),
    (bytes "owner", bytes "team-Z"), (bytes "testlabel2", bytes "test:value2")]

/-- The `float64` 1. -/
def one : Float64 := ⟨0x3FF0000000000000⟩

/-- A quiet NaN. -/
def quietNaN : Float64 := ⟨0x7FF8000000000001⟩

/-- A sample of `metricX` with value 1 at 1700000000 seconds. -/
def sampleX : Sample := ⟨metricX, one, 1700000000000⟩

/-- The metric of `TestDefaultPathsFromMetric`, without its non-ASCII character. -/
def testMetric : Metric :=
  [(MetricNameLabel, bytes "test:metric"), (bytes "testlabel", bytes "test:value"),
    (bytes "owner", bytes "team-X"), (bytes "many_chars", bytes "abc!ABC:012-3!4567~89./()=.")]

/-- The label names of `testMetric` in ascending order. -/
def testNames : List Bytes :=
  [bytes "__name__", bytes "many_chars", bytes "owner", bytes "testlabel"]

/-- The rule of `TestReplaceNilLabelTemplatedPathsFromMetric`, whose template
fails to render, with `continue` as given. -/
def failingRule (cont : Bool) : Rule demo :=
  ⟨[], [(bytes "testlabel", ⟨bytes "test:value", false⟩)], cont,
    some [Piece.text (bytes "test."), Piece.fail "error calling replace"]⟩

/-! ## `write.go` of `client/graphite`: buffers -/

/-- The constant `udpMaxBytes`. -/
def udpMaxBytes : Nat := 1024

/-- The type `config.CompressType`. -/
inductive CompressType where
  | Plain
  | LZ4
deriving DecidableEq, Repr

/-- The fields of `Client` and of its configuration that `prepareWrite` and
`Write` read. -/
structure Client (E : Ext) where
  CarbonAddress : String
  CarbonTransport : String
  CarbonReconnectInterval : Int
  Rules : List (Rule E)
  TemplateData : List (Bytes × E.Value)
  format : Format
  CompressType : CompressType

/-- The body of the loop `for _, str := range datapoints` of `prepareWrite` on the
state `(buffers before currentBuf, currentBuf)`; `bytesBuffers` is the first
component followed by the second. -/
def packLine (udp : Bool) (st : List Bytes × Bytes) (str : Bytes) : List Bytes × Bytes :=
  if udp = true ∧ st.2.length + str.length > udpMaxBytes then (st.1 ++ [st.2], str)
  else (st.1, st.2 ++ str)

/-- The body of the loop `for _, s := range samples` of `prepareWrite`, with the
paths cache as further state. The bytes of a datapoint are read when
`ToDatapoints` has returned. -/
def prepareStep (E : Ext) (client : Client E) (now : Int) (graphitePrefix : Bytes)
    (st : (List Bytes × Bytes) × PathsCache) (s : Sample) : (List Bytes × Bytes) × PathsCache :=
  let d := ToDatapoints E st.2 now s client.format graphitePrefix client.Rules client.TemplateData
  match d.err with
  | some _ => (st.1, d.cache)
  | none => (d.lines.foldl (packLine (client.CarbonTransport == "udp")) st.1, d.cache)

/-- The result of `prepareWrite`: the buffers, the error, the paths cache after the call. -/
structure Prepared where
  bytesBuffers : List Bytes
  err : Option String
  cache : PathsCache

/-- The method `Client.prepareWrite`; `graphitePrefix` is what
`StoragePrefixFromRequest` gives for the request, and `reqBufLen` only sizes
the first buffer. -/
def prepareWrite (E : Ext) (client : Client E) (cache : PathsCache) (now : Int)
    (samples : List Sample) (_reqBufLen : Nat) (graphitePrefix : Bytes) : Prepared :=
  let st := samples.foldl (prepareStep E client now graphitePrefix) (([], []), cache)
  ⟨st.1.1 ++ [st.1.2], none, st.2⟩

/-! ## `write.go` of `client/graphite`: the connection -/

/-- A connection, by its identity. -/
abbrev Conn := Nat

/-- What `Write` does to the network. -/
inductive Event where
  | dial
  | close (c : Conn)
  | write (c : Conn) (data : Bytes)
deriving DecidableEq, Repr

/-- The fields `carbonCon` and `carbonLastReconnectTime` of `Client`. -/
structure ConnState where
  carbonCon : Option Conn
  carbonLastReconnectTime : Int
deriving DecidableEq, Repr

/-- The result of `connectToCarbon`: the returned connection and error, the
fields of the client after the call, and what was done to the network. -/
structure Connected where
  conn : Option Conn
  err : Option String
  state : ConnState
  events : List Event

/-- The method `Client.disconnectFromCarbon`. -/
def disconnectFromCarbon (st : ConnState) : ConnState × List Event :=
  match st.carbonCon with
  | some c => ({ st with carbonCon := none }, [Event.close c])
  | none => ({ st with carbonCon := none }, [])

/-- The end of `connectToCarbon`: the call of `net.DialTimeout`, whose outcome is
`dial`, and the update of the client; `nowDial` is the reading of `time.Now()`
after the dial, `events` what was done before it. -/
def dialCarbon (st : ConnState) (nowDial : Int) (dial : Except String Conn)
    (events : List Event) : Connected :=
  match dial with
  | Except.error e => ⟨none, some e, { st with carbonCon := none }, events ++ [Event.dial]⟩
  | Except.ok conn => ⟨some conn, none, ⟨some conn, nowDial⟩, events ++ [Event.dial]⟩

/-- The method `Client.connectToCarbon`; `now` is the clock read by `time.Since`. -/
def connectToCarbon (interval : Int) (st : ConnState) (now nowDial : Int)
    (dial : Except String Conn) : Connected :=
  match st.carbonCon with
  | some c =>
    if now - st.carbonLastReconnectTime < interval then ⟨some c, none, st, []⟩
    else
      let d := disconnectFromCarbon st
      dialCarbon d.1 nowDial dial d.2
  | none => dialCarbon st nowDial dial []

/-- What the environment does while one buffer is sent: the two clock readings
and the outcome of the dial of `connectToCarbon`, and the outcome of
`io.Copy(conn, pipeReader)`, that is its error, if any, and the number of bytes
the socket took before it. -/
structure Round where
  now : Int
  nowDial : Int
  dial : Except String Conn
  copyErr : Option String
  accepted : Nat

/-- What `Write` reads of the request: the prefix `StoragePrefixFromRequest`
derives from it and whether its context is done. -/
structure Request where
  graphitePrefix : Bytes
  cancelled : Bool

/-- The producer stage of one send: the bytes that go into the pipe and the
error the stage assigns to `err`. `compress` stands for `compressLZ4`. -/
def produce (ct : CompressType) (compress : Bytes → Bytes × Option String) (buf : Bytes) :
    Bytes × Option String :=
  match ct with
  | CompressType.LZ4 => compress buf
  | CompressType.Plain => (buf, none)

/-- The loop `for _, buf := range bytesBuffers` of `Write` from the buffer of
index `i` on, on the state `(client fields, events so far, err)`; the result is
the response, the error, the client fields and the events. The error of the
producer stage is overwritten by the result of `io.Copy`, and the `err` that
is returned after the loop is the result of the last `pipeReader.Close()`. -/
def sendBuffers (interval : Int) (ct : CompressType) (compress : Bytes → Bytes × Option String)
    (env : Nat → Round) :
    Nat → List Bytes → ConnState → List Event → Option String →
      Option Bytes × Option String × ConnState × List Event
  | _, [], st, events, err => (some (bytes "Done."), err, st, events)
  | i, buf :: rest, st, events, _ =>
    let c := connectToCarbon interval st (env i).now (env i).nowDial (env i).dial
    match c.err with
    | some e => (none, some e, c.state, events ++ c.events)
    | none =>
      match c.conn with
      | none => (none, some "nil connection", c.state, events ++ c.events)
      | some conn =>
        let stream := (produce ct compress buf).1
        match (env i).copyErr with
        | some e =>
          let d := disconnectFromCarbon c.state
          (none, some e, d.1,
            events ++ c.events ++ [Event.write conn (stream.take (env i).accepted)] ++ d.2)
        | none =>
          sendBuffers interval ct compress env (i + 1) rest c.state
            (events ++ c.events ++ [Event.write conn stream]) none

/-- The result of `Write`: the response and the error, the client fields and the
paths cache after the call, and what was done to the network. -/
structure WriteResult where
  resp : Option Bytes
  err : Option String
  state : ConnState
  cache : PathsCache
  events : List Event

/-- The method `Client.Write`, for the run that holds `carbonConLock`. -/
def Write (E : Ext) (client : Client E) (compress : Bytes → Bytes × Option String)
    (env : Nat → Round) (st : ConnState) (cache : PathsCache) (now : Int)
    (samples : List Sample) (reqBufLen : Nat) (r : Request) (dryRun : Bool) : WriteResult :=
  if client.CarbonAddress = "" then
    ⟨some (bytes "Skipped: Not set carbon address."), none, st, cache, []⟩
  else
    let p := prepareWrite E client cache now samples reqBufLen r.graphitePrefix
    match p.err with
    | some e => ⟨none, some e, st, p.cache, []⟩
    | none =>
      if dryRun = true then ⟨some p.bytesBuffers.flatten, none, st, p.cache, []⟩
      else if r.cancelled = true then
        ⟨some (bytes "context cancelled."), some "request context cancelled", st, p.cache, []⟩
      else
        let s := sendBuffers client.CarbonReconnectInterval client.CompressType compress env 0
          p.bytesBuffers st [] p.err
        ⟨s.1, s.2.1, s.2.2.1, p.cache, s.2.2.2⟩

/-! ## Vocabulary of the statements on buffers -/

/-- The lines of a batch: for each sample in order for which `ToDatapoints`
returns no error, the content of the slices it returns, in path order. The
paths cache goes from one sample to the next as in `prepareWrite`. -/
def batchLines (E : Ext) (client : Client E) (now : Int) (graphitePrefix : Bytes) :
    PathsCache → List Sample → List Bytes
  | _, [] => []
  | cache, s :: rest =>
    (match (ToDatapoints E cache now s client.format graphitePrefix client.Rules
        client.TemplateData).err with
      | some _ => []
      | none => (ToDatapoints E cache now s client.format graphitePrefix client.Rules
          client.TemplateData).lines) ++
      batchLines E client now graphitePrefix
        (ToDatapoints E cache now s client.format graphitePrefix client.Rules
          client.TemplateData).cache rest

/-- The grouping of lines that `packLine` performs, on the state `(groups before
the current one, current group)`: the lines are kept apart instead of being
written one after the other. -/
def packGroup (udp : Bool) (st : List (List Bytes) × List Bytes) (str : Bytes) :
    List (List Bytes) × List Bytes :=
  if udp = true ∧ st.2.flatten.length + str.length > udpMaxBytes then (st.1 ++ [st.2], [str])
  else (st.1, st.2 ++ [str])

/-- The number of buffers `packLine` starts over lines of the given sizes when
the current buffer holds `fill` bytes. -/
def newBuffers : Nat → List Nat → Nat
  | _, [] => 0
  | fill, x :: xs =>
    if fill + x > udpMaxBytes then 1 + newBuffers x xs else newBuffers (fill + x) xs

/-- A sample passes when `ToDatapoints` returns no error for it. -/
def passes (E : Ext) (client : Client E) (cache : PathsCache) (now : Int)
    (graphitePrefix : Bytes) (s : Sample) : Bool :=
  (ToDatapoints E cache now s client.format graphitePrefix client.Rules
    client.TemplateData).err.isNone

/-! ## Sample data for buffers and connections -/

/-- A client that sends over UDP with the test rules. -/
def udpClient : Client demo :=
  ⟨"127.0.0.1:2003", "udp", 3600000000000, testRules, [], Format.FormatCarbon,
    CompressType.Plain⟩

/-- A client that sends over TCP and whose only rule fails to render. -/
def failingClient : Client demo :=
  ⟨"127.0.0.1:2003", "tcp", 3600000000000, [failingRule true], [], Format.FormatCarbon,
    CompressType.Plain⟩

/-- A metric whose line has 1125 bytes, more than `udpMaxBytes`. -/
def longMetric : Metric :=
  [(MetricNameLabel, bytes "m"), (bytes "l", List.replicate 1100 97)]

/-- A sample of `longMetric`. -/
def longSample : Sample := ⟨longMetric, one, 1700000000000⟩

/-- A metric whose line has 425 bytes. -/
def wideMetric : Metric :=
  [(MetricNameLabel, bytes "m"), (bytes "l", List.replicate 400 97)]

/-- A sample of `wideMetric`. -/
def wideSample : Sample := ⟨wideMetric, one, 1700000000000⟩

/-- An environment in which every dial fails and the clock stands at `0`. -/
def refusing : Nat → Round := fun _ => ⟨0, 0, Except.error "connection refused", none, 0⟩

/-- An environment in which the dial for the buffer of index `i` gives the
connection `i + 1` at the instant `i`, and every copy succeeds. -/
def accepting : Nat → Round := fun i => ⟨i, i, Except.ok (i + 1), none, 0⟩

/-- A compression stage that passes the bytes on unchanged. -/
def noCompression : Bytes → Bytes × Option String := fun b => (b, none)

/-! ## `Unescape` of `client/graphite/template` -/

/-- Modelled from the spec: the value of a hexadecimal digit, of either case, as
`Unescape` reads it. -/
def fromHex (c : UInt8) : Option Nat :=
  if 48 ≤ c.toNat ∧ c.toNat ≤ 57 then some (c.toNat - 48)
  else if 65 ≤ c.toNat ∧ c.toNat ≤ 70 then some (c.toNat - 55)
  else if 97 ≤ c.toNat ∧ c.toNat ≤ 102 then some (c.toNat - 87)
  else none

/-- Modelled from the spec: `Unescape` of `client/graphite/template`, whose source
file is not available. One pass from left to right: a backslash and the byte
after it give that byte, a `%` and the two hexadecimal digits after it give the
byte of that code, every other byte is copied. -/
def unescape : Bytes → Bytes
  | [] => []
  | [b] => [b]
  | [b, c] => if b = 92 then [c] else b :: unescape [c]
  | b :: c :: d :: rest =>
    if b = 92 then c :: unescape (d :: rest)
    else if b = 37 then
      match fromHex c, fromHex d with
      | some x, some y => UInt8.ofNat (16 * x + y) :: unescape rest
      | _, _ => b :: unescape (c :: d :: rest)
    else b :: unescape (c :: d :: rest)

/-- The uppercase hexadecimal digit of a number below 16, for the statements on
`Escape`. -/
def upperHex (n : Nat) : UInt8 := if n < 10 then UInt8.ofNat (48 + n) else UInt8.ofNat (55 + n)

/-! ## `MetricLabelsFromPath` of `client/graphite/paths` -/

/-- The function `strings.TrimPrefix`. -/
def trimPrefix (s pfx : Bytes) : Bytes := if pfx.isPrefixOf s then s.drop pfx.length else s

/-- Modelled from the spec: the step of `MetricLabelsFromPath` that drops the dots
at the front of the path, left there when the prefix is given without its
final dot. -/
def trimDots : Bytes → Bytes
  | [] => []
  | b :: rest => if b = 46 then trimDots rest else b :: rest

/-- The function `strings.Split(s, ".")`. -/
def splitDots : Bytes → List Bytes
  | [] => [[]]
  | b :: rest =>
    if b = 46 then [] :: splitDots rest
    else
      match splitDots rest with
      | [] => [[b]]
      | node :: nodes => (b :: node) :: nodes

/-- Modelled from the spec: the step of `MetricLabelsFromPath` that takes the
nodes after the metric name two by two as name and value, the value unescaped;
`none` when a name is left without a value. -/
def pairLabels : List Bytes → Option (List (Bytes × Bytes))
  | [] => some []
  | [_] => none
  | name :: value :: rest => (pairLabels rest).map (fun ls => (name, unescape value) :: ls)

/-- Modelled from the spec: `MetricLabelsFromPath` of `client/graphite/paths`,
whose source file is not available. The prefix is removed, and with it the dot
that follows a prefix given without its final dot, as in `read_test.go`; the
rest is split on `.`; the first node is the value of the metric name label,
the nodes after it are paired as name and value, and each value is unescaped
with `Unescape`. The result is `none` when the nodes cannot be paired. -/
def MetricLabelsFromPath (path pfx : Bytes) : Option (List (Bytes × Bytes)) :=
  match splitDots (trimDots (trimPrefix path pfx)) with
  | [] => none
  | name :: nodes => (pairLabels nodes).map (fun ls => (MetricNameLabel, name) :: ls)

/-! ## `queryToTargets` of `client/graphite` -/

/-- The type `prompb.LabelMatcher_Type`. -/
inductive MatcherType where
  | EQ
  | NEQ
  | RE
  | NRE
deriving DecidableEq, Repr

/-- The type `prompb.LabelMatcher`. -/
structure LabelMatcher where
  Type_ : MatcherType
  Name : Bytes
  Value : Bytes
deriving DecidableEq, Repr

/-- The result of `queryToTargets`: the targets, the error, and the discovery
requests that were issued, by their query. -/
structure Targets where
  targets : Option (List Bytes)
  err : Option String
  requests : List Bytes

/-- Modelled from the spec: `queryToTargets` of `client/graphite`, whose source
file is not available. A query without a matcher on the metric name label
fails with the error of `TestInvalidQueryToTargets`; otherwise one discovery
request is built from the prefix, the metric name and the wildcard suffix `.**`
and issued, and the targets are the leaf paths it returns; `expand` is the
answer of the discovery endpoint. -/
def queryToTargets (expand : Bytes → Except String (List Bytes)) (matchers : List LabelMatcher)
    (graphitePrefix : Bytes) : Targets :=
  match matchers.find? (fun m => decide (m.Name = MetricNameLabel)) with
  | none => ⟨none, some "invalid remote query: no __name__ label provided", []⟩
  | some m =>
    let query := graphitePrefix ++ m.Value ++ bytes ".**"
    match expand query with
    | Except.error e => ⟨none, some e, [query]⟩
    | Except.ok leaves => ⟨some leaves, none, [query]⟩

/-! ## `lz4frame.go`: the writer -/

/-- The compression functions of the library on a context of type `σ`:
`LZ4F_compressBound` for a source size, and `LZ4F_compressBegin`,
`LZ4F_compressUpdate` and `LZ4F_compressEnd`, each given the context and the
room in the output buffer, `LZ4F_compressUpdate` also the source bytes. A call
gives an error or the bytes it put into the output buffer and the context
after it. -/
structure Compressor where
  σ : Type
  compressBound : Nat → Nat
  compressBegin : σ → Nat → Except String (Bytes × σ)
  compressUpdate : σ → Nat → Bytes → Except String (Bytes × σ)
  compressEnd : σ → Nat → Except String (Bytes × σ)

/-- The result of `Writer.Write`: the count and the error, the bytes the
underlying writer took, and whether the call panicked, in which case nothing is
returned. -/
structure Written where
  n : Nat
  err : Option String
  piped : Bytes
  panicked : Bool
deriving DecidableEq, Repr

/-- One call `writer.writer.Write(data)` of `Writer.Write`, the `k`-th of the
call, whose answer is `sink k data`, with the two checks that follow it: the
error that makes `Write` return, if any, and the bytes the underlying writer
took. -/
def emit (sink : Nat → Bytes → Nat × Option String) (k : Nat) (data : Bytes) :
    Option String × Bytes :=
  match (sink k data).2 with
  | some e => (some e, data.take (sink k data).1)
  | none =>
    if (sink k data).1 ≠ data.length then (some "short write", data.take (sink k data).1)
    else (none, data.take (sink k data).1)

/-- The chunks `bytes.Reader.Read` gives for a buffer of `room` bytes until the
input is used up; `fuel` bounds their number. -/
def chunksOf (room : Nat) : Nat → Bytes → List Bytes
  | 0, _ => []
  | fuel + 1, s => if s = [] then [] else s.take room :: chunksOf room fuel (s.drop room)

/-- The loop of `Writer.Write` over the chunks of the input, on the state
(context, number of calls of the underlying writer, bytes it took); the first
component of the result is the error that makes `Write` return. A chunk for
which `LZ4F_compressUpdate` puts nothing into the output buffer is only
buffered. -/
def compressChunks (C : Compressor) (sink : Nat → Bytes → Nat × Option String) (room : Nat) :
    List Bytes → C.σ → Nat → Bytes → Option String × C.σ × Nat × Bytes
  | [], ctx, k, piped => (none, ctx, k, piped)
  | chunk :: rest, ctx, k, piped =>
    match C.compressUpdate ctx room chunk with
    | Except.error e => (some e, ctx, k, piped)
    | Except.ok (block, ctx1) =>
      if block = [] then compressChunks C sink room rest ctx1 k piped
      else
        match (emit sink k block).1 with
        | some e => (some e, ctx1, k + 1, piped ++ (emit sink k block).2)
        | none => compressChunks C sink room rest ctx1 (k + 1) (piped ++ (emit sink k block).2)

/-- The method `Writer.Write` on a writer with context `ctx`. The output buffer
and the input buffer have `LZ4F_compressBound(len(inputData))` bytes; taking the
address of the first byte of an empty output buffer panics. -/
def Writer.Write (C : Compressor) (sink : Nat → Bytes → Nat × Option String) (ctx : C.σ)
    (inputData : Bytes) : Written :=
  let outputBufferSize := C.compressBound inputData.length
  if outputBufferSize = 0 then ⟨0, none, [], true⟩
  else
    match C.compressBegin ctx outputBufferSize with
    | Except.error e => ⟨0, some e, [], false⟩
    | Except.ok (header, ctx1) =>
      match (emit sink 0 header).1 with
      | some e => ⟨0, some e, (emit sink 0 header).2, false⟩
      | none =>
        let c := compressChunks C sink outputBufferSize
          (chunksOf outputBufferSize inputData.length inputData) ctx1 1 (emit sink 0 header).2
        match c.1 with
        | some e => ⟨0, some e, c.2.2.2, false⟩
        | none =>
          match C.compressEnd c.2.1 outputBufferSize with
          | Except.error e => ⟨0, some e, c.2.2.2, false⟩
          | Except.ok (tail, _) =>
            match (emit sink c.2.2.1 tail).1 with
            | some e => ⟨0, some e, c.2.2.2 ++ (emit sink c.2.2.1 tail).2, false⟩
            | none => ⟨inputData.length, none, c.2.2.2 ++ (emit sink c.2.2.1 tail).2, false⟩

/-! ## `compressLZ4` of `client/graphite` -/

/-- A call of a method of `lz4.Writer`; `present` tells whether the receiver is
a writer or the nil pointer. -/
inductive WriterCall where
  | Write (present : Bool) (data : Bytes)
  | Close (present : Bool)
deriving DecidableEq, Repr

/-- The result of `compressLZ4`: the returned values, the bytes that went into
the pipe, the calls on the writer in order, and whether the goroutine panicked,
in which case nothing is returned. -/
structure Compressed where
  written : Nat
  err : Option String
  piped : Bytes
  calls : List WriterCall
  panicked : Bool
deriving DecidableEq, Repr

/-- The method `Client.compressLZ4`. `newWriter` is the error of `lz4.NewWriter`,
which returns the nil writer with it, `write` is `Writer.Write` on the writer
it returns otherwise, and `close` is the error of `Writer.Close`. `io.Copy`
from a `bytes.Reader` calls `Write` once with all the bytes, and not at all when
there are none; it panics on a count above their number and reports a short
write on a count below it without error. A method of the nil writer
dereferences it, and the deferred `Close` runs also when `Write` panics. -/
def compressLZ4 (newWriter : Option String) (write : Bytes → Written) (close : Option String)
    (buf : Bytes) : Compressed :=
  match newWriter with
  | some e =>
    if buf = [] then ⟨0, none, [], [WriterCall.Close false], true⟩
    else ⟨0, some e, [], [WriterCall.Write false buf, WriterCall.Close false], true⟩
  | none =>
    if buf = [] then ⟨0, close, [], [WriterCall.Close true], false⟩
    else if (write buf).panicked = true ∨ (write buf).n > buf.length then
      ⟨0, none, (write buf).piped, [WriterCall.Write true buf, WriterCall.Close true], true⟩
    else
      let err :=
        if (write buf).n ≠ buf.length ∧ (write buf).err = none then some "short write"
        else (write buf).err
      let err := match close with
        | some errClose => some errClose
        | none => err
      ⟨(write buf).n, err, (write buf).piped,
        [WriterCall.Write true buf, WriterCall.Close true], false⟩

/-- The producer stage of `Write` with `compressLZ4`, for a writer that
`lz4.NewWriter` returned and a call that does not panic: the bytes that go into
the pipe and the error assigned to `err`. -/
def compressStage (write : Bytes → Written) (close : Option String) (buf : Bytes) :
    Bytes × Option String :=
  ((compressLZ4 none write close buf).piped, (compressLZ4 none write close buf).err)

/-! ## `lz4frame.go`: the reader -/

/-- One answer of the underlying reader to `Read(reader.buffer)`: the bytes it
put into the buffer and its error. -/
structure Chunk where
  data : Bytes
  err : Option String
deriving DecidableEq, Repr

/-- The outcome of one call of `LZ4F_decompress`: the context after it, the
number of source bytes it consumed, the bytes it produced, and its return
code, an error or the hint, `0` at the end of the frame. -/
structure Decompressed (σ : Type) where
  ctx : σ
  srcSize : Nat
  dst : Bytes
  code : Except String Nat

/-- The decompressor of the library: a function of its context, of the room in
the destination and of the source bytes offered. -/
structure Decompressor where
  σ : Type
  decompress : σ → Nat → Bytes → Decompressed σ

/-- The fields of `lz4.Reader`, for an internal buffer of positive size: `source`
holds the answers the underlying reader will give, `buffer` the bytes of its
last answer without error, that is `reader.buffer[0:size]`, and `fed` records
the bytes the decompressor has consumed. -/
structure Reader (D : Decompressor) where
  ctx : D.σ
  source : List Chunk
  buffer : Bytes
  offset : Nat
  size : Nat
  fed : Bytes

/-- The bytes of the buffer that were not consumed yet. -/
def Reader.pending {D : Decompressor} (r : Reader D) : Bytes :=
  (r.buffer.drop r.offset).take (r.size - r.offset)

/-- The branch `if reader.offset == reader.size` of `Reader.Read`: the call of
the underlying reader, which answers end-of-file when `source` is used up, and
the error that makes `Read` return. -/
def Reader.fill {D : Decompressor} (r : Reader D) : Reader D × Option String :=
  if r.offset = r.size then
    match r.source with
    | [] => (r, some "EOF")
    | c :: rest =>
      match c.err with
      | some e => ({ r with source := rest }, some e)
      | none =>
        ({ r with source := rest, buffer := c.data, offset := 0, size := c.data.length }, none)
  else (r, none)

/-- The loop `for n < len(p)` of `Reader.Read` for a destination of `cap` bytes,
of which `out` are written; the result is the bytes written, the error and the
reader, or `none` when the loop has not ended after `fuel` rounds. -/
def Reader.readLoop {D : Decompressor} (cap : Nat) :
    Nat → Reader D → Bytes → Option (Bytes × Option String × Reader D)
  | 0, _, _ => none
  | fuel + 1, r, out =>
    if out.length < cap then
      match r.fill with
      | (r1, some e) => some (out, some e, r1)
      | (r1, none) =>
        let d := D.decompress r1.ctx (cap - out.length) r1.pending
        match d.code with
        | Except.error e => some (out, some e, { r1 with ctx := d.ctx })
        | Except.ok consumed =>
          let r2 := { r1 with ctx := d.ctx, offset := r1.offset + d.srcSize,
                              fed := r1.fed ++ r1.pending.take d.srcSize }
          if consumed = 0 then some (out ++ d.dst, none, r2)
          else Reader.readLoop cap fuel r2 (out ++ d.dst)
    else some (out, none, r)

/-- The method `Reader.Read` on a destination of `cap` bytes. -/
def Reader.Read {D : Decompressor} (fuel cap : Nat) (r : Reader D) :
    Option (Bytes × Option String × Reader D) :=
  Reader.readLoop cap fuel r []

/-- The bytes of the answers without error. -/
def kept (cs : List Chunk) : Bytes :=
  (cs.filter (fun c => c.err.isNone)).flatMap (fun c => c.data)

/-- A decompressor that copies: it passes on as many source bytes as the
destination has room for, and never ends the frame. -/
def copying : Decompressor where
  σ := Unit
  decompress := fun _ room src => ⟨(), min room src.length, src.take room, Except.ok 1⟩

/-- A reader as `NewReader` returns it, over the given answers. -/
def newReader (D : Decompressor) (ctx : D.σ) (source : List Chunk) : Reader D :=
  ⟨ctx, source, [], 0, 0, []⟩

/-! ## Vocabulary of the statements on sending and reading -/

/-- The data of the write events, in order. -/
def writtenData (events : List Event) : List Bytes :=
  events.filterMap (fun ev => match ev with
    | Event.write _ data => some data
    | _ => none)

/-- A reader is well formed when `size` is the length of the buffered bytes and
`offset` is within it. -/
def Reader.WellFormed {D : Decompressor} (r : Reader D) : Prop :=
  r.size = r.buffer.length ∧ r.offset ≤ r.size

/-- A decompressor respects its source when it never reports more bytes
consumed than it was offered. -/
def Decompressor.Bounded (D : Decompressor) : Prop :=
  ∀ ctx room src, (D.decompress ctx room src).srcSize ≤ src.length

/-! ## Sample data for sending and reading -/

/-- A rule without template and with `continue: false` that matches the metrics
of team X. -/
def silencingRule : Rule demo := ⟨[(bytes "owner", bytes "team-X")], [], false, none⟩

/-- A client that sends over TCP with LZ4 compression. -/
def lz4Client : Client demo :=
  ⟨"127.0.0.1:2003", "tcp", 3600000000000, testRules, [], Format.FormatCarbon,
    CompressType.LZ4⟩

/-- An environment in which every dial succeeds and the copy of the buffer of
index `k` fails with `e` after `n` bytes. -/
def failingAt (k : Nat) (e : String) (n : Nat) : Nat → Round :=
  fun i => ⟨i, i, Except.ok (i + 1), if i = k then some e else none, n⟩

/-- A pipe that takes every byte it is given. -/
def pipe : Nat → Bytes → Nat × Option String := fun _ data => (data.length, none)

/-- A library whose `LZ4F_compressUpdate` fails: the frame header is produced and
no block. -/
def failingCompressor : Compressor where
  σ := Unit
  compressBound := fun n => n + 19
  compressBegin := fun _ _ => Except.ok ([4, 34, 77, 24, 96, 64, 130], ())
  compressUpdate := fun _ _ _ => Except.error "ERROR_GENERIC"
  compressEnd := fun _ _ => Except.ok ([0, 0, 0, 0], ())

/-- A compression stage over `failingCompressor`: `Writer.Write` fails after the
frame header. -/
def failingCompression : Bytes → Bytes × Option String :=
  compressStage (Writer.Write failingCompressor pipe ()) none

/-- Five samples of `wideMetric`. -/
def fiveWide : List Sample := [wideSample, wideSample, wideSample, wideSample, wideSample]

/-- The three buffers `prepareWrite` makes of `fiveWide` over UDP. -/
def wideBuffers : List Bytes := (prepareWrite demo udpClient cacheOff 0 fiveWide 0 []).bytesBuffers

/-- A label set with a label name that contains a dot. -/
def dotLabelMetric : Metric := [(MetricNameLabel, bytes "m"), (bytes "a.b", bytes "v")]

/-- A label set with a label of empty name. -/
def emptyLabelMetric : Metric := [(MetricNameLabel, bytes "m"), ([], bytes "v")]

/-- A label set whose metric name `Escape` changes. -/
def slashMetric : Metric := [(MetricNameLabel, bytes "a/b"), (bytes "l", bytes "v")]

/-- The matchers of `TestInvalidQueryToTargets`. -/
def invalidMatchers : List LabelMatcher :=
  [⟨MatcherType.EQ, bytes "labelname", bytes "labelvalue"⟩]

/-- The matchers of `TestQueryToTargets`. -/
def testMatchers : List LabelMatcher :=
  [⟨MatcherType.EQ, MetricNameLabel, bytes "test"⟩,
    ⟨MatcherType.RE, bytes "owner", bytes "team.*"⟩,
    ⟨MatcherType.NEQ, bytes "invalid.", bytes "fake"⟩]

/-- The discovery endpoint of `TestQueryToTargets`. -/
def testExpand : Bytes → Except String (List Bytes) := fun query =>
  if query = bytes "prometheus-prefix.test.**" then
    Except.ok [bytes "prometheus-prefix.test.owner.team-X",
      bytes "prometheus-prefix.test.owner.team-Y"]
  else Except.ok []

/-! ## The rule engine -/

theorem Metric.get_of_not_mem (m : Metric) (ln : Bytes) (h : ln ∉ m.names) : m.get ln = [] := by
  induction m with
  | nil => rfl
  | cons kv rest ih =>
    obtain ⟨k, v⟩ := kv
    have hk : ¬ ln = k := fun e => h (by simp [Metric.names, e])
    have hrest : ln ∉ Metric.names rest := fun e => h (by
      simp only [Metric.names, List.map_cons, List.mem_cons] at e ⊢
      exact Or.inr e)
    have ih' := ih hrest
    simp only [Metric.get, List.lookup, beq_iff_eq, hk] at ih' ⊢
    have hb : (ln == k) = false := by simpa using hk
    rw [hb]
    exact ih'

theorem matchExact_iff (m : Metric) (mt : List (Bytes × Bytes)) :
    matchExact m mt = true ↔ ∀ p ∈ mt, m.get p.1 = p.2 := by
  induction mt with
  | nil => simp [matchExact]
  | cons p rest ih =>
    obtain ⟨ln, lv⟩ := p
    by_cases h : m.get ln = lv
    · simp [matchExact, h, ih]
    · simp [matchExact, h]

theorem matchRegexps_iff (E : Ext) (m : Metric) (mre : List (Bytes × E.Regexp)) :
    matchRegexps E m mre = true ↔ ∀ p ∈ mre, E.MatchString p.2 (m.get p.1) = true := by
  induction mre with
  | nil => simp [matchRegexps]
  | cons p rest ih =>
    obtain ⟨ln, r⟩ := p
    by_cases h : E.MatchString r (m.get ln) = true
    · simp [matchRegexps, h, ih]
    · simp [matchRegexps, h]

/-- C7: `match` returns true exactly when every exact-match constraint equals the
metric's value for its label and every regular expression matches the metric's
value for its label; the value of a label the metric does not have is the
empty string, and a rule without constraints matches every metric. -/
theorem match_iff_constraints (E : Ext) (m : Metric) (mt : List (Bytes × Bytes))
    (mre : List (Bytes × E.Regexp)) :
    (matchMetric E m mt mre = true ↔
      (∀ p ∈ mt, m.get p.1 = p.2) ∧ (∀ p ∈ mre, E.MatchString p.2 (m.get p.1) = true)) ∧
    (∀ ln, ln ∉ m.names → m.get ln = []) ∧
    matchMetric E m [] [] = true := by
  refine ⟨?_, fun ln h => Metric.get_of_not_mem m ln h, by simp [matchMetric, matchExact, matchRegexps]⟩
  rw [← matchExact_iff, ← matchRegexps_iff]
  unfold matchMetric
  cases matchExact m mt <;> cases matchRegexps E m mre <;> simp

theorem templatedPathsLoop_continue (E : Ext) (m : Metric)
    (templateData : List (Bytes × E.Value)) (rules : List (Rule E)) :
    ∀ (paths ps : List Bytes),
      (∀ r ∈ rules, matchMetric E m r.Match r.MatchRE = true → r.Continue = true) →
      List.Forall₂ (Renders E m templateData) (matching E m rules) ps →
      templatedPathsLoop E m templateData rules paths false = (paths ++ ps, false, none) := by
  induction rules with
  | nil =>
    intro paths ps _ hren
    cases hren
    simp [templatedPathsLoop]
  | cons r rest ih =>
    intro paths ps hcont hren
    have hrest : ∀ q ∈ rest, matchMetric E m q.Match q.MatchRE = true → q.Continue = true :=
      fun q hq => hcont q (List.mem_cons_of_mem _ hq)
    by_cases hm : matchMetric E m r.Match r.MatchRE = true
    · have hc : r.Continue = true := hcont r (List.mem_cons_self _ _) hm
      have hfil : matching E m (r :: rest) = r :: matching E m rest := by
        simp [matching, List.filter_cons, hm]
      rw [hfil] at hren
      cases hren with
      | cons hp htail =>
        rename_i p ps'
        have hexec : E.Execute r.Tmpl (loadContext templateData m) = Except.ok p := hp
        have := ih (paths ++ [p]) ps' hrest htail
        simp only [templatedPathsLoop, hm, hc, hexec]
        simpa using this
    · have hm' : matchMetric E m r.Match r.MatchRE = false := by simpa using hm
      have hfil : matching E m (r :: rest) = matching E m rest := by
        simp [matching, List.filter_cons, hm']
      rw [hfil] at hren
      simp only [templatedPathsLoop, hm']
      simpa using ih paths ps hrest hren

theorem templatedPathsLoop_terminal (E : Ext) (m : Metric)
    (templateData : List (Bytes × E.Value)) (pre : List (Rule E)) (r : Rule E)
    (post : List (Rule E)) (p : Bytes)
    (hm : matchMetric E m r.Match r.MatchRE = true) (hc : r.Continue = false)
    (ht : r.Tmpl ≠ E.zeroTmpl) (hp : Renders E m templateData r p) :
    ∀ (paths ps : List Bytes),
      (∀ q ∈ pre, matchMetric E m q.Match q.MatchRE = true → q.Continue = true) →
      List.Forall₂ (Renders E m templateData) (matching E m pre) ps →
      templatedPathsLoop E m templateData (pre ++ r :: post) paths false =
        (paths ++ ps ++ [p], true, none) := by
  induction pre with
  | nil =>
    intro paths ps _ hren
    cases hren
    have hexec : E.Execute r.Tmpl (loadContext templateData m) = Except.ok p := hp
    simp [templatedPathsLoop, hm, hc, ht, hexec]
  | cons q rest ih =>
    intro paths ps hcont hren
    have hrest : ∀ x ∈ rest, matchMetric E m x.Match x.MatchRE = true → x.Continue = true :=
      fun x hx => hcont x (List.mem_cons_of_mem _ hx)
    by_cases hmq : matchMetric E m q.Match q.MatchRE = true
    · have hcq : q.Continue = true := hcont q (List.mem_cons_self _ _) hmq
      have hfil : matching E m (q :: rest) = q :: matching E m rest := by
        simp [matching, List.filter_cons, hmq]
      rw [hfil] at hren
      cases hren with
      | cons hq htail =>
        rename_i pq ps'
        have hexec : E.Execute q.Tmpl (loadContext templateData m) = Except.ok pq := hq
        have := ih (paths ++ [pq]) ps' hrest htail
        simp only [List.cons_append, templatedPathsLoop, hmq, hcq, hexec]
        simpa using this
    · have hmq' : matchMetric E m q.Match q.MatchRE = false := by simpa using hmq
      have hfil : matching E m (q :: rest) = matching E m rest := by
        simp [matching, List.filter_cons, hmq']
      rw [hfil] at hren
      simp only [List.cons_append, templatedPathsLoop, hmq']
      simpa using ih paths ps hrest hren

theorem templatedPathsLoop_suppressed (E : Ext) (m : Metric)
    (templateData : List (Bytes × E.Value)) (pre : List (Rule E)) (r : Rule E)
    (post : List (Rule E))
    (hm : matchMetric E m r.Match r.MatchRE = true) (hc : r.Continue = false)
    (ht : r.Tmpl = E.zeroTmpl) :
    ∀ (paths : List Bytes) (stop : Bool),
      (∀ q ∈ pre, matchMetric E m q.Match q.MatchRE = false) →
      templatedPathsLoop E m templateData (pre ++ r :: post) paths stop = ([], true, none) := by
  induction pre with
  | nil =>
    intro paths stop _
    simp [templatedPathsLoop, hm, hc, ht]
  | cons q rest ih =>
    intro paths stop hpre
    have hq : matchMetric E m q.Match q.MatchRE = false := hpre q (List.mem_cons_self _ _)
    simp only [List.cons_append, templatedPathsLoop, hq]
    simpa using ih paths stop (fun x hx => hpre x (List.mem_cons_of_mem _ hx))

theorem pathsFromMetric_of_miss (E : Ext) (cache : PathsCache) (now : Int) (m : Metric)
    (format : Format) (pfx : Bytes) (rules : List (Rule E))
    (templateData : List (Bytes × E.Value)) (h : cachedPaths E cache now m = none) :
    (pathsFromMetric E cache now m format pfx rules templateData).1 =
      (if (templatedPaths E m rules templateData).2.1 = false then
        (templatedPaths E m rules templateData).1 ++ [defaultPath E m format pfx]
       else (templatedPaths E m rules templateData).1) ∧
    (pathsFromMetric E cache now m format pfx rules templateData).2.1 =
      (templatedPaths E m rules templateData).2.2 := by
  simp [pathsFromMetric, h]

theorem cachedPaths_of_disabled (E : Ext) (cache : PathsCache) (now : Int) (m : Metric)
    (h : cache.enabled = false) : cachedPaths E cache now m = none := by
  simp [cachedPaths, h]

theorem pathsFromMetric_cache_of_disabled (E : Ext) (cache : PathsCache) (now : Int)
    (m : Metric) (format : Format) (pfx : Bytes) (rules : List (Rule E))
    (templateData : List (Bytes × E.Value)) (h : cache.enabled = false) :
    (pathsFromMetric E cache now m format pfx rules templateData).2.2 = cache := by
  simp [pathsFromMetric, cachedPaths, h]

/-- C2: for a sample whose value is NaN, +Inf or -Inf, `ToDatapoints` returns the
error "invalid sample value" and no line, whatever the metric, rules, format
and prefix are, and leaves the paths cache as it was. -/
theorem ToDatapoints_nonfinite (E : Ext) (cache : PathsCache) (now : Int) (s : Sample)
    (format : Format) (pfx : Bytes) (rules : List (Rule E))
    (templateData : List (Bytes × E.Value))
    (h : IsNaN s.Value = true ∨ s.Value = Inf 1 ∨ s.Value = Inf (-1)) :
    (ToDatapoints E cache now s format pfx rules templateData).err = some "invalid sample value" ∧
    (ToDatapoints E cache now s format pfx rules templateData).dataPoints = [] ∧
    (ToDatapoints E cache now s format pfx rules templateData).lines = [] ∧
    (ToDatapoints E cache now s format pfx rules templateData).cache = cache := by
  have hv : (IsNaN s.Value || IsInf s.Value 0) = true := by
    rcases h with h | h | h
    · simp [h]
    · have : IsInf s.Value 0 = true := by rw [h]; decide
      simp [this]
    · have : IsInf s.Value 0 = true := by rw [h]; decide
      simp [this]
  simp [ToDatapoints, hv, Datapoints.lines]

theorem ToDatapoints_nonfinite_witness :
    (ToDatapoints demo cacheOn 0 ⟨metricX, quietNaN, 0⟩ Format.FormatCarbon (bytes "prefix.")
        testRules []).err = some "invalid sample value" ∧
    (ToDatapoints demo cacheOn 0 ⟨metricX, quietNaN, 0⟩ Format.FormatCarbon (bytes "prefix.")
        testRules []).dataPoints = [] ∧
    (ToDatapoints demo cacheOn 0 ⟨metricX, quietNaN, 0⟩ Format.FormatCarbon (bytes "prefix.")
        testRules []).lines = [] ∧
    (ToDatapoints demo cacheOn 0 ⟨metricX, quietNaN, 0⟩ Format.FormatCarbon (bytes "prefix.")
        testRules []).cache = cacheOn :=
  ToDatapoints_nonfinite demo cacheOn 0 ⟨metricX, quietNaN, 0⟩ Format.FormatCarbon
    (bytes "prefix.") testRules [] (Or.inl (by decide))

/-- C3: when no matching rule has `continue = false` and the template of every
matching rule renders, `pathsFromMetric` (cache disabled, or no entry for the
metric) returns no error and the rendered templates of the matching rules in
rule order followed by the default path; with no matching rule the result is
the one-element list of the default path. -/
theorem pathsFromMetric_no_terminal (E : Ext) (cache : PathsCache) (now : Int) (m : Metric)
    (format : Format) (pfx : Bytes) (rules : List (Rule E))
    (templateData : List (Bytes × E.Value)) (ps : List Bytes)
    (hcache : cachedPaths E cache now m = none)
    (hcont : ∀ r ∈ rules, matchMetric E m r.Match r.MatchRE = true → r.Continue = true)
    (hren : List.Forall₂ (Renders E m templateData) (matching E m rules) ps) :
    (pathsFromMetric E cache now m format pfx rules templateData).1 =
      ps ++ [defaultPath E m format pfx] ∧
    (pathsFromMetric E cache now m format pfx rules templateData).2.1 = none ∧
    (matching E m rules = [] →
      (pathsFromMetric E cache now m format pfx rules templateData).1 =
        [defaultPath E m format pfx]) := by
  have hloop := templatedPathsLoop_continue E m templateData rules [] ps hcont hren
  have hmiss := pathsFromMetric_of_miss E cache now m format pfx rules templateData hcache
  have htp : templatedPaths E m rules templateData = (ps, false, none) := by
    simpa [templatedPaths] using hloop
  rw [htp] at hmiss
  refine ⟨by simpa using hmiss.1, by simpa using hmiss.2, ?_⟩
  intro hnone
  rw [hnone] at hren
  cases hren
  simpa using hmiss.1

theorem pathsFromMetric_no_terminal_witness :
    (pathsFromMetric demo cacheOff 0 metricX Format.FormatCarbon (bytes "prefix.") testRules
        []).1 =
      [bytes "tmpl_1.team-X"] ++ [defaultPath demo metricX Format.FormatCarbon (bytes "prefix.")] ∧
    (pathsFromMetric demo cacheOff 0 metricX Format.FormatCarbon (bytes "prefix.") testRules
        []).2.1 = none ∧
    (matching demo metricX testRules = [] →
      (pathsFromMetric demo cacheOff 0 metricX Format.FormatCarbon (bytes "prefix.") testRules
          []).1 = [defaultPath demo metricX Format.FormatCarbon (bytes "prefix.")]) :=
  pathsFromMetric_no_terminal demo cacheOff 0 metricX Format.FormatCarbon (bytes "prefix.")
    testRules [] [bytes "tmpl_1.team-X"] (by decide) (by decide)
    (List.Forall₂.cons (by unfold Renders; rfl) List.Forall₂.nil)

theorem ToDatapoints_of_no_paths (E : Ext) (cache : PathsCache) (now : Int) (s : Sample)
    (format : Format) (pfx : Bytes) (rules : List (Rule E))
    (templateData : List (Bytes × E.Value)) (hv : Finite s.Value)
    (hp : (pathsFromMetric E cache now s.Metric format pfx rules templateData).1 = [])
    (he : (pathsFromMetric E cache now s.Metric format pfx rules templateData).2.1 = none) :
    (ToDatapoints E cache now s format pfx rules templateData).dataPoints = [] ∧
    (ToDatapoints E cache now s format pfx rules templateData).err = none := by
  have hv' : (IsNaN s.Value || IsInf s.Value 0) = false := hv
  simp only [ToDatapoints, hv', he, hp]
  simp

/-- C4: if the first rule that matches a metric has `continue = false` and no
template, `pathsFromMetric` (cache disabled, or no entry for the metric)
returns the empty path list and no error, so the default path is not appended,
and `ToDatapoints` on a sample of that metric with a finite value returns no
line and no error. -/
theorem pathsFromMetric_suppressed (E : Ext) (cache : PathsCache) (now : Int) (m : Metric)
    (format : Format) (pfx : Bytes) (pre : List (Rule E)) (r : Rule E) (post : List (Rule E))
    (templateData : List (Bytes × E.Value))
    (hcache : cachedPaths E cache now m = none)
    (hpre : ∀ q ∈ pre, matchMetric E m q.Match q.MatchRE = false)
    (hm : matchMetric E m r.Match r.MatchRE = true) (hc : r.Continue = false)
    (ht : r.Tmpl = E.zeroTmpl) :
    (pathsFromMetric E cache now m format pfx (pre ++ r :: post) templateData).1 = [] ∧
    (pathsFromMetric E cache now m format pfx (pre ++ r :: post) templateData).2.1 = none ∧
    (∀ (v : Float64) (ts : Int), Finite v →
      (ToDatapoints E cache now ⟨m, v, ts⟩ format pfx (pre ++ r :: post)
          templateData).dataPoints = [] ∧
      (ToDatapoints E cache now ⟨m, v, ts⟩ format pfx (pre ++ r :: post)
          templateData).lines = [] ∧
      (ToDatapoints E cache now ⟨m, v, ts⟩ format pfx (pre ++ r :: post)
          templateData).err = none) := by
  have hloop := templatedPathsLoop_suppressed E m templateData pre r post hm hc ht [] false hpre
  have hmiss :=
    pathsFromMetric_of_miss E cache now m format pfx (pre ++ r :: post) templateData hcache
  have htp : templatedPaths E m (pre ++ r :: post) templateData = ([], true, none) := by
    simpa [templatedPaths] using hloop
  rw [htp] at hmiss
  have h1 : (pathsFromMetric E cache now m format pfx (pre ++ r :: post) templateData).1 = [] := by
    simpa using hmiss.1
  have h2 :
      (pathsFromMetric E cache now m format pfx (pre ++ r :: post) templateData).2.1 = none := by
    simpa using hmiss.2
  refine ⟨h1, h2, ?_⟩
  intro v ts hv
  have h := ToDatapoints_of_no_paths E cache now ⟨m, v, ts⟩ format pfx (pre ++ r :: post)
    templateData hv h1 h2
  refine ⟨h.1, ?_, h.2⟩
  simp [Datapoints.lines, h.1]

theorem pathsFromMetric_suppressed_witness :
    (pathsFromMetric demo cacheOff 0 skipedMetric Format.FormatCarbon []
        ([rule1, rule2, rule3] ++ rule4 :: []) []).1 = [] ∧
    (pathsFromMetric demo cacheOff 0 skipedMetric Format.FormatCarbon []
        ([rule1, rule2, rule3] ++ rule4 :: []) []).2.1 = none ∧
    (∀ (v : Float64) (ts : Int), Finite v →
      (ToDatapoints demo cacheOff 0 ⟨skipedMetric, v, ts⟩ Format.FormatCarbon []
          ([rule1, rule2, rule3] ++ rule4 :: []) []).dataPoints = [] ∧
      (ToDatapoints demo cacheOff 0 ⟨skipedMetric, v, ts⟩ Format.FormatCarbon []
          ([rule1, rule2, rule3] ++ rule4 :: []) []).lines = [] ∧
      (ToDatapoints demo cacheOff 0 ⟨skipedMetric, v, ts⟩ Format.FormatCarbon []
          ([rule1, rule2, rule3] ++ rule4 :: []) []).err = none) :=
  pathsFromMetric_suppressed demo cacheOff 0 skipedMetric Format.FormatCarbon []
    [rule1, rule2, rule3] rule4 [] [] (by decide) (by decide) (by decide) (by decide)
    (by decide)

/-- C5: if a matching rule with a template and `continue = false` is reached (every
matching rule before it has `continue = true`) and the templates of the
matching rules up to it render, `pathsFromMetric` (cache disabled, or no entry
for the metric) returns no error and exactly those rendered templates in rule
order: the rules after the terminal rule contribute nothing and the default
path is not appended. -/
theorem pathsFromMetric_terminal (E : Ext) (cache : PathsCache) (now : Int) (m : Metric)
    (format : Format) (pfx : Bytes) (pre : List (Rule E)) (r : Rule E) (post : List (Rule E))
    (templateData : List (Bytes × E.Value)) (ps : List Bytes) (p : Bytes)
    (hcache : cachedPaths E cache now m = none)
    (hcont : ∀ q ∈ pre, matchMetric E m q.Match q.MatchRE = true → q.Continue = true)
    (hren : List.Forall₂ (Renders E m templateData) (matching E m pre) ps)
    (hm : matchMetric E m r.Match r.MatchRE = true) (hc : r.Continue = false)
    (ht : r.Tmpl ≠ E.zeroTmpl) (hp : Renders E m templateData r p) :
    (pathsFromMetric E cache now m format pfx (pre ++ r :: post) templateData).1 = ps ++ [p] ∧
    (pathsFromMetric E cache now m format pfx (pre ++ r :: post) templateData).2.1 = none := by
  have hloop :=
    templatedPathsLoop_terminal E m templateData pre r post p hm hc ht hp [] ps hcont hren
  have hmiss :=
    pathsFromMetric_of_miss E cache now m format pfx (pre ++ r :: post) templateData hcache
  have htp : templatedPaths E m (pre ++ r :: post) templateData = (ps ++ [p], true, none) := by
    simpa [templatedPaths] using hloop
  rw [htp] at hmiss
  exact ⟨by simpa using hmiss.1, by simpa using hmiss.2⟩

theorem pathsFromMetric_terminal_witness :
    (pathsFromMetric demo cacheOff 0 multiMatchMetric Format.FormatCarbon (bytes "prefix.")
        ([rule1] ++ rule2 :: [rule3, rule4]) []).1 =
      [bytes "tmpl_1.team-X"] ++ [bytes "tmpl_2.team-X.data.foo"] ∧
    (pathsFromMetric demo cacheOff 0 multiMatchMetric Format.FormatCarbon (bytes "prefix.")
        ([rule1] ++ rule2 :: [rule3, rule4]) []).2.1 = none :=
  pathsFromMetric_terminal demo cacheOff 0 multiMatchMetric Format.FormatCarbon
    (bytes "prefix.") [rule1] rule2 [rule3, rule4] [] [bytes "tmpl_1.team-X"]
    (bytes "tmpl_2.team-X.data.foo") (by decide) (by decide)
    (List.Forall₂.cons (by unfold Renders; rfl) List.Forall₂.nil) (by decide) (by decide)
    (by decide) (by unfold Renders; rfl)

theorem templatedPathsLoop_render_error (E : Ext) (m : Metric)
    (templateData : List (Bytes × E.Value)) (pre : List (Rule E)) (r : Rule E)
    (post : List (Rule E)) (e : String)
    (hm : matchMetric E m r.Match r.MatchRE = true)
    (ht : ¬ (r.Continue = false ∧ r.Tmpl = E.zeroTmpl))
    (he : E.Execute r.Tmpl (loadContext templateData m) = Except.error e) :
    ∀ (paths ps : List Bytes),
      (∀ q ∈ pre, matchMetric E m q.Match q.MatchRE = true → q.Continue = true) →
      List.Forall₂ (Renders E m templateData) (matching E m pre) ps →
      templatedPathsLoop E m templateData (pre ++ r :: post) paths false =
        (paths ++ ps, !r.Continue, some e) := by
  induction pre with
  | nil =>
    intro paths ps _ hren
    cases hren
    simp [templatedPathsLoop, hm, ht, he]
  | cons q rest ih =>
    intro paths ps hcont hren
    have hrest : ∀ x ∈ rest, matchMetric E m x.Match x.MatchRE = true → x.Continue = true :=
      fun x hx => hcont x (List.mem_cons_of_mem _ hx)
    by_cases hmq : matchMetric E m q.Match q.MatchRE = true
    · have hcq : q.Continue = true := hcont q (List.mem_cons_self _ _) hmq
      have hfil : matching E m (q :: rest) = q :: matching E m rest := by
        simp [matching, List.filter_cons, hmq]
      rw [hfil] at hren
      cases hren with
      | cons hq htail =>
        rename_i pq ps'
        have hexec : E.Execute q.Tmpl (loadContext templateData m) = Except.ok pq := hq
        have := ih (paths ++ [pq]) ps' hrest htail
        simp only [List.cons_append, templatedPathsLoop, hmq, hcq, hexec]
        simpa using this
    · have hmq' : matchMetric E m q.Match q.MatchRE = false := by simpa using hmq
      have hfil : matching E m (q :: rest) = matching E m rest := by
        simp [matching, List.filter_cons, hmq']
      rw [hfil] at hren
      simp only [List.cons_append, templatedPathsLoop, hmq']
      simpa using ih paths ps hrest hren

/-- What `pathsFromMetric` returns when a template fails to render. -/
theorem pathsFromMetric_render_error (E : Ext) (cache : PathsCache) (now : Int) (m : Metric)
    (format : Format) (pfx : Bytes) (pre : List (Rule E)) (r : Rule E) (post : List (Rule E))
    (templateData : List (Bytes × E.Value)) (ps : List Bytes) (e : String)
    (hcache : cachedPaths E cache now m = none)
    (hcont : ∀ q ∈ pre, matchMetric E m q.Match q.MatchRE = true → q.Continue = true)
    (hren : List.Forall₂ (Renders E m templateData) (matching E m pre) ps)
    (hm : matchMetric E m r.Match r.MatchRE = true)
    (ht : ¬ (r.Continue = false ∧ r.Tmpl = E.zeroTmpl))
    (he : E.Execute r.Tmpl (loadContext templateData m) = Except.error e) :
    (pathsFromMetric E cache now m format pfx (pre ++ r :: post) templateData).1 =
      (if r.Continue then ps ++ [defaultPath E m format pfx] else ps) ∧
    (pathsFromMetric E cache now m format pfx (pre ++ r :: post) templateData).2.1 = some e := by
  have hloop :=
    templatedPathsLoop_render_error E m templateData pre r post e hm ht he [] ps hcont hren
  have hmiss :=
    pathsFromMetric_of_miss E cache now m format pfx (pre ++ r :: post) templateData hcache
  have htp : templatedPaths E m (pre ++ r :: post) templateData =
      (ps, !r.Continue, some e) := by
    simpa [templatedPaths] using hloop
  rw [htp] at hmiss
  refine ⟨?_, by simpa using hmiss.2⟩
  rw [hmiss.1]
  cases r.Continue <;> simp

/-! ## The default path -/

theorem stringLess_irrefl (a : Bytes) : stringLess a a = false := by
  induction a with
  | nil => rfl
  | cons x xs ih => simp [stringLess, ih]

theorem stringLE_total (a : Bytes) : ∀ b : Bytes, StringLE a b ∨ StringLE b a := by
  induction a with
  | nil => intro b; cases b <;> simp [StringLE, stringLess]
  | cons x xs ih =>
    intro b
    cases b with
    | nil => simp [StringLE, stringLess]
    | cons y ys =>
      simp only [StringLE, stringLess]
      rcases Nat.lt_trichotomy x.toNat y.toNat with h | h | h
      · left
        have h' : ¬ y.toNat < x.toNat := by omega
        simp [h, h']
      · have h1 : ¬ y.toNat < x.toNat := by omega
        have h2 : ¬ x.toNat < y.toNat := by omega
        simpa [h1, h2, StringLE] using ih ys
      · right
        have h' : ¬ x.toNat < y.toNat := by omega
        simp [h, h']

theorem stringLE_antisymm (a : Bytes) : ∀ b : Bytes, StringLE a b → StringLE b a → a = b := by
  induction a with
  | nil => intro b; cases b <;> simp [StringLE, stringLess]
  | cons x xs ih =>
    intro b
    cases b with
    | nil => simp [StringLE, stringLess]
    | cons y ys =>
      simp only [StringLE, stringLess]
      intro h1 h2
      rcases Nat.lt_trichotomy x.toNat y.toNat with h | h | h
      · simp [h] at h2
      · have hxy : x = y := UInt8.ext h
        have e1 : ¬ y.toNat < x.toNat := by omega
        have e2 : ¬ x.toNat < y.toNat := by omega
        simp only [e1, e2, if_false] at h1 h2
        rw [hxy, ih ys h1 h2]
      · simp [h] at h1

theorem stringLE_trans (a : Bytes) : ∀ b c : Bytes, StringLE a b → StringLE b c → StringLE a c := by
  induction a with
  | nil => intro b c; cases b <;> cases c <;> simp [StringLE, stringLess]
  | cons x xs ih =>
    intro b c
    cases b with
    | nil => cases c <;> simp [StringLE, stringLess]
    | cons y ys =>
      cases c with
      | nil => simp [StringLE, stringLess]
      | cons z zs =>
        simp only [StringLE, stringLess]
        intro h1 h2
        rcases Nat.lt_trichotomy x.toNat y.toNat with h | h | h
        · rcases Nat.lt_trichotomy y.toNat z.toNat with g | g | g
          · have e1 : ¬ z.toNat < x.toNat := by omega
            have e2 : x.toNat < z.toNat := by omega
            simp [e1, e2]
          · have e1 : ¬ z.toNat < x.toNat := by omega
            have e2 : x.toNat < z.toNat := by omega
            simp [e1, e2]
          · simp [g] at h2
        · rcases Nat.lt_trichotomy y.toNat z.toNat with g | g | g
          · have e1 : ¬ z.toNat < x.toNat := by omega
            have e2 : x.toNat < z.toNat := by omega
            simp [e1, e2]
          · have e1 : ¬ z.toNat < x.toNat := by omega
            have e2 : ¬ x.toNat < z.toNat := by omega
            have e3 : ¬ y.toNat < x.toNat := by omega
            have e4 : ¬ x.toNat < y.toNat := by omega
            have e5 : ¬ z.toNat < y.toNat := by omega
            have e6 : ¬ y.toNat < z.toNat := by omega
            simp only [e3, e4, e5, e6, if_false] at h1 h2
            simp only [e1, e2, if_false]
            exact ih ys zs h1 h2
          · simp [g] at h2
        · simp [h] at h1

theorem sortLabelNames_eq_of_sorted_perm (ls names : List Bytes) (hperm : ls.Perm names)
    (hsorted : ls.Sorted StringLE) : sortLabelNames names = ls := by
  haveI : IsTotal Bytes StringLE := ⟨stringLE_total⟩
  haveI : IsTrans Bytes StringLE := ⟨stringLE_trans⟩
  haveI : IsAntisymm Bytes StringLE := ⟨stringLE_antisymm⟩
  exact List.eq_of_perm_of_sorted ((List.perm_insertionSort StringLE names).trans hperm.symm)
    (List.sorted_insertionSort StringLE names) hsorted

theorem sortLabelNames_sorted (names : List Bytes) : (sortLabelNames names).Sorted StringLE := by
  haveI : IsTotal Bytes StringLE := ⟨stringLE_total⟩
  haveI : IsTrans Bytes StringLE := ⟨stringLE_trans⟩
  exact List.sorted_insertionSort StringLE names

theorem sortLabelNames_perm (names : List Bytes) : (sortLabelNames names).Perm names :=
  List.perm_insertionSort StringLE names

theorem Metric.get_perm (m1 m2 : Metric) (hp : m1.Perm m2) (hnd : m1.names.Nodup) (ln : Bytes) :
    m1.get ln = m2.get ln := by
  induction hp with
  | nil => rfl
  | cons x _ ih =>
    simp only [Metric.names, List.map_cons, List.nodup_cons] at hnd
    have := ih hnd.2
    simp only [Metric.get, List.lookup] at this ⊢
    cases hb : (ln == x.1)
    · simpa [hb] using this
    · simp [hb]
  | swap x y l =>
    simp only [Metric.names, List.map_cons, List.nodup_cons, List.mem_cons, not_or] at hnd
    have hxy : ¬ y.1 = x.1 := hnd.1.1
    simp only [Metric.get, List.lookup]
    cases hb1 : (ln == y.1) <;> cases hb2 : (ln == x.1) <;> simp
    · have e1 : ln = y.1 := by simpa using hb1
      have e2 : ln = x.1 := by simpa using hb2
      exact absurd (e1.symm.trans e2) hxy
  | trans h1 _ ih1 ih2 =>
    have hnd2 := (h1.map Prod.fst).nodup_iff.1 hnd
    exact (ih1 hnd).trans (ih2 hnd2)

theorem defaultPathStep_congr (E : Ext) (m1 m2 : Metric) (format : Format)
    (h : ∀ ln, m1.get ln = m2.get ln) :
    defaultPathStep E m1 format = defaultPathStep E m2 format := by
  funext st l
  simp only [defaultPathStep, h]

/-- C8: `defaultPath` returns the same bytes whatever order the entries of the
label set are enumerated in: two enumerations of one set of (name, value)
pairs give the same path, in every format and with every prefix. -/
theorem defaultPath_order_independent (E : Ext) (m1 m2 : Metric) (format : Format) (pfx : Bytes)
    (hnd : m1.names.Nodup) (hp : m1.Perm m2) :
    defaultPath E m1 format pfx = defaultPath E m2 format pfx := by
  have hget : ∀ ln, m1.get ln = m2.get ln := fun ln => Metric.get_perm m1 m2 hp hnd ln
  have hsort : sortLabelNames m2.names = sortLabelNames m1.names :=
    sortLabelNames_eq_of_sorted_perm _ _
      ((sortLabelNames_perm m1.names).trans (hp.map Prod.fst)) (sortLabelNames_sorted m1.names)
  simp only [defaultPath, hsort, defaultPathStep_congr E m1 m2 format hget, hget]

theorem length_zero_iff_nil (l : Bytes) : l.length = 0 ↔ l = [] := List.length_eq_zero

theorem foldl_dotted (E : Ext) (m : Metric) (ls : List Bytes) :
    ∀ (acc : Bytes) (first : Bool),
      ((ls.foldl (defaultPathStep E m Format.FormatCarbon) (acc, first)).1 =
        acc ++ (qualifying ls).flatMap
          (fun l => bytes "." ++ l ++ bytes "." ++ E.Escape (m.get l))) := by
  induction ls with
  | nil => intro acc first; simp [qualifying]
  | cons l rest ih =>
    intro acc first
    by_cases hq : l ≠ MetricNameLabel ∧ l ≠ []
    · have hskip : ¬ (l = MetricNameLabel ∨ l.length = 0) := by
        rw [length_zero_iff_nil]; tauto
      have hfil : qualifying (l :: rest) = l :: qualifying rest := by
        simp [qualifying, List.filter_cons, hq]
      rw [List.foldl_cons, hfil]
      simp only [defaultPathStep, hskip, if_false]
      have hf : ¬ (Format.FormatCarbon = Format.FormatCarbonOpenMetrics) := by decide
      have hg : ¬ (Format.FormatCarbon = Format.FormatCarbonTags) := by decide
      simp only [hf, hg, if_false]
      rw [ih]
      simp [List.flatMap_cons, List.append_assoc]
    · have hskip : (l = MetricNameLabel ∨ l.length = 0) := by
        rw [length_zero_iff_nil]; tauto
      have hfil : qualifying (l :: rest) = qualifying rest := by
        simp only [qualifying, List.filter_cons]
        simp [hq]
      rw [List.foldl_cons, hfil]
      simp only [defaultPathStep, hskip, if_true]
      exact ih acc first

/-- C9: in the Dotted format (`FormatCarbon`) `defaultPath` is the prefix, the
escaped metric name and then, for the label names in ascending order without
the metric name label and the empty name, `.` name `.` escaped value; names
are written as they are, and the metric name of a label set without one is
the empty string, which adds nothing to the path when `Escape` maps the empty
string to itself. -/
theorem defaultPath_dotted (E : Ext) (m : Metric) (pfx : Bytes) (ls : List Bytes)
    (hperm : ls.Perm m.names) (hsorted : ls.Sorted StringLE) :
    defaultPath E m Format.FormatCarbon pfx =
      pfx ++ E.Escape (m.get MetricNameLabel) ++
        (qualifying ls).flatMap (fun l => bytes "." ++ l ++ bytes "." ++ E.Escape (m.get l)) ∧
    (MetricNameLabel ∉ m.names → m.get MetricNameLabel = []) ∧
    (MetricNameLabel ∉ m.names → E.Escape [] = [] →
      defaultPath E m Format.FormatCarbon pfx =
        pfx ++
          (qualifying ls).flatMap (fun l => bytes "." ++ l ++ bytes "." ++ E.Escape (m.get l))) := by
  have hmain : defaultPath E m Format.FormatCarbon pfx =
      pfx ++ E.Escape (m.get MetricNameLabel) ++
        (qualifying ls).flatMap (fun l => bytes "." ++ l ++ bytes "." ++ E.Escape (m.get l)) := ?_
  · refine ⟨hmain, Metric.get_of_not_mem m MetricNameLabel, ?_⟩
    intro hno hesc
    rw [hmain, Metric.get_of_not_mem m MetricNameLabel hno, hesc, List.append_nil]
  have hsort := sortLabelNames_eq_of_sorted_perm ls m.names hperm hsorted
  have hfold := foldl_dotted E m ls [] true
  simp only [defaultPath, hsort, hfold, List.nil_append]
  have hf : ¬ (Format.FormatCarbon = Format.FormatCarbonOpenMetrics) := by decide
  simp only [hf, if_false]
  split
  · rfl
  · rename_i h
    have : (qualifying ls).flatMap
        (fun l => bytes "." ++ l ++ bytes "." ++ E.Escape (m.get l)) = [] := by
      apply List.length_eq_zero.1
      omega
    rw [this]
    simp

theorem qualifying_cons_of (l : Bytes) (rest : List Bytes)
    (hq : l ≠ MetricNameLabel ∧ l ≠ []) : qualifying (l :: rest) = l :: qualifying rest := by
  simp [qualifying, List.filter_cons, hq]

theorem qualifying_cons_of_not (l : Bytes) (rest : List Bytes)
    (hq : ¬ (l ≠ MetricNameLabel ∧ l ≠ [])) : qualifying (l :: rest) = qualifying rest := by
  simp only [qualifying, List.filter_cons]
  simp [hq]

theorem intercalate_cons (sep x : Bytes) (xs : List Bytes) :
    List.intercalate sep (x :: xs) = x ++ xs.flatMap (fun q => sep ++ q) := by
  induction xs generalizing x with
  | nil => simp [List.intercalate]
  | cons y ys ih =>
    have := ih y
    simp only [List.intercalate, List.intersperse, List.flatten_cons, List.flatMap_cons] at this ⊢
    rw [this]
    simp [List.append_assoc]

theorem foldl_braces_rest (E : Ext) (m : Metric) (ls : List Bytes) :
    ∀ (acc : Bytes),
      (ls.foldl (defaultPathStep E m Format.FormatCarbonOpenMetrics) (acc, false)).1 =
        acc ++ (qualifying ls).flatMap (fun l => bytes "," ++ bracePair E m l) := by
  induction ls with
  | nil => intro acc; simp [qualifying]
  | cons l rest ih =>
    intro acc
    by_cases hq : l ≠ MetricNameLabel ∧ l ≠ []
    · have hskip : ¬ (l = MetricNameLabel ∨ l.length = 0) := by
        rw [length_zero_iff_nil]; tauto
      rw [List.foldl_cons, qualifying_cons_of l rest hq]
      simp only [defaultPathStep, hskip, if_false, if_true]
      rw [ih]
      simp [List.flatMap_cons, List.append_assoc, bracePair]
    · have hskip : (l = MetricNameLabel ∨ l.length = 0) := by
        rw [length_zero_iff_nil]; tauto
      rw [List.foldl_cons, qualifying_cons_of_not l rest hq]
      simp only [defaultPathStep, hskip, if_true]
      exact ih acc

theorem foldl_braces (E : Ext) (m : Metric) (ls : List Bytes) :
    (ls.foldl (defaultPathStep E m Format.FormatCarbonOpenMetrics) ([], true)).1 =
      List.intercalate (bytes ",") ((qualifying ls).map (bracePair E m)) := by
  induction ls with
  | nil => simp [qualifying, List.intercalate]
  | cons l rest ih =>
    by_cases hq : l ≠ MetricNameLabel ∧ l ≠ []
    · have hskip : ¬ (l = MetricNameLabel ∨ l.length = 0) := by
        rw [length_zero_iff_nil]; tauto
      rw [List.foldl_cons, qualifying_cons_of l rest hq, List.map_cons, intercalate_cons]
      simp only [defaultPathStep, hskip, if_false, if_true]
      have ht : ¬ (true = false) := by decide
      rw [foldl_braces_rest]
      simp [List.flatMap_map, List.append_assoc, bracePair]
    · have hskip : (l = MetricNameLabel ∨ l.length = 0) := by
        rw [length_zero_iff_nil]; tauto
      rw [List.foldl_cons, qualifying_cons_of_not l rest hq]
      simp only [defaultPathStep, hskip, if_true]
      exact ih

theorem bracePair_length_pos (E : Ext) (m : Metric) (l : Bytes) :
    0 < (bracePair E m l).length := by
  simp [bracePair, bytes]

/-- C10: in the BraceTags format (`FormatCarbonOpenMetrics`) `defaultPath` is the
prefix and the escaped metric name, followed, when a label other than the
metric name label and the empty name exists, by the pairs `name="escaped value"`
in ascending name order, joined by `,` and wrapped in braces; without such a
label it is the prefix and the escaped metric name alone. -/
theorem defaultPath_braces (E : Ext) (m : Metric) (pfx : Bytes) (ls : List Bytes)
    (hperm : ls.Perm m.names) (hsorted : ls.Sorted StringLE) :
    (qualifying ls ≠ [] →
      defaultPath E m Format.FormatCarbonOpenMetrics pfx =
        pfx ++ E.Escape (m.get MetricNameLabel) ++ bytes "\x7b" ++
          List.intercalate (bytes ",") ((qualifying ls).map (bracePair E m)) ++ bytes "\x7d") ∧
    (qualifying ls = [] →
      defaultPath E m Format.FormatCarbonOpenMetrics pfx =
        pfx ++ E.Escape (m.get MetricNameLabel)) := by
  have hsort := sortLabelNames_eq_of_sorted_perm ls m.names hperm hsorted
  have hfold := foldl_braces E m ls
  constructor
  · intro hne
    have hpos : 0 < (List.intercalate (bytes ",")
        ((qualifying ls).map (bracePair E m))).length := by
      cases hql : qualifying ls with
      | nil => exact absurd hql hne
      | cons l rest =>
        rw [List.map_cons, intercalate_cons, List.length_append]
        have := bracePair_length_pos E m l
        omega
    simp only [defaultPath, hsort, hfold]
    simp [hpos]
  · intro he
    simp only [defaultPath, hsort, hfold, he]
    simp [List.intercalate]

theorem defaultPath_order_independent_witness :
    defaultPath demo testMetric Format.FormatCarbonTags (bytes "prefix.") =
      defaultPath demo testMetric.reverse Format.FormatCarbonTags (bytes "prefix.") :=
  defaultPath_order_independent demo testMetric testMetric.reverse Format.FormatCarbonTags
    (bytes "prefix.") (by decide) (by decide)

theorem defaultPath_dotted_witness :
    defaultPath demo testMetric Format.FormatCarbon (bytes "prefix.") =
      bytes "prefix." ++ demo.Escape (testMetric.get MetricNameLabel) ++
        (qualifying testNames).flatMap
          (fun l => bytes "." ++ l ++ bytes "." ++ demo.Escape (testMetric.get l)) ∧
    (MetricNameLabel ∉ testMetric.names → testMetric.get MetricNameLabel = []) ∧
    (MetricNameLabel ∉ testMetric.names → demo.Escape [] = [] →
      defaultPath demo testMetric Format.FormatCarbon (bytes "prefix.") =
        bytes "prefix." ++
          (qualifying testNames).flatMap
            (fun l => bytes "." ++ l ++ bytes "." ++ demo.Escape (testMetric.get l))) :=
  defaultPath_dotted demo testMetric (bytes "prefix.") testNames (by decide) (by decide)

theorem defaultPath_braces_witness :
    (qualifying testNames ≠ [] →
      defaultPath demo testMetric Format.FormatCarbonOpenMetrics (bytes "prefix.") =
        bytes "prefix." ++ demo.Escape (testMetric.get MetricNameLabel) ++ bytes "\x7b" ++
          List.intercalate (bytes ",") ((qualifying testNames).map (bracePair demo testMetric)) ++
          bytes "\x7d") ∧
    (qualifying testNames = [] →
      defaultPath demo testMetric Format.FormatCarbonOpenMetrics (bytes "prefix.") =
        bytes "prefix." ++ demo.Escape (testMetric.get MetricNameLabel)) :=
  defaultPath_braces demo testMetric (bytes "prefix.") testNames (by decide) (by decide)

/-! ## The line buffer of `ToDatapoints` -/

theorem write_of_fits (h : Heap) (b : Buffer) (p : Bytes) (hfit : b.len + p.length ≤ b.cap) :
    b.Write h p = (h.copy b.arr b.len p, ⟨b.arr, b.len + p.length, b.cap⟩) := by
  have hle : p.length ≤ b.cap - b.len := by omega
  simp [Buffer.Write, hle]

theorem datapointStep_of_fits (val tm path : Bytes) (h : Heap) (dps : List Slice) (c : Nat)
    (hfit : path.length + val.length + tm.length + 3 ≤ c) :
    (datapointStep val tm (h, ⟨0, 0, c⟩, dps) path).2.1 = ⟨0, 0, c⟩ ∧
    (datapointStep val tm (h, ⟨0, 0, c⟩, dps) path).2.2 =
      dps ++ [⟨0, 0, path.length + val.length + tm.length + 3⟩] := by
  simp only [datapointStep, Buffer.WriteByte]
  rw [write_of_fits h ⟨0, 0, c⟩ path (by simp; omega)]
  simp only []
  rw [write_of_fits _ ⟨0, 0 + path.length, c⟩ [32] (by simp; omega)]
  simp only []
  rw [write_of_fits _ ⟨0, 0 + path.length + [(32 : UInt8)].length, c⟩ val (by simp; omega)]
  simp only []
  rw [write_of_fits _ ⟨0, 0 + path.length + [(32 : UInt8)].length + val.length, c⟩ [32]
    (by simp; omega)]
  simp only []
  rw [write_of_fits _
    ⟨0, 0 + path.length + [(32 : UInt8)].length + val.length + [(32 : UInt8)].length, c⟩ tm
    (by simp; omega)]
  simp only []
  rw [write_of_fits _
    ⟨0, 0 + path.length + [(32 : UInt8)].length + val.length + [(32 : UInt8)].length + tm.length,
      c⟩ [10] (by simp; omega)]
  simp only [Buffer.Reset, Buffer.Bytes, List.length_singleton]
  refine ⟨trivial, ?_⟩
  congr 2
  simp only [Slice.mk.injEq, true_and]
  omega

theorem le_maxPathLength_aux (paths : List Bytes) :
    ∀ a : Nat,
      a ≤ paths.foldl (fun length path => if path.length > length then path.length else length) a ∧
      ∀ p ∈ paths, p.length ≤
        paths.foldl (fun length path => if path.length > length then path.length else length) a := by
  induction paths with
  | nil => intro a; simp
  | cons q rest ih =>
    intro a
    simp only [List.foldl_cons, List.mem_cons, forall_eq_or_imp]
    by_cases hqa : q.length > a
    · have h := ih q.length
      simp only [hqa, if_true]
      exact ⟨by omega, h.1, h.2⟩
    · have h := ih a
      simp only [hqa, if_false]
      exact ⟨h.1, by omega, h.2⟩

theorem le_maxPathLength (paths : List Bytes) (p : Bytes) (hp : p ∈ paths) :
    p.length ≤ maxPathLength paths := (le_maxPathLength_aux paths 0).2 p hp

theorem foldl_datapointStep (val tm : Bytes) (c : Nat) (paths : List Bytes) :
    ∀ (h : Heap) (dps : List Slice),
      (∀ p ∈ paths, p.length + val.length + tm.length + 3 ≤ c) →
      (paths.foldl (datapointStep val tm) (h, ⟨0, 0, c⟩, dps)).2.2 =
        dps ++ paths.map (fun p => ⟨0, 0, p.length + val.length + tm.length + 3⟩) := by
  induction paths with
  | nil => intro h dps _; simp
  | cons q rest ih =>
    intro h dps hfit
    have hq := datapointStep_of_fits val tm q h dps c (hfit q (List.mem_cons_self _ _))
    rw [List.foldl_cons]
    have hst : datapointStep val tm (h, ⟨0, 0, c⟩, dps) q =
        ((datapointStep val tm (h, ⟨0, 0, c⟩, dps) q).1, ⟨0, 0, c⟩,
          dps ++ [⟨0, 0, q.length + val.length + tm.length + 3⟩]) := by
      apply Prod.ext
      · rfl
      · apply Prod.ext
        · exact hq.1
        · exact hq.2
    rw [hst, ih _ _ (fun p hp => hfit p (List.mem_cons_of_mem _ hp))]
    simp

/-- Every slice `ToDatapoints` returns is a window at offset 0 of the array 0. -/
theorem ToDatapoints_slices_share_array (E : Ext) (cache : PathsCache) (now : Int) (s : Sample)
    (format : Format) (pfx : Bytes) (rules : List (Rule E))
    (templateData : List (Bytes × E.Value)) :
    ∀ sl ∈ (ToDatapoints E cache now s format pfx rules templateData).dataPoints,
      sl.arr = 0 ∧ sl.off = 0 := by
  intro sl hsl
  by_cases hv : (IsNaN s.Value || IsInf s.Value 0) = true
  · simp [ToDatapoints, hv] at hsl
  · cases he : (pathsFromMetric E cache now s.Metric format pfx rules templateData).2.1 with
    | some e => simp [ToDatapoints, hv, he] at hsl
    | none =>
      simp only [ToDatapoints, hv, he, NewBuffer, List.length_nil, List.nil_append] at hsl
      rw [foldl_datapointStep] at hsl
      · rw [List.nil_append] at hsl
        obtain ⟨p, _, hp⟩ := List.mem_map.1 hsl
        rw [← hp]
        exact ⟨rfl, rfl⟩
      · intro p hp
        have := le_maxPathLength _ p hp
        omega

/-! ## Evaluations -/

set_option maxRecDepth 1000000 in
/-- C1: every slice `ToDatapoints` returns is a window at offset 0 of one and the
same array, the storage of the reused buffer. On a sample of `metricX` under the
test rules, where the first rule (`continue: true`) and the default path give
two paths, the first returned slice therefore holds, when `ToDatapoints`
returns, the first 34 bytes of the second line and not the line of the first
path. -/
theorem ToDatapoints_first_line_overwritten :
    (∀ (E : Ext) (cache : PathsCache) (now : Int) (s : Sample) (format : Format) (pfx : Bytes)
        (rules : List (Rule E)) (templateData : List (Bytes × E.Value)),
      ∀ sl ∈ (ToDatapoints E cache now s format pfx rules templateData).dataPoints,
        sl.arr = 0 ∧ sl.off = 0) ∧
    (pathsFromMetric demo cacheOff 0 metricX Format.FormatCarbon (bytes "prefix.") testRules
        []).1 =
      [bytes "tmpl_1.team-X", bytes "prefix.test:metric.owner.team-X.testlabel.test:value"] ∧
    (ToDatapoints demo cacheOff 0 sampleX Format.FormatCarbon (bytes "prefix.") testRules
        []).err = none ∧
    (ToDatapoints demo cacheOff 0 sampleX Format.FormatCarbon (bytes "prefix.") testRules
        []).dataPoints = [⟨0, 0, 34⟩, ⟨0, 0, 73⟩] ∧
    (ToDatapoints demo cacheOff 0 sampleX Format.FormatCarbon (bytes "prefix.") testRules
        []).lines =
      [bytes "prefix.test:metric.owner.team-X.te",
        bytes "prefix.test:metric.owner.team-X.testlabel.test:value 1.000000 1700000000\n"] ∧
    expectedLines demo sampleX
        [bytes "tmpl_1.team-X", bytes "prefix.test:metric.owner.team-X.testlabel.test:value"] =
      [bytes "tmpl_1.team-X 1.000000 1700000000\n",
        bytes "prefix.test:metric.owner.team-X.testlabel.test:value 1.000000 1700000000\n"] := by
  refine ⟨ToDatapoints_slices_share_array, ?_⟩
  decide

set_option maxRecDepth 1000000 in
/-- C6: when the failing rule has `continue: true`, `pathsFromMetric` returns the
error together with the default path, and when a `continue: true` rule has
rendered before the failing rule it returns the error together with that
rendered path. -/
theorem pathsFromMetric_error_with_paths :
    ((pathsFromMetric demo cacheOff 0 metricX Format.FormatCarbon (bytes "prefix.")
        [failingRule true] []).1 =
      [bytes "prefix.test:metric.owner.team-X.testlabel.test:value"] ∧
     (pathsFromMetric demo cacheOff 0 metricX Format.FormatCarbon (bytes "prefix.")
        [failingRule true] []).2.1 = some "error calling replace") ∧
    ((pathsFromMetric demo cacheOff 0 metricX Format.FormatCarbon (bytes "prefix.")
        [rule1, failingRule false] []).1 = [bytes "tmpl_1.team-X"] ∧
     (pathsFromMetric demo cacheOff 0 metricX Format.FormatCarbon (bytes "prefix.")
        [rule1, failingRule false] []).2.1 = some "error calling replace") := by
  decide

/-! ## The default path with tags -/

theorem foldl_tags (E : Ext) (m : Metric) (ls : List Bytes) :
    ∀ (acc : Bytes) (first : Bool),
      ((ls.foldl (defaultPathStep E m Format.FormatCarbonTags) (acc, first)).1 =
        acc ++ (qualifying ls).flatMap
          (fun l => bytes ";" ++ l ++ bytes "=" ++ E.EscapeTagged (m.get l))) := by
  induction ls with
  | nil => intro acc first; simp [qualifying]
  | cons l rest ih =>
    intro acc first
    by_cases hq : l ≠ MetricNameLabel ∧ l ≠ []
    · have hskip : ¬ (l = MetricNameLabel ∨ l.length = 0) := by
        rw [length_zero_iff_nil]; tauto
      rw [List.foldl_cons, qualifying_cons_of l rest hq]
      simp only [defaultPathStep, hskip, if_false]
      have hf : ¬ (Format.FormatCarbonTags = Format.FormatCarbonOpenMetrics) := by decide
      simp only [hf, if_false, if_true]
      rw [ih]
      simp [List.flatMap_cons, List.append_assoc]
    · have hskip : (l = MetricNameLabel ∨ l.length = 0) := by
        rw [length_zero_iff_nil]; tauto
      rw [List.foldl_cons, qualifying_cons_of_not l rest hq]
      simp only [defaultPathStep, hskip, if_true]
      exact ih acc first

/-- C11: in the TagSuffix format (`FormatCarbonTags`) `defaultPath` is the prefix,
the metric name escaped with `Escape` and then, for the label names in
ascending order without the metric name label and the empty name, `;` name
`=` and the value escaped with `EscapeTagged`. -/
theorem defaultPath_tags (E : Ext) (m : Metric) (pfx : Bytes) (ls : List Bytes)
    (hperm : ls.Perm m.names) (hsorted : ls.Sorted StringLE) :
    defaultPath E m Format.FormatCarbonTags pfx =
      pfx ++ E.Escape (m.get MetricNameLabel) ++
        (qualifying ls).flatMap
          (fun l => bytes ";" ++ l ++ bytes "=" ++ E.EscapeTagged (m.get l)) := by
  have hsort := sortLabelNames_eq_of_sorted_perm ls m.names hperm hsorted
  have hfold := foldl_tags E m ls [] true
  simp only [defaultPath, hsort, hfold, List.nil_append]
  have hf : ¬ (Format.FormatCarbonTags = Format.FormatCarbonOpenMetrics) := by decide
  simp only [hf, if_false]
  split
  · rfl
  · rename_i h
    have : (qualifying ls).flatMap
        (fun l => bytes ";" ++ l ++ bytes "=" ++ E.EscapeTagged (m.get l)) = [] := by
      apply List.length_eq_zero.1
      omega
    rw [this]
    simp

theorem defaultPath_tags_witness :
    defaultPath demo testMetric Format.FormatCarbonTags (bytes "prefix.") =
      bytes "prefix." ++ demo.Escape (testMetric.get MetricNameLabel) ++
        (qualifying testNames).flatMap
          (fun l => bytes ";" ++ l ++ bytes "=" ++ demo.EscapeTagged (testMetric.get l)) :=
  defaultPath_tags demo testMetric (bytes "prefix.") testNames (by decide) (by decide)

/-! ## The paths cache -/

theorem lookup_mapSet_self {V : Type} (items : List (Bytes × V)) (k : Bytes) (v : V) :
    (mapSet items k v).lookup k = some v := by
  induction items with
  | nil => simp [mapSet, List.lookup]
  | cons kv rest ih =>
    obtain ⟨k', v'⟩ := kv
    by_cases h : k' = k
    · simp [mapSet, h, List.lookup]
    · have hb : (k == k') = false := by
        simpa using fun e : k = k' => h e.symm
      simp [mapSet, h, List.lookup, hb, ih]

theorem Get_some (c : PathsCache) (k : Bytes) (n : Int) (y : List Bytes)
    (h : c.Get k n = some y) : ∃ item, c.items.lookup k = some item ∧ item.Object = y := by
  unfold PathsCache.Get at h
  cases hl : c.items.lookup k with
  | none => rw [hl] at h; simp at h
  | some item =>
    rw [hl] at h
    by_cases hc : item.Expiration > 0 ∧ n > item.Expiration
    · simp [hc] at h
    · simp only [hc, if_false, Option.some.injEq] at h
      exact ⟨item, rfl, h⟩

theorem Get_Set_of_some (c : PathsCache) (k : Bytes) (x y : List Bytes) (n1 n2 : Int)
    (h : (c.Set k x n1).Get k n2 = some y) : y = x := by
  obtain ⟨item, hl, ho⟩ := Get_some _ _ _ _ h
  simp only [PathsCache.Set, lookup_mapSet_self, Option.some.injEq] at hl
  rw [← ho, ← hl]

theorem Get_Set_of_live (c : PathsCache) (k : Bytes) (x : List Bytes) (n1 n2 : Int)
    (h : c.defaultExpiration ≤ 0 ∨ n2 ≤ n1 + c.defaultExpiration) :
    (c.Set k x n1).Get k n2 = some x := by
  simp only [PathsCache.Get, PathsCache.Set, lookup_mapSet_self]
  by_cases hd : c.defaultExpiration > 0
  · have hn : n2 ≤ n1 + c.defaultExpiration := by
      rcases h with h | h
      · omega
      · exact h
    have : ¬ (n1 + c.defaultExpiration > 0 ∧ n2 > n1 + c.defaultExpiration) := by omega
    simp [hd, this]
  · simp [hd]

theorem Get_stable (c : PathsCache) (k : Bytes) (x y : List Bytes) (n1 n2 : Int)
    (h1 : c.Get k n1 = some x) (h2 : c.Get k n2 = some y) : y = x := by
  obtain ⟨i1, hl1, ho1⟩ := Get_some _ _ _ _ h1
  obtain ⟨i2, hl2, ho2⟩ := Get_some _ _ _ _ h2
  rw [hl1, Option.some.injEq] at hl2
  rw [← ho1, ← ho2, hl2]

theorem pathsFromMetric_cache_of_miss (E : Ext) (cache : PathsCache) (now : Int) (m : Metric)
    (format : Format) (pfx : Bytes) (rules : List (Rule E))
    (templateData : List (Bytes × E.Value)) (hen : cache.enabled = true)
    (h : cachedPaths E cache now m = none) :
    (pathsFromMetric E cache now m format pfx rules templateData).2.2 =
      cache.Set (appendUint16 (E.FastFingerprint m))
        (pathsFromMetric E cache now m format pfx rules templateData).1 now := by
  simp [pathsFromMetric, h, hen]

theorem pathsFromMetric_of_hit (E : Ext) (cache : PathsCache) (now : Int) (m : Metric)
    (format : Format) (pfx : Bytes) (rules : List (Rule E))
    (templateData : List (Bytes × E.Value)) (x : List Bytes)
    (h : cachedPaths E cache now m = some x) :
    pathsFromMetric E cache now m format pfx rules templateData = (x, none, cache) := by
  simp [pathsFromMetric, h]

theorem pathsFromMetric_stored (E : Ext) (cache : PathsCache) (now1 now2 : Int) (m : Metric)
    (format : Format) (pfx : Bytes) (rules : List (Rule E))
    (templateData : List (Bytes × E.Value)) (x : List Bytes) (hen : cache.enabled = true)
    (h : cachedPaths E (pathsFromMetric E cache now1 m format pfx rules templateData).2.2 now2 m
      = some x) :
    x = (pathsFromMetric E cache now1 m format pfx rules templateData).1 := by
  cases hc : cachedPaths E cache now1 m with
  | some cached =>
    rw [pathsFromMetric_of_hit E cache now1 m format pfx rules templateData cached hc] at h ⊢
    simp only [cachedPaths, hen, if_true] at hc h
    exact Get_stable cache _ cached x now1 now2 hc h
  | none =>
    rw [pathsFromMetric_cache_of_miss E cache now1 m format pfx rules templateData hen hc] at h
    have hen' : (cache.Set (appendUint16 (E.FastFingerprint m))
        (pathsFromMetric E cache now1 m format pfx rules templateData).1 now1).enabled = true :=
      hen
    simp only [cachedPaths, hen', if_true] at h
    exact Get_Set_of_some cache _ _ x now1 now2 h

theorem pathsFromMetric_second_call (E : Ext) (cache : PathsCache)
    (now1 now2 : Int) (m : Metric) (format1 format2 : Format) (pfx1 pfx2 : Bytes)
    (rules1 rules2 : List (Rule E)) (templateData1 templateData2 : List (Bytes × E.Value))
    (hen : cache.enabled = true)
    (hlive : cachedPaths E
      (pathsFromMetric E cache now1 m format1 pfx1 rules1 templateData1).2.2 now2 m ≠ none) :
    pathsFromMetric E (pathsFromMetric E cache now1 m format1 pfx1 rules1 templateData1).2.2
        now2 m format2 pfx2 rules2 templateData2 =
      ((pathsFromMetric E cache now1 m format1 pfx1 rules1 templateData1).1, none,
        (pathsFromMetric E cache now1 m format1 pfx1 rules1 templateData1).2.2) := by
  cases hx : cachedPaths E
      (pathsFromMetric E cache now1 m format1 pfx1 rules1 templateData1).2.2 now2 m with
  | none => exact absurd hx hlive
  | some x =>
    have := pathsFromMetric_stored E cache now1 now2 m format1 pfx1 rules1 templateData1 x hen hx
    rw [pathsFromMetric_of_hit E _ now2 m format2 pfx2 rules2 templateData2 x hx, this]

theorem cachedPaths_after_miss (E : Ext) (cache : PathsCache) (now1 now2 : Int) (m : Metric)
    (format : Format) (pfx : Bytes) (rules : List (Rule E))
    (templateData : List (Bytes × E.Value)) (hen : cache.enabled = true)
    (hmiss : cachedPaths E cache now1 m = none)
    (hexp : cache.defaultExpiration ≤ 0 ∨ now2 ≤ now1 + cache.defaultExpiration) :
    cachedPaths E (pathsFromMetric E cache now1 m format pfx rules templateData).2.2 now2 m ≠
      none := by
  rw [pathsFromMetric_cache_of_miss E cache now1 m format pfx rules templateData hen hmiss]
  have hen' : (cache.Set (appendUint16 (E.FastFingerprint m))
      (pathsFromMetric E cache now1 m format pfx rules templateData).1 now1).enabled = true :=
    hen
  simp only [cachedPaths, hen', if_true]
  rw [Get_Set_of_live cache _ _ now1 now2 hexp]
  simp

/-- C13: the paths cache is keyed by the fingerprint of the label set alone. With
the cache enabled, after `pathsFromMetric` has resolved a label set, a later
call for that label set while the entry is live returns the list the first
call returned, without error and without touching the cache, whatever format,
prefix, rule list and template data it is given; and the entry a first call
stores is live until its time to live has passed. -/
theorem pathsFromMetric_hit_ignores_configuration (E : Ext) (cache : PathsCache)
    (now1 now2 : Int) (m : Metric) (format1 format2 : Format) (pfx1 pfx2 : Bytes)
    (rules1 rules2 : List (Rule E)) (templateData1 templateData2 : List (Bytes × E.Value))
    (hen : cache.enabled = true)
    (hlive : cachedPaths E
      (pathsFromMetric E cache now1 m format1 pfx1 rules1 templateData1).2.2 now2 m ≠ none) :
    pathsFromMetric E (pathsFromMetric E cache now1 m format1 pfx1 rules1 templateData1).2.2
        now2 m format2 pfx2 rules2 templateData2 =
      ((pathsFromMetric E cache now1 m format1 pfx1 rules1 templateData1).1, none,
        (pathsFromMetric E cache now1 m format1 pfx1 rules1 templateData1).2.2) ∧
    (cachedPaths E cache now1 m = none →
      (cache.defaultExpiration ≤ 0 ∨ now2 ≤ now1 + cache.defaultExpiration) →
      cachedPaths E (pathsFromMetric E cache now1 m format1 pfx1 rules1 templateData1).2.2
        now2 m ≠ none) :=
  ⟨pathsFromMetric_second_call E cache now1 now2 m format1 format2 pfx1 pfx2 rules1 rules2
      templateData1 templateData2 hen hlive,
    fun hmiss hexp =>
      cachedPaths_after_miss E cache now1 now2 m format1 pfx1 rules1 templateData1 hen hmiss hexp⟩

theorem pathsFromMetric_hit_ignores_configuration_witness :
    pathsFromMetric demo
        (pathsFromMetric demo cacheOn 0 metricX Format.FormatCarbon (bytes "prefix.") testRules
          []).2.2
        1 metricX Format.FormatCarbonTags (bytes "other.") [] [] =
      ((pathsFromMetric demo cacheOn 0 metricX Format.FormatCarbon (bytes "prefix.") testRules
          []).1, none,
        (pathsFromMetric demo cacheOn 0 metricX Format.FormatCarbon (bytes "prefix.") testRules
          []).2.2) ∧
    (cachedPaths demo cacheOn 0 metricX = none →
      (cacheOn.defaultExpiration ≤ 0 ∨ 1 ≤ 0 + cacheOn.defaultExpiration) →
      cachedPaths demo
        (pathsFromMetric demo cacheOn 0 metricX Format.FormatCarbon (bytes "prefix.") testRules
          []).2.2 1 metricX ≠ none) :=
  pathsFromMetric_hit_ignores_configuration demo cacheOn 0 1 metricX Format.FormatCarbon
    Format.FormatCarbonTags (bytes "prefix.") (bytes "other.") testRules [] [] [] (by decide)
    (by decide)

theorem pathsFromMetric_cached_calls (E : Ext) (cache off : PathsCache) (now1 now2 : Int)
    (m : Metric) (format : Format) (pfx : Bytes) (rules : List (Rule E))
    (templateData : List (Bytes × E.Value))
    (hen : cache.enabled = true) (hoff : off.enabled = false)
    (hmiss : cachedPaths E cache now1 m = none)
    (hexp : cache.defaultExpiration ≤ 0 ∨ now2 ≤ now1 + cache.defaultExpiration) :
    ((pathsFromMetric E cache now1 m format pfx rules templateData).1 =
        (pathsFromMetric E off now2 m format pfx rules templateData).1 ∧
      (pathsFromMetric E cache now1 m format pfx rules templateData).2.1 =
        (pathsFromMetric E off now2 m format pfx rules templateData).2.1) ∧
    ((pathsFromMetric E (pathsFromMetric E cache now1 m format pfx rules templateData).2.2 now2 m
          format pfx rules templateData).1 =
        (pathsFromMetric E off now2 m format pfx rules templateData).1 ∧
      (pathsFromMetric E (pathsFromMetric E cache now1 m format pfx rules templateData).2.2 now2 m
          format pfx rules templateData).2.1 = none) := by
  have h1 := pathsFromMetric_of_miss E cache now1 m format pfx rules templateData hmiss
  have h0 := pathsFromMetric_of_miss E off now2 m format pfx rules templateData
    (cachedPaths_of_disabled E off now2 m hoff)
  have hfirst : (pathsFromMetric E cache now1 m format pfx rules templateData).1 =
      (pathsFromMetric E off now2 m format pfx rules templateData).1 := by rw [h1.1, h0.1]
  refine ⟨⟨hfirst, by rw [h1.2, h0.2]⟩, ?_⟩
  have hlive := cachedPaths_after_miss E cache now1 now2 m format pfx rules templateData hen
    hmiss hexp
  rw [pathsFromMetric_second_call E cache now1 now2 m format format pfx pfx rules rules
    templateData templateData hen hlive]
  exact ⟨hfirst, rfl⟩

set_option maxRecDepth 1000000 in
/-- C12: from a cache without an entry for the label set, the first call of
`pathsFromMetric` with the cache enabled returns the paths and the error of
the call with the cache disabled, and a later call before expiry returns the
same paths but never an error. With a rule whose template fails to render, the
call with the cache disabled and the first call with the cache enabled return
the error, and the second call with the cache enabled returns the default path
and no error. -/
theorem pathsFromMetric_cached_error_lost :
    (∀ (E : Ext) (cache off : PathsCache) (now1 now2 : Int) (m : Metric) (format : Format)
        (pfx : Bytes) (rules : List (Rule E)) (templateData : List (Bytes × E.Value)),
      cache.enabled = true → off.enabled = false → cachedPaths E cache now1 m = none →
      (cache.defaultExpiration ≤ 0 ∨ now2 ≤ now1 + cache.defaultExpiration) →
      ((pathsFromMetric E cache now1 m format pfx rules templateData).1 =
          (pathsFromMetric E off now2 m format pfx rules templateData).1 ∧
        (pathsFromMetric E cache now1 m format pfx rules templateData).2.1 =
          (pathsFromMetric E off now2 m format pfx rules templateData).2.1) ∧
      ((pathsFromMetric E (pathsFromMetric E cache now1 m format pfx rules templateData).2.2
            now2 m format pfx rules templateData).1 =
          (pathsFromMetric E off now2 m format pfx rules templateData).1 ∧
        (pathsFromMetric E (pathsFromMetric E cache now1 m format pfx rules templateData).2.2
            now2 m format pfx rules templateData).2.1 = none)) ∧
    ((pathsFromMetric demo cacheOff 1 metricX Format.FormatCarbon (bytes "prefix.")
        [failingRule true] []).2.1 = some "error calling replace" ∧
      (pathsFromMetric demo cacheOn 0 metricX Format.FormatCarbon (bytes "prefix.")
        [failingRule true] []).2.1 = some "error calling replace" ∧
      (pathsFromMetric demo
        (pathsFromMetric demo cacheOn 0 metricX Format.FormatCarbon (bytes "prefix.")
          [failingRule true] []).2.2
        1 metricX Format.FormatCarbon (bytes "prefix.") [failingRule true] []).2.1 = none ∧
      (pathsFromMetric demo
        (pathsFromMetric demo cacheOn 0 metricX Format.FormatCarbon (bytes "prefix.")
          [failingRule true] []).2.2
        1 metricX Format.FormatCarbon (bytes "prefix.") [failingRule true] []).1 =
        [bytes "prefix.test:metric.owner.team-X.testlabel.test:value"]) := by
  refine ⟨pathsFromMetric_cached_calls, ?_⟩
  decide

/-! ## The buffers of `prepareWrite` -/

theorem foldl_prepareStep (E : Ext) (client : Client E) (now : Int) (pfx : Bytes)
    (samples : List Sample) :
    ∀ (st : List Bytes × Bytes) (cache : PathsCache),
      (samples.foldl (prepareStep E client now pfx) (st, cache)).1 =
        (batchLines E client now pfx cache samples).foldl
          (packLine (client.CarbonTransport == "udp")) st := by
  induction samples with
  | nil => intro st cache; simp [batchLines]
  | cons s rest ih =>
    intro st cache
    rw [List.foldl_cons, batchLines, List.foldl_append]
    cases he : (ToDatapoints E cache now s client.format pfx client.Rules
        client.TemplateData).err with
    | some e =>
      have hstep : prepareStep E client now pfx (st, cache) s =
          (st, (ToDatapoints E cache now s client.format pfx client.Rules
            client.TemplateData).cache) := by
        simp [prepareStep, he]
      rw [hstep, ih]
      simp
    | none =>
      have hstep : prepareStep E client now pfx (st, cache) s =
          ((ToDatapoints E cache now s client.format pfx client.Rules
              client.TemplateData).lines.foldl (packLine (client.CarbonTransport == "udp")) st,
            (ToDatapoints E cache now s client.format pfx client.Rules
              client.TemplateData).cache) := by
        simp [prepareStep, he]
      rw [hstep, ih]

theorem prepareWrite_buffers (E : Ext) (client : Client E) (cache : PathsCache) (now : Int)
    (samples : List Sample) (reqBufLen : Nat) (pfx : Bytes) :
    (prepareWrite E client cache now samples reqBufLen pfx).bytesBuffers =
      ((batchLines E client now pfx cache samples).foldl
          (packLine (client.CarbonTransport == "udp")) ([], [])).1 ++
        [((batchLines E client now pfx cache samples).foldl
          (packLine (client.CarbonTransport == "udp")) ([], [])).2] := by
  simp only [prepareWrite]
  rw [foldl_prepareStep]

theorem foldl_packLine_groups (udp : Bool) (lines : List Bytes) :
    ∀ (st : List (List Bytes) × List Bytes),
      lines.foldl (packLine udp) (st.1.map List.flatten, st.2.flatten) =
        (((lines.foldl (packGroup udp) st).1).map List.flatten,
          ((lines.foldl (packGroup udp) st).2).flatten) := by
  induction lines with
  | nil => intro st; rfl
  | cons l rest ih =>
    intro st
    rw [List.foldl_cons, List.foldl_cons]
    have hstep : packLine udp (st.1.map List.flatten, st.2.flatten) l =
        ((packGroup udp st l).1.map List.flatten, (packGroup udp st l).2.flatten) := by
      simp only [packLine, packGroup]
      split <;> simp
    rw [hstep, ih]

theorem foldl_packGroup_flatten (udp : Bool) (lines : List Bytes) :
    ∀ (st : List (List Bytes) × List Bytes),
      ((lines.foldl (packGroup udp) st).1 ++ [(lines.foldl (packGroup udp) st).2]).flatten =
        (st.1 ++ [st.2]).flatten ++ lines := by
  induction lines with
  | nil => intro st; simp
  | cons l rest ih =>
    intro st
    rw [List.foldl_cons, ih]
    simp only [packGroup]
    split <;> simp

/-- The groups of lines of the buffers of a batch. -/
theorem prepareWrite_groups (E : Ext) (client : Client E) (cache : PathsCache) (now : Int)
    (samples : List Sample) (reqBufLen : Nat) (pfx : Bytes) :
    (prepareWrite E client cache now samples reqBufLen pfx).bytesBuffers =
      (((batchLines E client now pfx cache samples).foldl
          (packGroup (client.CarbonTransport == "udp")) ([], [])).1 ++
        [((batchLines E client now pfx cache samples).foldl
          (packGroup (client.CarbonTransport == "udp")) ([], [])).2]).map List.flatten := by
  rw [prepareWrite_buffers]
  have := foldl_packLine_groups (client.CarbonTransport == "udp")
    (batchLines E client now pfx cache samples) ([], [])
  simp only [List.map_nil, List.flatten_nil] at this
  rw [this]
  simp

theorem foldl_packGroup_not_udp (lines : List Bytes) :
    ∀ (st : List (List Bytes) × List Bytes),
      (lines.foldl (packGroup false) st).1 = st.1 := by
  induction lines with
  | nil => intro st; rfl
  | cons l rest ih =>
    intro st
    rw [List.foldl_cons, ih]
    simp [packGroup]

/-- C16: the buffers of `prepareWrite`, one after the other, are the lines of the
batch one after the other, in sample order and then path order, where the
lines of a sample are the contents of the slices `ToDatapoints` returns; the
buffers are the lines of consecutive groups of whole lines; and a transport
other than "udp" gives exactly one buffer. -/
theorem prepareWrite_concatenation (E : Ext) (client : Client E) (cache : PathsCache)
    (now : Int) (samples : List Sample) (reqBufLen : Nat) (pfx : Bytes) :
    (prepareWrite E client cache now samples reqBufLen pfx).bytesBuffers.flatten =
      (batchLines E client now pfx cache samples).flatten ∧
    (∃ groups : List (List Bytes),
      groups.flatten = batchLines E client now pfx cache samples ∧
      (prepareWrite E client cache now samples reqBufLen pfx).bytesBuffers =
        groups.map List.flatten) ∧
    (client.CarbonTransport ≠ "udp" →
      (prepareWrite E client cache now samples reqBufLen pfx).bytesBuffers.length = 1) := by
  have hg := prepareWrite_groups E client cache now samples reqBufLen pfx
  have hf := foldl_packGroup_flatten (client.CarbonTransport == "udp")
    (batchLines E client now pfx cache samples) ([], [])
  simp only [List.nil_append, List.flatten_cons, List.flatten_nil] at hf
  refine ⟨?_, ⟨_, hf, hg⟩, ?_⟩
  · rw [hg, ← List.flatten_flatten, hf]
  · intro hne
    have hb : (client.CarbonTransport == "udp") = false := by simpa using hne
    rw [hg, hb, foldl_packGroup_not_udp]
    simp

/-- A group of lines fits a datagram, or is one line that does not. -/
theorem foldl_packGroup_bounded (lines : List Bytes) :
    ∀ (st : List (List Bytes) × List Bytes),
      (∀ g ∈ st.1 ++ [st.2],
        g.flatten.length ≤ udpMaxBytes ∨ ∃ l, g = [l] ∧ udpMaxBytes < l.length) →
      ∀ g ∈ (lines.foldl (packGroup true) st).1 ++ [(lines.foldl (packGroup true) st).2],
        g.flatten.length ≤ udpMaxBytes ∨ ∃ l, g = [l] ∧ udpMaxBytes < l.length := by
  induction lines with
  | nil => intro st h; exact h
  | cons l rest ih =>
    intro st h
    rw [List.foldl_cons]
    apply ih
    intro g hg
    by_cases hsplit : st.2.flatten.length + l.length > udpMaxBytes
    · have hstep : packGroup true st l = (st.1 ++ [st.2], [l]) := by
        unfold packGroup; rw [if_pos ⟨rfl, hsplit⟩]
      rw [hstep] at hg
      rcases List.mem_append.1 hg with hg | hg
      · exact h g hg
      · have hgl : g = [l] := by simpa using hg
        by_cases hl : l.length ≤ udpMaxBytes
        · left; rw [hgl]; simpa using hl
        · right; exact ⟨l, hgl, by omega⟩
    · have hstep : packGroup true st l = (st.1, st.2 ++ [l]) := by
        unfold packGroup; rw [if_neg (fun h => hsplit h.2)]
      rw [hstep] at hg
      rcases List.mem_append.1 hg with hg | hg
      · exact h g (List.mem_append.2 (Or.inl hg))
      · have hgl : g = st.2 ++ [l] := by simpa using hg
        left
        rw [hgl]
        simp only [List.flatten_append, List.length_append, List.flatten_cons, List.flatten_nil,
          List.append_nil]
        omega

theorem mem_of_mem_groups (groups : List (List Bytes)) (g : List Bytes) (l : Bytes)
    (hg : g ∈ groups) (hl : l ∈ g) : l ∈ groups.flatten :=
  List.mem_flatten.2 ⟨g, hg, hl⟩

/-- C14: with the transport "udp", every buffer of `prepareWrite` holds at most
`udpMaxBytes` = 1024 bytes or is a single line that is itself longer than
1024 bytes; so when no line is longer than 1024 bytes, no buffer is. -/
theorem prepareWrite_udp_buffer_size (E : Ext) (client : Client E) (cache : PathsCache)
    (now : Int) (samples : List Sample) (reqBufLen : Nat) (pfx : Bytes)
    (hudp : client.CarbonTransport = "udp") :
    (∀ b ∈ (prepareWrite E client cache now samples reqBufLen pfx).bytesBuffers,
      b.length ≤ udpMaxBytes ∨
        (b ∈ batchLines E client now pfx cache samples ∧ udpMaxBytes < b.length)) ∧
    ((∀ l ∈ batchLines E client now pfx cache samples, l.length ≤ udpMaxBytes) →
      ∀ b ∈ (prepareWrite E client cache now samples reqBufLen pfx).bytesBuffers,
        b.length ≤ udpMaxBytes) := by
  have hb : (client.CarbonTransport == "udp") = true := by simpa using hudp
  have hg := prepareWrite_groups E client cache now samples reqBufLen pfx
  have hf := foldl_packGroup_flatten (client.CarbonTransport == "udp")
    (batchLines E client now pfx cache samples) ([], [])
  simp only [List.nil_append, List.flatten_cons, List.flatten_nil] at hf
  rw [hb] at hg hf
  have hbound := foldl_packGroup_bounded (batchLines E client now pfx cache samples) ([], [])
    (by intro g hg; left; simp at hg; simp [hg])
  have hmain : ∀ b ∈ (prepareWrite E client cache now samples reqBufLen pfx).bytesBuffers,
      b.length ≤ udpMaxBytes ∨
        (b ∈ batchLines E client now pfx cache samples ∧ udpMaxBytes < b.length) := by
    intro b hbm
    rw [hg] at hbm
    obtain ⟨g, hgm, hgb⟩ := List.mem_map.1 hbm
    rcases hbound g hgm with h | ⟨l, hgl, hl⟩
    · left; rw [← hgb]; exact h
    · right
      have hbl : b = l := by rw [← hgb, hgl]; simp
      refine ⟨?_, by rw [hbl]; exact hl⟩
      rw [hbl, ← hf]
      exact mem_of_mem_groups _ g l hgm (by rw [hgl]; simp)
  refine ⟨hmain, ?_⟩
  intro hlines b hbm
  rcases hmain b hbm with h | ⟨hmem, hlt⟩
  · exact h
  · have := hlines b hmem
    omega

theorem foldl_packLine_length (lines : List Bytes) :
    ∀ (st : List Bytes × Bytes),
      ((lines.foldl (packLine true) st).1).length =
        st.1.length + newBuffers st.2.length (lines.map List.length) := by
  induction lines with
  | nil => intro st; simp [newBuffers]
  | cons l rest ih =>
    intro st
    rw [List.foldl_cons, ih, List.map_cons, newBuffers]
    by_cases hsplit : st.2.length + l.length > udpMaxBytes
    · have hstep : packLine true st l = (st.1 ++ [st.2], l) := by
        unfold packLine; rw [if_pos ⟨rfl, hsplit⟩]
      rw [hstep, if_pos hsplit]
      simp only [List.length_append, List.length_singleton]
      omega
    · have hstep : packLine true st l = (st.1, st.2 ++ l) := by
        unfold packLine; rw [if_neg (fun h => hsplit h.2)]
      rw [hstep, if_neg hsplit]
      simp only [List.length_append]

theorem newBuffers_mono (xs : List Nat) :
    ∀ (c d : Nat),
      (c ≤ d → newBuffers c xs ≤ newBuffers d xs) ∧ newBuffers c xs ≤ 1 + newBuffers d xs := by
  induction xs with
  | nil => intro c d; simp [newBuffers]
  | cons x rest ih =>
    intro c d
    simp only [newBuffers]
    by_cases hc : c + x > udpMaxBytes <;> by_cases hd : d + x > udpMaxBytes
    · simp only [hc, hd, if_true]
      exact ⟨fun _ => le_refl _, by omega⟩
    · simp only [hc, hd, if_true, if_false]
      refine ⟨fun h => by omega, ?_⟩
      have := (ih x (d + x)).1 (by omega)
      omega
    · simp only [hc, hd, if_true, if_false]
      have := (ih (c + x) x).2
      exact ⟨fun _ => this, by omega⟩
    · simp only [hc, hd, if_false]
      exact ⟨fun h => (ih (c + x) (d + x)).1 (by omega), (ih (c + x) (d + x)).2⟩

theorem newBuffers_le_groups (groups : List (List Bytes)) :
    ∀ (g : List Bytes) (c : Nat),
      c + g.flatten.length ≤ udpMaxBytes →
      (∀ h ∈ groups, h.flatten.length ≤ udpMaxBytes) →
      newBuffers c ((g ++ groups.flatten).map List.length) ≤ groups.length := by
  induction groups with
  | nil =>
    intro g
    induction g with
    | nil => intro c _ _; simp [newBuffers]
    | cons x g' ihg =>
      intro c hc hall
      simp only [List.flatten_cons, List.length_append] at hc
      have hx : ¬ (c + x.length > udpMaxBytes) := by omega
      have := ihg (c + x.length) (by omega) hall
      have e1 : (x :: g') ++ ([] : List (List Bytes)).flatten = x :: g' := by simp
      have e2 : g' ++ ([] : List (List Bytes)).flatten = g' := by simp
      rw [e2] at this
      rw [e1, List.map_cons, newBuffers, if_neg hx]
      exact this
  | cons h t ih =>
    intro g
    induction g with
    | nil =>
      intro c _ hall
      have hh : h.flatten.length ≤ udpMaxBytes := hall h (List.mem_cons_self _ _)
      have ht : ∀ k ∈ t, k.flatten.length ≤ udpMaxBytes :=
        fun k hk => hall k (List.mem_cons_of_mem _ hk)
      have h1 := ih h 0 (by omega) ht
      have h2 := (newBuffers_mono ((h ++ t.flatten).map List.length) c 0).2
      simp only [List.nil_append, List.flatten_cons, List.length_cons]
      omega
    | cons x g' ihg =>
      intro c hc hall
      simp only [List.flatten_cons, List.length_append] at hc
      have hx : ¬ (c + x.length > udpMaxBytes) := by omega
      have := ihg (c + x.length) (by omega) hall
      simp only [List.cons_append, List.map_cons, newBuffers, hx, if_false]
      exact this

/-- C15: with the transport "udp", when no line of the batch is longer than 1024
bytes and the lines have more than 1024 bytes together, no way of cutting the
line sequence into consecutive groups of whole lines of at most 1024 bytes
each has fewer groups than `prepareWrite` returns buffers, and the buffers of
`prepareWrite` are such a cutting. -/
theorem prepareWrite_udp_minimal (E : Ext) (client : Client E) (cache : PathsCache)
    (now : Int) (samples : List Sample) (reqBufLen : Nat) (pfx : Bytes)
    (hudp : client.CarbonTransport = "udp")
    (hlines : ∀ l ∈ batchLines E client now pfx cache samples, l.length ≤ udpMaxBytes)
    (htotal : udpMaxBytes < (batchLines E client now pfx cache samples).flatten.length) :
    (∀ groups : List (List Bytes),
      groups.flatten = batchLines E client now pfx cache samples →
      (∀ g ∈ groups, g.flatten.length ≤ udpMaxBytes) →
      (prepareWrite E client cache now samples reqBufLen pfx).bytesBuffers.length ≤
        groups.length) ∧
    (∃ groups : List (List Bytes),
      groups.flatten = batchLines E client now pfx cache samples ∧
      (∀ g ∈ groups, g.flatten.length ≤ udpMaxBytes) ∧
      groups.map List.flatten =
        (prepareWrite E client cache now samples reqBufLen pfx).bytesBuffers ∧
      groups.length =
        (prepareWrite E client cache now samples reqBufLen pfx).bytesBuffers.length) := by
  have hb : (client.CarbonTransport == "udp") = true := by simpa using hudp
  constructor
  · intro groups hflat hall
    rw [prepareWrite_buffers, hb, List.length_append, foldl_packLine_length]
    cases groups with
    | nil =>
      rw [← hflat] at htotal
      simp at htotal
    | cons g t =>
      have := newBuffers_le_groups t g 0 (by
        have := hall g (List.mem_cons_self _ _)
        omega) (fun k hk => hall k (List.mem_cons_of_mem _ hk))
      rw [← hflat]
      simp only [List.length_nil, List.length_singleton, List.length_cons, List.flatten_cons,
        Nat.zero_add] at this ⊢
      omega
  · have hg := prepareWrite_groups E client cache now samples reqBufLen pfx
    have hf := foldl_packGroup_flatten (client.CarbonTransport == "udp")
      (batchLines E client now pfx cache samples) ([], [])
    simp only [List.nil_append, List.flatten_cons, List.flatten_nil] at hf
    rw [hb] at hg hf
    have hbound := foldl_packGroup_bounded (batchLines E client now pfx cache samples) ([], [])
      (by intro g hg; left; simp at hg; simp [hg])
    refine ⟨_, hf, ?_, hg.symm, ?_⟩
    · intro g hgm
      rcases hbound g hgm with h | ⟨l, hgl, hl⟩
      · exact h
      · have hmem : l ∈ batchLines E client now pfx cache samples := by
          rw [← hf]
          exact mem_of_mem_groups _ g l hgm (by rw [hgl]; simp)
        have := hlines l hmem
        omega
    · rw [hg, List.length_map]

theorem ToDatapoints_cache_of_disabled (E : Ext) (cache : PathsCache) (now : Int) (s : Sample)
    (format : Format) (pfx : Bytes) (rules : List (Rule E))
    (templateData : List (Bytes × E.Value)) (h : cache.enabled = false) :
    (ToDatapoints E cache now s format pfx rules templateData).cache = cache := by
  have hc := pathsFromMetric_cache_of_disabled E cache now s.Metric format pfx rules
    templateData h
  by_cases hv : (IsNaN s.Value || IsInf s.Value 0) = true
  · simp [ToDatapoints, hv]
  · cases he : (pathsFromMetric E cache now s.Metric format pfx rules templateData).2.1 with
    | some e => simp [ToDatapoints, hv, he, hc]
    | none => simp [ToDatapoints, hv, he, hc]

theorem batchLines_filter (E : Ext) (client : Client E) (cache : PathsCache) (now : Int)
    (pfx : Bytes) (h : cache.enabled = false) (samples : List Sample) :
    batchLines E client now pfx cache (samples.filter (passes E client cache now pfx)) =
      batchLines E client now pfx cache samples := by
  induction samples with
  | nil => rfl
  | cons s rest ih =>
    have hc := ToDatapoints_cache_of_disabled E cache now s client.format pfx client.Rules
      client.TemplateData h
    cases he : (ToDatapoints E cache now s client.format pfx client.Rules
        client.TemplateData).err with
    | some e =>
      have hp : passes E client cache now pfx s = false := by simp [passes, he]
      rw [List.filter_cons, hp]
      simp only [Bool.false_eq_true, if_false]
      rw [batchLines, he, hc, ih]
      simp
    | none =>
      have hp : passes E client cache now pfx s = true := by simp [passes, he]
      rw [List.filter_cons, hp]
      simp only [if_true]
      rw [batchLines, batchLines, he, hc, ih]

/-- Without the paths cache, the samples that fail leave no trace in the buffers. -/
theorem prepareWrite_filter (E : Ext) (client : Client E) (cache : PathsCache) (now : Int)
    (samples : List Sample) (reqBufLen : Nat) (pfx : Bytes) (h : cache.enabled = false) :
    (prepareWrite E client cache now samples reqBufLen pfx).bytesBuffers =
      (prepareWrite E client cache now (samples.filter (passes E client cache now pfx))
        reqBufLen pfx).bytesBuffers := by
  rw [prepareWrite_buffers, prepareWrite_buffers, batchLines_filter E client cache now pfx h]

theorem prepareWrite_err (E : Ext) (client : Client E) (cache : PathsCache) (now : Int)
    (samples : List Sample) (reqBufLen : Nat) (pfx : Bytes) :
    (prepareWrite E client cache now samples reqBufLen pfx).err = none := rfl


set_option maxRecDepth 1000000 in
theorem prepareWrite_udp_oversize_line :
    ¬ ∀ b ∈ (prepareWrite demo udpClient cacheOff 0 [longSample] 0 []).bytesBuffers,
      b.length ≤ udpMaxBytes := by
  decide

theorem prepareWrite_udp_buffer_size_witness :
    (∀ b ∈ (prepareWrite demo udpClient cacheOff 0 [longSample] 0 []).bytesBuffers,
      b.length ≤ udpMaxBytes ∨
        (b ∈ batchLines demo udpClient 0 [] cacheOff [longSample] ∧ udpMaxBytes < b.length)) ∧
    ((∀ l ∈ batchLines demo udpClient 0 [] cacheOff [longSample], l.length ≤ udpMaxBytes) →
      ∀ b ∈ (prepareWrite demo udpClient cacheOff 0 [longSample] 0 []).bytesBuffers,
        b.length ≤ udpMaxBytes) :=
  prepareWrite_udp_buffer_size demo udpClient cacheOff 0 [longSample] 0 [] rfl

set_option maxRecDepth 1000000 in
theorem prepareWrite_udp_minimal_witness :
    (∀ groups : List (List Bytes),
      groups.flatten = batchLines demo udpClient 0 [] cacheOff
        [wideSample, wideSample, wideSample] →
      (∀ g ∈ groups, g.flatten.length ≤ udpMaxBytes) →
      (prepareWrite demo udpClient cacheOff 0 [wideSample, wideSample, wideSample] 0
        []).bytesBuffers.length ≤ groups.length) ∧
    (∃ groups : List (List Bytes),
      groups.flatten = batchLines demo udpClient 0 [] cacheOff
        [wideSample, wideSample, wideSample] ∧
      (∀ g ∈ groups, g.flatten.length ≤ udpMaxBytes) ∧
      groups.map List.flatten =
        (prepareWrite demo udpClient cacheOff 0 [wideSample, wideSample, wideSample] 0
          []).bytesBuffers ∧
      groups.length =
        (prepareWrite demo udpClient cacheOff 0 [wideSample, wideSample, wideSample] 0
          []).bytesBuffers.length) :=
  prepareWrite_udp_minimal demo udpClient cacheOff 0 [wideSample, wideSample, wideSample] 0 []
    rfl (by decide) (by decide)

set_option maxRecDepth 1000000 in
/-- C17: `prepareWrite` returns no error, and with the paths cache disabled its
buffers are those of the batch without the samples for which `ToDatapoints`
fails. With the cache enabled and a rule whose template fails to render, the
first of two samples of one metric fails and leaves its paths in the cache, the
second one is then written with the cached path: the buffers of the batch hold
a line, the buffers of the batch without the failing sample hold nothing. -/
theorem prepareWrite_failed_sample_cached :
    (∀ (E : Ext) (client : Client E) (cache : PathsCache) (now : Int) (samples : List Sample)
        (reqBufLen : Nat) (pfx : Bytes),
      (prepareWrite E client cache now samples reqBufLen pfx).err = none ∧
      (cache.enabled = false →
        (prepareWrite E client cache now samples reqBufLen pfx).bytesBuffers =
          (prepareWrite E client cache now (samples.filter (passes E client cache now pfx))
            reqBufLen pfx).bytesBuffers)) ∧
    (passes demo failingClient cacheOn 0 (bytes "prefix.") sampleX = false ∧
      passes demo failingClient
        (ToDatapoints demo cacheOn 0 sampleX failingClient.format (bytes "prefix.")
          failingClient.Rules failingClient.TemplateData).cache
        0 (bytes "prefix.") sampleX = true ∧
      (prepareWrite demo failingClient cacheOn 0 [sampleX, sampleX] 0
          (bytes "prefix.")).bytesBuffers =
        [bytes "prefix.test:metric.owner.team-X.testlabel.test:value 1.000000 1700000000\n"] ∧
      (prepareWrite demo failingClient cacheOn 0 [sampleX] 0 (bytes "prefix.")).bytesBuffers =
        [[]]) := by
  refine ⟨fun E client cache now samples reqBufLen pfx =>
    ⟨rfl, prepareWrite_filter E client cache now samples reqBufLen pfx⟩, ?_⟩
  decide

/-! ## The connection to carbon -/

theorem connectToCarbon_of_fresh (interval : Int) (st : ConnState) (now nowDial : Int)
    (dial : Except String Conn) (c : Conn) (hheld : st.carbonCon = some c)
    (h : now - st.carbonLastReconnectTime < interval) :
    connectToCarbon interval st now nowDial dial = ⟨some c, none, st, []⟩ := by
  simp [connectToCarbon, hheld, h]

theorem connectToCarbon_of_stale (interval : Int) (st : ConnState) (now nowDial : Int)
    (dial : Except String Conn) (c : Conn) (hheld : st.carbonCon = some c)
    (h : ¬ now - st.carbonLastReconnectTime < interval) :
    connectToCarbon interval st now nowDial dial =
      dialCarbon ⟨none, st.carbonLastReconnectTime⟩ nowDial dial [Event.close c] := by
  simp [connectToCarbon, hheld, h, disconnectFromCarbon]

theorem connectToCarbon_of_none (interval : Int) (st : ConnState) (now nowDial : Int)
    (dial : Except String Conn) (hnone : st.carbonCon = none) :
    connectToCarbon interval st now nowDial dial = dialCarbon st nowDial dial [] := by
  simp [connectToCarbon, hnone]

theorem sendBuffers_events (interval : Int) (ct : CompressType)
    (compress : Bytes → Bytes × Option String) (env : Nat → Round) (buffers : List Bytes) :
    ∀ (i : Nat) (st : ConnState) (events : List Event) (err : Option String),
      ∃ more, (sendBuffers interval ct compress env i buffers st events err).2.2.2 =
        events ++ more := by
  induction buffers with
  | nil => intro i st events err; exact ⟨[], by simp [sendBuffers]⟩
  | cons buf rest ih =>
    intro i st events err
    simp only [sendBuffers]
    split
    · exact ⟨_, rfl⟩
    · split
      · exact ⟨_, rfl⟩
      · split
        · exact ⟨_, by simp only [List.append_assoc]; rfl⟩
        · obtain ⟨more, hm⟩ := ih (i + 1)
            (connectToCarbon interval st (env i).now (env i).nowDial (env i).dial).state
            (events ++ (connectToCarbon interval st (env i).now (env i).nowDial
              (env i).dial).events ++ [Event.write _ (produce ct compress buf).1]) none
          exact ⟨_, by rw [hm]; simp only [List.append_assoc]; rfl⟩

theorem sendBuffers_first_events (interval : Int) (ct : CompressType)
    (compress : Bytes → Bytes × Option String) (env : Nat → Round) (buf : Bytes)
    (rest : List Bytes) (i : Nat) (st : ConnState) (events : List Event) (err : Option String) :
    ∃ more, (sendBuffers interval ct compress env i (buf :: rest) st events err).2.2.2 =
      events ++ (connectToCarbon interval st (env i).now (env i).nowDial (env i).dial).events ++
        more := by
  simp only [sendBuffers]
  split
  · exact ⟨[], by simp⟩
  · split
    · exact ⟨[], by simp⟩
    · split
      · exact ⟨_, by simp only [List.append_assoc]; rfl⟩
      · obtain ⟨more, hm⟩ := sendBuffers_events interval ct compress env rest (i + 1)
          (connectToCarbon interval st (env i).now (env i).nowDial (env i).dial).state
          (events ++ (connectToCarbon interval st (env i).now (env i).nowDial
            (env i).dial).events ++ [Event.write _ (produce ct compress buf).1]) none
        exact ⟨_, by rw [hm]; simp only [List.append_assoc]; rfl⟩

theorem sendBuffers_reuse (interval : Int) (ct : CompressType)
    (compress : Bytes → Bytes × Option String) (env : Nat → Round) (st : ConnState) (c : Conn)
    (hheld : st.carbonCon = some c)
    (hfresh : ∀ j, (env j).now - st.carbonLastReconnectTime < interval)
    (hcopy : ∀ j, (env j).copyErr = none) (buffers : List Bytes) :
    ∀ (i : Nat) (events : List Event) (err : Option String),
      (sendBuffers interval ct compress env i buffers st events err).2.2 =
        (st, events ++ buffers.map (fun b => Event.write c (produce ct compress b).1)) ∧
      (buffers ≠ [] →
        (sendBuffers interval ct compress env i buffers st events err).1 =
            some (bytes "Done.") ∧
          (sendBuffers interval ct compress env i buffers st events err).2.1 = none) := by
  induction buffers with
  | nil => intro i events err; simp [sendBuffers]
  | cons buf rest ih =>
    intro i events err
    have hc := connectToCarbon_of_fresh interval st (env i).now (env i).nowDial (env i).dial c
      hheld (hfresh i)
    simp only [sendBuffers, hc, hcopy i]
    have h := ih (i + 1) (events ++ [] ++ [Event.write c (produce ct compress buf).1]) none
    refine ⟨?_, fun _ => ?_⟩
    · rw [h.1]
      simp
    · cases rest with
      | nil => simp [sendBuffers]
      | cons b t => exact h.2 (by simp)

theorem prepareWrite_nonempty (E : Ext) (client : Client E) (cache : PathsCache) (now : Int)
    (samples : List Sample) (reqBufLen : Nat) (pfx : Bytes) :
    (prepareWrite E client cache now samples reqBufLen pfx).bytesBuffers ≠ [] := by
  simp [prepareWrite]

theorem Write_send (E : Ext) (client : Client E) (compress : Bytes → Bytes × Option String)
    (env : Nat → Round) (st : ConnState) (cache : PathsCache) (now : Int)
    (samples : List Sample) (reqBufLen : Nat) (r : Request)
    (haddr : client.CarbonAddress ≠ "") (hc : r.cancelled = false) :
    (Write E client compress env st cache now samples reqBufLen r false).resp =
      (sendBuffers client.CarbonReconnectInterval client.CompressType compress env 0
        (prepareWrite E client cache now samples reqBufLen r.graphitePrefix).bytesBuffers
        st [] none).1 ∧
    (Write E client compress env st cache now samples reqBufLen r false).err =
      (sendBuffers client.CarbonReconnectInterval client.CompressType compress env 0
        (prepareWrite E client cache now samples reqBufLen r.graphitePrefix).bytesBuffers
        st [] none).2.1 ∧
    (Write E client compress env st cache now samples reqBufLen r false).state =
      (sendBuffers client.CarbonReconnectInterval client.CompressType compress env 0
        (prepareWrite E client cache now samples reqBufLen r.graphitePrefix).bytesBuffers
        st [] none).2.2.1 ∧
    (Write E client compress env st cache now samples reqBufLen r false).events =
      (sendBuffers client.CarbonReconnectInterval client.CompressType compress env 0
        (prepareWrite E client cache now samples reqBufLen r.graphitePrefix).bytesBuffers
        st [] none).2.2.2 := by
  have herr : (prepareWrite E client cache now samples reqBufLen r.graphitePrefix).err = none :=
    rfl
  simp [Write, haddr, hc, herr]

/-- C18: `connectToCarbon` on the fields (connection, last reconnect time) while a
connection `c` is held. Within the reconnect interval it returns `c`, does
nothing to the network and leaves the fields as they are. Once the interval
has passed it closes `c` and then dials, and when the dial succeeds it returns
and stores the new connection with the instant read after the dial; the next
call then reuses that connection within the interval and closes it and dials
again after it. A `Write` within the interval whose copies succeed sends every
buffer on `c` and does nothing else to the network; a `Write` after the
interval starts by closing `c` and dialing. -/
theorem connectToCarbon_reuse_or_redial (interval : Int) (st : ConnState) (now nowDial : Int)
    (dial : Except String Conn) (c : Conn) (hheld : st.carbonCon = some c) :
    (now - st.carbonLastReconnectTime < interval →
      connectToCarbon interval st now nowDial dial = ⟨some c, none, st, []⟩) ∧
    (¬ now - st.carbonLastReconnectTime < interval →
      (connectToCarbon interval st now nowDial dial).events = [Event.close c, Event.dial] ∧
      ∀ c' : Conn, dial = Except.ok c' →
        (connectToCarbon interval st now nowDial dial).conn = some c' ∧
        (connectToCarbon interval st now nowDial dial).err = none ∧
        (connectToCarbon interval st now nowDial dial).state = ⟨some c', nowDial⟩ ∧
        ∀ (now2 nowDial2 : Int) (dial2 : Except String Conn),
          (now2 - nowDial < interval →
            connectToCarbon interval (connectToCarbon interval st now nowDial dial).state
              now2 nowDial2 dial2 = ⟨some c', none, ⟨some c', nowDial⟩, []⟩) ∧
          (¬ now2 - nowDial < interval →
            (connectToCarbon interval (connectToCarbon interval st now nowDial dial).state
              now2 nowDial2 dial2).events = [Event.close c', Event.dial])) ∧
    (∀ (E : Ext) (client : Client E) (compress : Bytes → Bytes × Option String)
        (env : Nat → Round) (cache : PathsCache) (nowp : Int) (samples : List Sample)
        (reqBufLen : Nat) (r : Request),
      client.CarbonAddress ≠ "" → r.cancelled = false →
      client.CarbonReconnectInterval = interval →
      ((∀ j, (env j).now - st.carbonLastReconnectTime < interval) →
        (∀ j, (env j).copyErr = none) →
        (Write E client compress env st cache nowp samples reqBufLen r false).state = st ∧
        (Write E client compress env st cache nowp samples reqBufLen r false).err = none ∧
        (Write E client compress env st cache nowp samples reqBufLen r false).events =
          (prepareWrite E client cache nowp samples reqBufLen r.graphitePrefix).bytesBuffers.map
            (fun b => Event.write c (produce client.CompressType compress b).1)) ∧
      (¬ (env 0).now - st.carbonLastReconnectTime < interval →
        ∃ more, (Write E client compress env st cache nowp samples reqBufLen r false).events =
          [Event.close c, Event.dial] ++ more)) := by
  refine ⟨connectToCarbon_of_fresh interval st now nowDial dial c hheld, ?_, ?_⟩
  · intro hstale
    rw [connectToCarbon_of_stale interval st now nowDial dial c hheld hstale]
    constructor
    · cases dial <;> simp [dialCarbon]
    · intro c' hd
      subst hd
      refine ⟨rfl, rfl, rfl, ?_⟩
      intro now2 nowDial2 dial2
      simp only [dialCarbon]
      constructor
      · intro h
        exact connectToCarbon_of_fresh interval ⟨some c', nowDial⟩ now2 nowDial2 dial2 c' rfl h
      · intro h
        rw [connectToCarbon_of_stale interval ⟨some c', nowDial⟩ now2 nowDial2 dial2 c' rfl h]
        cases dial2 <;> simp [dialCarbon]
  · intro E client compress env cache nowp samples reqBufLen r haddr hc hint
    obtain ⟨_, h2, h3, h4⟩ :=
      Write_send E client compress env st cache nowp samples reqBufLen r haddr hc
    constructor
    · intro hfresh hcopy
      have h := sendBuffers_reuse client.CarbonReconnectInterval client.CompressType compress env
        st c hheld (by rw [hint]; exact hfresh) hcopy
        (prepareWrite E client cache nowp samples reqBufLen r.graphitePrefix).bytesBuffers 0 []
        none
      have hne := prepareWrite_nonempty E client cache nowp samples reqBufLen r.graphitePrefix
      rw [h2, h3, h4, (h.2 hne).2]
      have h1 := h.1
      rw [Prod.ext_iff] at h1
      simp only [List.nil_append] at h1
      exact ⟨h1.1, rfl, h1.2⟩
    · intro hstale
      rw [h4]
      cases hb : (prepareWrite E client cache nowp samples reqBufLen r.graphitePrefix).bytesBuffers
        with
      | nil => exact absurd hb (prepareWrite_nonempty E client cache nowp samples reqBufLen _)
      | cons buf rest =>
        obtain ⟨more, hm⟩ := sendBuffers_first_events client.CarbonReconnectInterval
          client.CompressType compress env buf rest 0 st [] none
        rw [hm, hint, connectToCarbon_of_stale interval st _ _ _ c hheld hstale]
        refine ⟨more, ?_⟩
        cases (env 0).dial <;> simp [dialCarbon]

theorem connectToCarbon_reuse_or_redial_witness :
    connectToCarbon 10 ⟨some 7, 2⟩ 5 6 (Except.ok 8) = ⟨some 7, none, ⟨some 7, 2⟩, []⟩ ∧
    (connectToCarbon 10 ⟨some 7, 2⟩ 50 51 (Except.ok 8)).events =
      [Event.close 7, Event.dial] :=
  ⟨(connectToCarbon_reuse_or_redial 10 ⟨some 7, 2⟩ 5 6 (Except.ok 8) 7 rfl).1 (by decide),
    ((connectToCarbon_reuse_or_redial 10 ⟨some 7, 2⟩ 50 51 (Except.ok 8) 7 rfl).2.1
      (by decide)).1⟩

/-- C19: when the dial of `connectToCarbon` fails (no connection is held, or the
reconnect interval has passed), `connectToCarbon` returns the dial error and no
connection, stores no connection, leaves the last reconnect time as it was and
writes nothing. The loop of `Write` then returns that error at once, without
a write for the current or a later buffer, and so does `Write` when the dial
for its first buffer fails. The next call of `connectToCarbon` dials again. -/
theorem connectToCarbon_dial_failure (interval : Int) (st : ConnState) (now nowDial : Int)
    (e : String)
    (hattempt : ∀ c, st.carbonCon = some c → ¬ now - st.carbonLastReconnectTime < interval) :
    ((connectToCarbon interval st now nowDial (Except.error e)).err = some e ∧
      (connectToCarbon interval st now nowDial (Except.error e)).conn = none ∧
      (connectToCarbon interval st now nowDial (Except.error e)).state =
        ⟨none, st.carbonLastReconnectTime⟩ ∧
      (∀ ev ∈ (connectToCarbon interval st now nowDial (Except.error e)).events,
        ∀ c data, ev ≠ Event.write c data)) ∧
    (∀ (ct : CompressType) (compress : Bytes → Bytes × Option String) (env : Nat → Round)
        (i : Nat) (buf : Bytes) (rest : List Bytes) (events : List Event) (err : Option String),
      (env i).now = now → (env i).nowDial = nowDial → (env i).dial = Except.error e →
      sendBuffers interval ct compress env i (buf :: rest) st events err =
        (none, some e, ⟨none, st.carbonLastReconnectTime⟩,
          events ++ (connectToCarbon interval st now nowDial (Except.error e)).events)) ∧
    (∀ (E : Ext) (client : Client E) (compress : Bytes → Bytes × Option String)
        (env : Nat → Round) (cache : PathsCache) (nowp : Int) (samples : List Sample)
        (reqBufLen : Nat) (r : Request),
      client.CarbonAddress ≠ "" → r.cancelled = false →
      client.CarbonReconnectInterval = interval →
      (env 0).now = now → (env 0).nowDial = nowDial → (env 0).dial = Except.error e →
      (Write E client compress env st cache nowp samples reqBufLen r false).err = some e ∧
      (Write E client compress env st cache nowp samples reqBufLen r false).resp = none ∧
      (Write E client compress env st cache nowp samples reqBufLen r false).state =
        ⟨none, st.carbonLastReconnectTime⟩ ∧
      (∀ ev ∈ (Write E client compress env st cache nowp samples reqBufLen r false).events,
        ∀ c data, ev ≠ Event.write c data)) ∧
    (∀ (now2 nowDial2 : Int) (dial2 : Except String Conn),
      (connectToCarbon interval
        (connectToCarbon interval st now nowDial (Except.error e)).state now2 nowDial2
        dial2).events = [Event.dial]) := by
  have hconn : connectToCarbon interval st now nowDial (Except.error e) =
      ⟨none, some e, ⟨none, st.carbonLastReconnectTime⟩,
        (connectToCarbon interval st now nowDial (Except.error e)).events⟩ ∧
      (∀ ev ∈ (connectToCarbon interval st now nowDial (Except.error e)).events,
        ∀ c data, ev ≠ Event.write c data) := by
    cases hs : st.carbonCon with
    | none =>
      rw [connectToCarbon_of_none interval st now nowDial _ hs]
      simp [dialCarbon, hs]
    | some c =>
      rw [connectToCarbon_of_stale interval st now nowDial _ c hs (hattempt c hs)]
      simp [dialCarbon]
  have hloop : ∀ (ct : CompressType) (compress : Bytes → Bytes × Option String)
      (env : Nat → Round) (i : Nat) (buf : Bytes) (rest : List Bytes) (events : List Event)
      (err : Option String),
      (env i).now = now → (env i).nowDial = nowDial → (env i).dial = Except.error e →
      sendBuffers interval ct compress env i (buf :: rest) st events err =
        (none, some e, ⟨none, st.carbonLastReconnectTime⟩,
          events ++ (connectToCarbon interval st now nowDial (Except.error e)).events) := by
    intro ct compress env i buf rest events err h1 h2 h3
    simp only [sendBuffers, h1, h2, h3]
    rw [hconn.1]
  refine ⟨⟨?_, ?_, ?_, hconn.2⟩, hloop, ?_, ?_⟩
  · rw [hconn.1]
  · rw [hconn.1]
  · rw [hconn.1]
  · intro E client compress env cache nowp samples reqBufLen r haddr hc hint h1 h2 h3
    obtain ⟨w1, w2, w3, w4⟩ :=
      Write_send E client compress env st cache nowp samples reqBufLen r haddr hc
    cases hb : (prepareWrite E client cache nowp samples reqBufLen r.graphitePrefix).bytesBuffers
      with
    | nil => exact absurd hb (prepareWrite_nonempty E client cache nowp samples reqBufLen _)
    | cons buf rest =>
      rw [hb, hint, hloop _ compress env 0 buf rest [] none h1 h2 h3] at w1 w2 w3 w4
      rw [w1, w2, w3, w4]
      refine ⟨rfl, rfl, rfl, ?_⟩
      intro ev hev
      exact hconn.2 ev (by simpa using hev)
  · intro now2 nowDial2 dial2
    rw [hconn.1, connectToCarbon_of_none interval _ now2 nowDial2 dial2 rfl]
    cases dial2 <;> simp [dialCarbon]

theorem connectToCarbon_dial_failure_witness :
    (Write demo udpClient noCompression refusing ⟨none, 0⟩ cacheOff 0 [sampleX] 0
        ⟨bytes "prefix.", false⟩ false).err = some "connection refused" ∧
    (Write demo udpClient noCompression refusing ⟨none, 0⟩ cacheOff 0 [sampleX] 0
        ⟨bytes "prefix.", false⟩ false).resp = none ∧
    (Write demo udpClient noCompression refusing ⟨none, 0⟩ cacheOff 0 [sampleX] 0
        ⟨bytes "prefix.", false⟩ false).state = ⟨none, 0⟩ ∧
    (∀ ev ∈ (Write demo udpClient noCompression refusing ⟨none, 0⟩ cacheOff 0 [sampleX] 0
        ⟨bytes "prefix.", false⟩ false).events, ∀ c data, ev ≠ Event.write c data) :=
  (connectToCarbon_dial_failure 3600000000000 ⟨none, 0⟩ 0 0 "connection refused"
    (by intro c h; cases h)).2.2.1 demo udpClient noCompression refusing cacheOff 0 [sampleX] 0
    ⟨bytes "prefix.", false⟩ (by decide) rfl rfl rfl rfl rfl

/-- C20: when the context of the request is done, a `Write` that is not a dry run
and has a carbon address returns an error, does nothing to the network (no
dial, no close, no write) and leaves the connection and the last reconnect
time as they were. -/
theorem Write_cancelled (E : Ext) (client : Client E)
    (compress : Bytes → Bytes × Option String) (env : Nat → Round) (st : ConnState)
    (cache : PathsCache) (now : Int) (samples : List Sample) (reqBufLen : Nat) (r : Request)
    (haddr : client.CarbonAddress ≠ "") (hc : r.cancelled = true) :
    (Write E client compress env st cache now samples reqBufLen r false).err =
      some "request context cancelled" ∧
    (Write E client compress env st cache now samples reqBufLen r false).err ≠ none ∧
    (Write E client compress env st cache now samples reqBufLen r false).events = [] ∧
    (Write E client compress env st cache now samples reqBufLen r false).state = st := by
  have herr : (prepareWrite E client cache now samples reqBufLen r.graphitePrefix).err = none :=
    rfl
  simp [Write, haddr, hc, herr]

theorem Write_cancelled_witness :
    (Write demo udpClient noCompression accepting ⟨some 7, 0⟩ cacheOff 0 [sampleX] 0
        ⟨bytes "prefix.", true⟩ false).err = some "request context cancelled" ∧
    (Write demo udpClient noCompression accepting ⟨some 7, 0⟩ cacheOff 0 [sampleX] 0
        ⟨bytes "prefix.", true⟩ false).err ≠ none ∧
    (Write demo udpClient noCompression accepting ⟨some 7, 0⟩ cacheOff 0 [sampleX] 0
        ⟨bytes "prefix.", true⟩ false).events = [] ∧
    (Write demo udpClient noCompression accepting ⟨some 7, 0⟩ cacheOff 0 [sampleX] 0
        ⟨bytes "prefix.", true⟩ false).state = ⟨some 7, 0⟩ :=
  Write_cancelled demo udpClient noCompression accepting ⟨some 7, 0⟩ cacheOff 0 [sampleX] 0
    ⟨bytes "prefix.", true⟩ (by decide) rfl

/-! ## Failures while a buffer is sent -/

theorem writtenData_append (a b : List Event) :
    writtenData (a ++ b) = writtenData a ++ writtenData b := by
  simp [writtenData, List.filterMap_append]

theorem connectToCarbon_of_dial_ok (interval : Int) (st : ConnState) (now nowDial : Int)
    (dial : Except String Conn) (d : Conn) (hd : dial = Except.ok d) :
    ∃ k, (connectToCarbon interval st now nowDial dial).err = none ∧
      (connectToCarbon interval st now nowDial dial).conn = some k ∧
      (connectToCarbon interval st now nowDial dial).state.carbonCon = some k ∧
      writtenData (connectToCarbon interval st now nowDial dial).events = [] := by
  subst hd
  unfold connectToCarbon
  cases hst : st.carbonCon with
  | none => exact ⟨d, by simp [dialCarbon, writtenData]⟩
  | some c =>
    by_cases hf : now - st.carbonLastReconnectTime < interval
    · exact ⟨c, by simp [hf, hst, writtenData]⟩
    · exact ⟨d, by simp [hf, hst, dialCarbon, disconnectFromCarbon, writtenData]⟩

theorem sendBuffers_copy_error (interval : Int) (ct : CompressType)
    (compress : Bytes → Bytes × Option String) (env : Nat → Round) (i : Nat) (buf : Bytes)
    (rest : List Bytes) (st : ConnState) (events : List Event) (err : Option String) (k : Conn)
    (e : String)
    (herr : (connectToCarbon interval st (env i).now (env i).nowDial (env i).dial).err = none)
    (hconn : (connectToCarbon interval st (env i).now (env i).nowDial (env i).dial).conn = some k)
    (hstate : (connectToCarbon interval st (env i).now (env i).nowDial
      (env i).dial).state.carbonCon = some k)
    (hcopy : (env i).copyErr = some e) :
    sendBuffers interval ct compress env i (buf :: rest) st events err =
      (none, some e,
        ⟨none, (connectToCarbon interval st (env i).now (env i).nowDial
          (env i).dial).state.carbonLastReconnectTime⟩,
        events ++ (connectToCarbon interval st (env i).now (env i).nowDial (env i).dial).events ++
          [Event.write k ((produce ct compress buf).1.take (env i).accepted), Event.close k]) := by
  simp only [sendBuffers, herr, hconn, hcopy, disconnectFromCarbon, hstate]
  simp

theorem sendBuffers_copy_ok (interval : Int) (ct : CompressType)
    (compress : Bytes → Bytes × Option String) (env : Nat → Round) (i : Nat) (buf : Bytes)
    (rest : List Bytes) (st : ConnState) (events : List Event) (err : Option String) (k : Conn)
    (herr : (connectToCarbon interval st (env i).now (env i).nowDial (env i).dial).err = none)
    (hconn : (connectToCarbon interval st (env i).now (env i).nowDial (env i).dial).conn = some k)
    (hcopy : (env i).copyErr = none) :
    sendBuffers interval ct compress env i (buf :: rest) st events err =
      sendBuffers interval ct compress env (i + 1) rest
        (connectToCarbon interval st (env i).now (env i).nowDial (env i).dial).state
        (events ++ (connectToCarbon interval st (env i).now (env i).nowDial (env i).dial).events ++
          [Event.write k (produce ct compress buf).1]) none := by
  simp only [sendBuffers, herr, hconn, hcopy]

theorem sendBuffers_prefix_ok (interval : Int) (ct : CompressType)
    (compress : Bytes → Bytes × Option String) (env : Nat → Round) (buf : Bytes)
    (rest : List Bytes) (pre : List Bytes) :
    ∀ (i : Nat) (st : ConnState) (events : List Event) (err : Option String),
      (∀ j, j < pre.length → (∃ d, (env (i + j)).dial = Except.ok d) ∧
        (env (i + j)).copyErr = none) →
      ∃ st1 more, sendBuffers interval ct compress env i (pre ++ buf :: rest) st events err =
          sendBuffers interval ct compress env (i + pre.length) (buf :: rest) st1
            (events ++ more) none ∧
        writtenData more = pre.map (fun b => (produce ct compress b).1) := by
  induction pre with
  | nil =>
    intro i st events err _
    exact ⟨st, [], by simp [sendBuffers], by simp [writtenData]⟩
  | cons p pre ih =>
    intro i st events err h
    obtain ⟨d, hd⟩ := (h 0 (by simp)).1
    have hc0 : (env i).copyErr = none := (h 0 (by simp)).2
    obtain ⟨k, herr, hconn, _, hw⟩ :=
      connectToCarbon_of_dial_ok interval st (env i).now (env i).nowDial (env i).dial d hd
    have hstep := sendBuffers_copy_ok interval ct compress env i p (pre ++ buf :: rest) st events
      err k herr hconn hc0
    have hrest : ∀ j, j < pre.length → (∃ d, (env (i + 1 + j)).dial = Except.ok d) ∧
        (env (i + 1 + j)).copyErr = none := by
      intro j hj
      have := h (j + 1) (by simp; omega)
      have e : i + (j + 1) = i + 1 + j := by omega
      rwa [e] at this
    obtain ⟨st1, more, hrec, hmore⟩ := ih (i + 1)
      (connectToCarbon interval st (env i).now (env i).nowDial (env i).dial).state
      (events ++ (connectToCarbon interval st (env i).now (env i).nowDial (env i).dial).events ++
        [Event.write k (produce ct compress p).1]) none hrest
    refine ⟨st1, (connectToCarbon interval st (env i).now (env i).nowDial (env i).dial).events ++
        [Event.write k (produce ct compress p).1] ++ more, ?_, ?_⟩
    · rw [List.cons_append, hstep, hrec]
      have e : i + 1 + pre.length = i + (p :: pre).length := by simp; omega
      rw [e]
      simp only [List.append_assoc]
    · rw [writtenData_append, writtenData_append, hw, hmore]
      simp [writtenData]

theorem sendBuffers_all_ok (interval : Int) (ct : CompressType)
    (compress : Bytes → Bytes × Option String) (env : Nat → Round)
    (hdial : ∀ j, ∃ d, (env j).dial = Except.ok d) (hcopy : ∀ j, (env j).copyErr = none)
    (buffers : List Bytes) :
    ∀ (i : Nat) (st : ConnState) (events : List Event) (err : Option String),
      buffers ≠ [] →
      (sendBuffers interval ct compress env i buffers st events err).1 = some (bytes "Done.") ∧
      (sendBuffers interval ct compress env i buffers st events err).2.1 = none ∧
      writtenData (sendBuffers interval ct compress env i buffers st events err).2.2.2 =
        writtenData events ++ buffers.map (fun b => (produce ct compress b).1) := by
  induction buffers with
  | nil => intro i st events err h; exact absurd rfl h
  | cons b rest ih =>
    intro i st events err _
    obtain ⟨d, hd⟩ := hdial i
    obtain ⟨k, herr, hconn, _, hw⟩ :=
      connectToCarbon_of_dial_ok interval st (env i).now (env i).nowDial (env i).dial d hd
    rw [sendBuffers_copy_ok interval ct compress env i b rest st events err k herr hconn (hcopy i)]
    cases rest with
    | nil =>
      simp [sendBuffers, writtenData_append, hw]
      simp [writtenData]
    | cons b2 rest2 =>
      obtain ⟨h1, h2, h3⟩ := ih (i + 1)
        (connectToCarbon interval st (env i).now (env i).nowDial (env i).dial).state
        (events ++ (connectToCarbon interval st (env i).now (env i).nowDial (env i).dial).events ++
          [Event.write k (produce ct compress b).1]) none (by simp)
      refine ⟨h1, h2, ?_⟩
      rw [h3, writtenData_append, writtenData_append, hw]
      simp [writtenData]

/-- C21: when the copy of a buffer to the socket fails with an error `e`, a
broken pipe or a connection reset among them, after the buffers before it were
sent, `Write` returns the error `e` and no response, closes the connection the
buffer was written to and clears the handle, so that the next
`connectToCarbon` dials; the failed copy and the close are the last events, so
the only data written are the buffers before the failed one and the bytes of
it the socket took, and none of the remaining buffers. Every dial that is
attempted is taken to succeed. -/
theorem Write_copy_error (E : Ext) (client : Client E)
    (compress : Bytes → Bytes × Option String) (env : Nat → Round) (st : ConnState)
    (cache : PathsCache) (now : Int) (samples : List Sample) (reqBufLen : Nat) (r : Request)
    (pre : List Bytes) (buf : Bytes) (rest : List Bytes) (e : String)
    (haddr : client.CarbonAddress ≠ "") (hc : r.cancelled = false)
    (hbufs : (prepareWrite E client cache now samples reqBufLen r.graphitePrefix).bytesBuffers =
      pre ++ buf :: rest)
    (hdial : ∀ j, j ≤ pre.length → ∃ d, (env j).dial = Except.ok d)
    (hok : ∀ j, j < pre.length → (env j).copyErr = none)
    (hfail : (env pre.length).copyErr = some e) :
    (Write E client compress env st cache now samples reqBufLen r false).resp = none ∧
    (Write E client compress env st cache now samples reqBufLen r false).err = some e ∧
    (Write E client compress env st cache now samples reqBufLen r false).state.carbonCon = none ∧
    (∃ k earlier,
      (Write E client compress env st cache now samples reqBufLen r false).events =
        earlier ++
          [Event.write k
              ((produce client.CompressType compress buf).1.take (env pre.length).accepted),
            Event.close k] ∧
      writtenData earlier = pre.map (fun b => (produce client.CompressType compress b).1)) ∧
    (∀ (now2 nowDial2 : Int) (dial2 : Except String Conn),
      (connectToCarbon client.CarbonReconnectInterval
        (Write E client compress env st cache now samples reqBufLen r false).state now2 nowDial2
        dial2).events = [Event.dial]) := by
  obtain ⟨h1, h2, h3, h4⟩ :=
    Write_send E client compress env st cache now samples reqBufLen r haddr hc
  rw [hbufs] at h1 h2 h3 h4
  obtain ⟨st1, more, hpre, hmore⟩ := sendBuffers_prefix_ok client.CarbonReconnectInterval
    client.CompressType compress env buf rest pre 0 st [] none
    (fun j hj => ⟨by simpa using hdial j (Nat.le_of_lt hj), by simpa using hok j hj⟩)
  obtain ⟨d, hd⟩ := hdial pre.length (Nat.le_refl _)
  obtain ⟨k, herr, hconn, hstate, hw⟩ := connectToCarbon_of_dial_ok client.CarbonReconnectInterval
    st1 (env pre.length).now (env pre.length).nowDial (env pre.length).dial d hd
  have hfin := sendBuffers_copy_error client.CarbonReconnectInterval client.CompressType compress
    env pre.length buf rest st1 ([] ++ more) none k e herr hconn hstate hfail
  rw [Nat.zero_add] at hpre
  rw [hpre, hfin] at h1 h2 h3 h4
  refine ⟨h1, h2, by rw [h3], ⟨k, more ++ (connectToCarbon client.CarbonReconnectInterval st1
    (env pre.length).now (env pre.length).nowDial (env pre.length).dial).events, ?_, ?_⟩, ?_⟩
  · rw [h4]
    simp only [List.nil_append, List.append_assoc]
  · rw [writtenData_append, hmore, hw, List.append_nil]
  · intro now2 nowDial2 dial2
    rw [h3]
    cases dial2 <;> simp [connectToCarbon, dialCarbon]

set_option maxRecDepth 1000000 in
theorem Write_copy_error_witness :
    (Write demo udpClient noCompression (failingAt 1 "write: broken pipe" 10) ⟨none, 0⟩ cacheOff 0
        fiveWide 0 ⟨[], false⟩ false).resp = none ∧
    (Write demo udpClient noCompression (failingAt 1 "write: broken pipe" 10) ⟨none, 0⟩ cacheOff 0
        fiveWide 0 ⟨[], false⟩ false).err = some "write: broken pipe" ∧
    (Write demo udpClient noCompression (failingAt 1 "write: broken pipe" 10) ⟨none, 0⟩ cacheOff 0
        fiveWide 0 ⟨[], false⟩ false).state.carbonCon = none ∧
    (∃ k earlier,
      (Write demo udpClient noCompression (failingAt 1 "write: broken pipe" 10) ⟨none, 0⟩ cacheOff
          0 fiveWide 0 ⟨[], false⟩ false).events =
        earlier ++
          [Event.write k
              ((produce udpClient.CompressType noCompression (wideBuffers.getD 1 [])).1.take
                (failingAt 1 "write: broken pipe" 10 (wideBuffers.take 1).length).accepted),
            Event.close k] ∧
      writtenData earlier =
        (wideBuffers.take 1).map (fun b => (produce udpClient.CompressType noCompression b).1)) ∧
    (∀ (now2 nowDial2 : Int) (dial2 : Except String Conn),
      (connectToCarbon udpClient.CarbonReconnectInterval
        (Write demo udpClient noCompression (failingAt 1 "write: broken pipe" 10) ⟨none, 0⟩
          cacheOff 0 fiveWide 0 ⟨[], false⟩ false).state now2 nowDial2
        dial2).events = [Event.dial]) :=
  Write_copy_error demo udpClient noCompression (failingAt 1 "write: broken pipe" 10) ⟨none, 0⟩
    cacheOff 0 fiveWide 0 ⟨[], false⟩ (wideBuffers.take 1) (wideBuffers.getD 1 [])
    (wideBuffers.drop 2) "write: broken pipe" (by decide) rfl (by decide)
    (fun j _ => ⟨j + 1, rfl⟩)
    (fun j hj => by
      have hl : (wideBuffers.take 1).length = 1 := by decide
      rw [hl] at hj
      have : j = 0 := by omega
      subst this
      rfl)
    (by decide)

/-- C22, refuted: when the producer stage returns an error for a buffer while the
copies to the socket end without error, `Write` returns the response "Done."
and a nil error, and what was written to the socket is what the stage put
into the pipe. The error the stage assigned to `err` is overwritten by the
result of `io.Copy` and of `pipeReader.Close()`, so a failed compression is
reported as a successful write. -/
theorem Write_producer_error_lost (E : Ext) (client : Client E)
    (compress : Bytes → Bytes × Option String) (env : Nat → Round) (st : ConnState)
    (cache : PathsCache) (now : Int) (samples : List Sample) (reqBufLen : Nat) (r : Request)
    (haddr : client.CarbonAddress ≠ "") (hc : r.cancelled = false)
    (hdial : ∀ j, ∃ d, (env j).dial = Except.ok d) (hcopy : ∀ j, (env j).copyErr = none)
    (_hfail : ∃ b ∈ (prepareWrite E client cache now samples reqBufLen
        r.graphitePrefix).bytesBuffers,
      (produce client.CompressType compress b).2 ≠ none) :
    (Write E client compress env st cache now samples reqBufLen r false).resp =
      some (bytes "Done.") ∧
    (Write E client compress env st cache now samples reqBufLen r false).err = none ∧
    writtenData (Write E client compress env st cache now samples reqBufLen r false).events =
      (prepareWrite E client cache now samples reqBufLen r.graphitePrefix).bytesBuffers.map
        (fun b => (produce client.CompressType compress b).1) := by
  obtain ⟨h1, h2, _, h4⟩ :=
    Write_send E client compress env st cache now samples reqBufLen r haddr hc
  have h := sendBuffers_all_ok client.CarbonReconnectInterval client.CompressType compress env
    hdial hcopy _ 0 st [] none
    (prepareWrite_nonempty E client cache now samples reqBufLen r.graphitePrefix)
  refine ⟨h1.trans h.1, h2.trans h.2.1, ?_⟩
  rw [h4, h.2.2]
  simp [writtenData]

set_option maxRecDepth 1000000 in
theorem Write_producer_error_lost_witness :
    (Write demo lz4Client failingCompression accepting ⟨none, 0⟩ cacheOff 0 [sampleX] 0
        ⟨bytes "prefix.", false⟩ false).resp = some (bytes "Done.") ∧
    (Write demo lz4Client failingCompression accepting ⟨none, 0⟩ cacheOff 0 [sampleX] 0
        ⟨bytes "prefix.", false⟩ false).err = none ∧
    writtenData (Write demo lz4Client failingCompression accepting ⟨none, 0⟩ cacheOff 0
        [sampleX] 0 ⟨bytes "prefix.", false⟩ false).events =
      (prepareWrite demo lz4Client cacheOff 0 [sampleX] 0 (bytes "prefix.")).bytesBuffers.map
        (fun b => (produce lz4Client.CompressType failingCompression b).1) :=
  Write_producer_error_lost demo lz4Client failingCompression accepting ⟨none, 0⟩ cacheOff 0
    [sampleX] 0 ⟨bytes "prefix.", false⟩ (by decide) rfl (fun j => ⟨j + 1, rfl⟩) (fun _ => rfl)
    (by decide)

set_option maxRecDepth 1000000 in
theorem failingCompression_eval :
    failingCompression (bytes "abc") = ([4, 34, 77, 24, 96, 64, 130], some "ERROR_GENERIC") := by
  decide

theorem Writer_Write_count (C : Compressor) (sink : Nat → Bytes → Nat × Option String)
    (ctx : C.σ) (inputData : Bytes) :
    ((Writer.Write C sink ctx inputData).err = none →
      (Writer.Write C sink ctx inputData).panicked = false →
      (Writer.Write C sink ctx inputData).n = inputData.length) ∧
    ((Writer.Write C sink ctx inputData).err ≠ none →
      (Writer.Write C sink ctx inputData).n = 0) ∧
    (Writer.Write C sink ctx inputData).n ≤ inputData.length := by
  unfold Writer.Write
  simp only []
  split
  · simp
  · split
    · simp
    · split
      · simp
      · split
        · simp
        · split
          · simp
          · split
            · simp
            · simp

/-- C30, refuted: when `lz4.NewWriter` fails, `compressLZ4` goes on with the nil
writer: it calls `Write` on it when the buffer is not empty and in every case
`Close`, whose dereference of the nil pointer panics, so the creation error is
not returned. -/
theorem compressLZ4_nil_writer (e : String) (write : Bytes → Written)
    (close : Option String) (buf : Bytes) :
    (compressLZ4 (some e) write close buf).panicked = true ∧
    (compressLZ4 (some e) write close buf).calls =
      (if buf = [] then [WriterCall.Close false]
       else [WriterCall.Write false buf, WriterCall.Close false]) ∧
    WriterCall.Close false ∈ (compressLZ4 (some e) write close buf).calls := by
  unfold compressLZ4
  by_cases h : buf = [] <;> simp [h]

/-! ## The escape codec -/

theorem fromHex_digit : ∀ n, n < 16 →
    fromHex (UInt8.ofNat (Nat.digitChar n).toUpper.toNat) = some n := by
  decide

theorem upperHex_digit : ∀ n, n < 16 →
    UInt8.ofNat (Nat.digitChar n).toUpper.toNat = upperHex n := by
  decide

theorem ofNat_toNat (b : UInt8) : UInt8.ofNat b.toNat = b := by
  apply UInt8.toNat.inj
  exact UInt8.toNat_ofNat_of_lt (UInt8.toNat_lt b)

theorem byte_of_digits (b : UInt8) : UInt8.ofNat (16 * (b.toNat / 16) + b.toNat % 16) = b := by
  rw [Nat.div_add_mod]; exact ofNat_toNat b

theorem unescape_copy (b : UInt8) (t : Bytes) (h1 : b ≠ 92) (h2 : b ≠ 37) :
    unescape (b :: t) = b :: unescape t := by
  match t with
  | [] => simp [unescape]
  | [c] => simp [unescape, h1]
  | c :: d :: rest => simp [unescape, h1, h2]

theorem unescape_backslash (c : UInt8) (t : Bytes) : unescape (92 :: c :: t) = c :: unescape t := by
  match t with
  | [] => simp [unescape]
  | d :: rest => simp [unescape]

theorem unescape_percent (c d : UInt8) (x y : Nat) (t : Bytes) (hc : fromHex c = some x)
    (hd : fromHex d = some y) : unescape (37 :: c :: d :: t) = UInt8.ofNat (16 * x + y) :: unescape t := by
  rw [unescape]
  simp [hc, hd]

theorem unescape_percentByte (b : UInt8) (t : Bytes) :
    unescape (percentByte b ++ t) = b :: unescape t := by
  have h1 : b.toNat / 16 < 16 := by have := UInt8.toNat_lt b; omega
  have h2 : b.toNat % 16 < 16 := Nat.mod_lt _ (by decide)
  unfold percentByte
  simp only [List.cons_append, List.nil_append]
  rw [unescape_percent _ _ _ _ t (fromHex_digit _ h1) (fromHex_digit _ h2), byte_of_digits]

theorem unescape_escapeByte (b : UInt8) (t : Bytes) :
    unescape (escapeByte b ++ t) = b :: unescape t := by
  unfold escapeByte
  split
  · exact unescape_percentByte b t
  · split
    · exact unescape_backslash b t
    · split
      · rename_i h1 h2 h3
        apply unescape_copy
        · intro e; exact h2 (by simp [e])
        · intro e; exact h1 (by simp [e])
      · exact unescape_percentByte b t

theorem escape_cons (b : UInt8) (s : Bytes) : escape (b :: s) = escapeByte b ++ escape s := by
  simp [escape]

theorem unescape_escape_append (s t : Bytes) : unescape (escape s ++ t) = s ++ unescape t := by
  induction s with
  | nil => simp [escape]
  | cons b s ih => rw [escape_cons, List.append_assoc, unescape_escapeByte, ih]; rfl

theorem unescape_nil : unescape [] = [] := by simp [unescape]

theorem unescape_escape_id (s : Bytes) : unescape (escape s) = s := by
  have h := unescape_escape_append s []
  simpa [unescape_nil] using h

/-- C23: `Unescape(Escape(s)) = s` for every byte sequence `s`, whatever bytes it
holds. -/
theorem Unescape_Escape (s : Bytes) : unescape (escape s) = s :=
  unescape_escape_id s

set_option maxRecDepth 1000000 in
theorem unescape_tests :
    unescape (bytes "abzABZ019\\(\\)\\\x7b\\\x7d\\,\\\x27\\\x22\\\\") =
      bytes "abzABZ019()\x7b\x7d,\x27\x22\\" ∧
    unescape (bytes "%C3%A9%2F|_;:%25%2E") = [195, 169] ++ bytes "/|_;:%." ∧
    unescape (escape [1, 10, 43, 37, 92, 200]) = [1, 10, 43, 37, 92, 200] := by
  decide

theorem byte_eq_iff (b c : UInt8) : b = c ↔ b.toNat = c.toNat :=
  ⟨fun h => by rw [h], fun h => UInt8.toNat.inj h⟩

theorem percentByte_eq (b : UInt8) :
    percentByte b = [37, upperHex (b.toNat / 16), upperHex (b.toNat % 16)] := by
  have h1 : b.toNat / 16 < 16 := by have := UInt8.toNat_lt b; omega
  have h2 : b.toNat % 16 < 16 := Nat.mod_lt _ (by decide)
  unfold percentByte
  rw [upperHex_digit _ h1, upperHex_digit _ h2]

theorem escape_singleton (b : UInt8) : escape [b] = escapeByte b := by
  simp [escape]

theorem escape_append (a b : Bytes) : escape (a ++ b) = escape a ++ escape b := by
  simp [escape]

theorem escapeByte_percent (b : UInt8)
    (h : b = 46 ∨ b = 47 ∨ b = 37 ∨ b = 61 ∨ b.toNat < 33 ∨ 126 < b.toNat) :
    escapeByte b = percentByte b := by
  unfold escapeByte
  split
  · rfl
  · rename_i h1
    split
    · rename_i h2
      exfalso
      simp only [byte_eq_iff] at h h1 h2
      simp [UInt8.toNat_ofNat, UInt8.size] at h h1 h2
      omega
    · split
      · rename_i h2 h3
        exfalso
        simp only [byte_eq_iff] at h h1
        simp [UInt8.toNat_ofNat, UInt8.size] at h h1
        omega
      · rfl

theorem escapeByte_backslash (b : UInt8)
    (h : b = 40 ∨ b = 41 ∨ b = 123 ∨ b = 125 ∨ b = 44 ∨ b = 39 ∨ b = 34 ∨ b = 92) :
    escapeByte b = [92, b] := by
  have h1 : ¬ (b = 46 ∨ b = 47 ∨ b = 37 ∨ b = 61) := by
    intro h1
    simp only [byte_eq_iff] at h h1
    simp [UInt8.toNat_ofNat, UInt8.size] at h h1
    omega
  unfold escapeByte
  rw [if_neg h1, if_pos h]

theorem escapeByte_copy (b : UInt8) (h1 : 33 ≤ b.toNat) (h2 : b.toNat ≤ 126)
    (h3 : ¬ (b = 46 ∨ b = 47 ∨ b = 37 ∨ b = 61))
    (h4 : ¬ (b = 40 ∨ b = 41 ∨ b = 123 ∨ b = 125 ∨ b = 44 ∨ b = 39 ∨ b = 34 ∨ b = 92)) :
    escapeByte b = [b] := by
  unfold escapeByte
  rw [if_neg h3, if_neg h4, if_pos ⟨h1, h2⟩]

theorem escapeByte_alnum (b : UInt8)
    (h : (65 ≤ b.toNat ∧ b.toNat ≤ 90) ∨ (97 ≤ b.toNat ∧ b.toNat ≤ 122) ∨
      (48 ≤ b.toNat ∧ b.toNat ≤ 57) ∨
      b = 124 ∨ b = 95 ∨ b = 59 ∨ b = 58 ∨ b = 33 ∨ b = 45 ∨ b = 126) :
    escapeByte b = [b] := by
  simp only [byte_eq_iff] at h
  simp [UInt8.toNat_ofNat, UInt8.size] at h
  apply escapeByte_copy
  · omega
  · omega
  · simp only [byte_eq_iff]
    simp [UInt8.toNat_ofNat, UInt8.size]
    omega
  · simp only [byte_eq_iff]
    simp [UInt8.toNat_ofNat, UInt8.size]
    omega

theorem upperHex_ne_dot (n : Nat) (h : n < 16) : upperHex n ≠ 46 := by
  revert n; decide

theorem dot_not_mem_escapeByte (b : UInt8) : (46 : UInt8) ∉ escapeByte b := by
  have hp : (46 : UInt8) ∉ percentByte b := by
    have h1 : b.toNat / 16 < 16 := by have := UInt8.toNat_lt b; omega
    have h2 : b.toNat % 16 < 16 := Nat.mod_lt _ (by decide)
    rw [percentByte_eq]
    simp only [List.mem_cons, List.mem_singleton, List.not_mem_nil, or_false, not_or]
    exact ⟨by decide, (upperHex_ne_dot _ h1).symm, (upperHex_ne_dot _ h2).symm⟩
  unfold escapeByte
  split
  · exact hp
  · rename_i h1
    split
    · simp only [List.mem_cons, List.mem_singleton, List.not_mem_nil, or_false, not_or]
      exact ⟨by decide, fun e => h1 (Or.inl e.symm)⟩
    · split
      · simp only [List.mem_singleton]
        exact fun e => h1 (Or.inl e.symm)
      · exact hp

theorem dot_not_mem_escape (s : Bytes) : (46 : UInt8) ∉ escape s := by
  unfold escape
  simp only [List.mem_flatMap, not_exists, not_and]
  exact fun b _ => dot_not_mem_escapeByte b

/-- C24: `Escape` works byte by byte, so it distributes over concatenation; each
of `.`, `/`, `%`, `=` and every byte that is not ASCII becomes `%` and the two
uppercase hexadecimal digits of its code; each of `( ) { } , ' "` and the
backslash is preceded by one backslash; letters, digits and `| _ ; : ! - ~`,
and every other visible ASCII character outside the two sets, are copied; the
output never contains a dot. -/
theorem Escape_bytewise :
    (∀ a b : Bytes, escape (a ++ b) = escape a ++ escape b) ∧
    (∀ b : UInt8, (b = 46 ∨ b = 47 ∨ b = 37 ∨ b = 61 ∨ 128 ≤ b.toNat) →
      escape [b] = [37, upperHex (b.toNat / 16), upperHex (b.toNat % 16)]) ∧
    (∀ b : UInt8, (b = 40 ∨ b = 41 ∨ b = 123 ∨ b = 125 ∨ b = 44 ∨ b = 39 ∨ b = 34 ∨ b = 92) →
      escape [b] = [92, b]) ∧
    (∀ b : UInt8, ((65 ≤ b.toNat ∧ b.toNat ≤ 90) ∨ (97 ≤ b.toNat ∧ b.toNat ≤ 122) ∨
        (48 ≤ b.toNat ∧ b.toNat ≤ 57) ∨
        b = 124 ∨ b = 95 ∨ b = 59 ∨ b = 58 ∨ b = 33 ∨ b = 45 ∨ b = 126) →
      escape [b] = [b]) ∧
    (∀ b : UInt8, 33 ≤ b.toNat → b.toNat ≤ 126 →
      ¬ (b = 46 ∨ b = 47 ∨ b = 37 ∨ b = 61) →
      ¬ (b = 40 ∨ b = 41 ∨ b = 123 ∨ b = 125 ∨ b = 44 ∨ b = 39 ∨ b = 34 ∨ b = 92) →
      escape [b] = [b]) ∧
    (∀ s : Bytes, (46 : UInt8) ∉ escape s) := by
  refine ⟨escape_append, ?_, ?_, ?_, ?_, dot_not_mem_escape⟩
  · intro b h
    rw [escape_singleton, ← percentByte_eq]
    apply escapeByte_percent
    rcases h with h | h | h | h | h
    · exact Or.inl h
    · exact Or.inr (Or.inl h)
    · exact Or.inr (Or.inr (Or.inl h))
    · exact Or.inr (Or.inr (Or.inr (Or.inl h)))
    · exact Or.inr (Or.inr (Or.inr (Or.inr (Or.inr (by omega)))))
  · intro b h
    rw [escape_singleton]
    exact escapeByte_backslash b h
  · intro b h
    rw [escape_singleton]
    exact escapeByte_alnum b h
  · intro b h1 h2 h3 h4
    rw [escape_singleton]
    exact escapeByte_copy b h1 h2 h3 h4

/-! ## Reading a path back -/

theorem defaultPath_dotted_eq (E : Ext) (m : Metric) (pfx : Bytes) (ls : List Bytes)
    (hperm : ls.Perm m.names) (hsorted : ls.Sorted StringLE) :
    defaultPath E m Format.FormatCarbon pfx =
      pfx ++ E.Escape (m.get MetricNameLabel) ++
        (qualifying ls).flatMap (fun l => bytes "." ++ l ++ bytes "." ++ E.Escape (m.get l)) := by
  have hsort := sortLabelNames_eq_of_sorted_perm ls m.names hperm hsorted
  have hfold := foldl_dotted E m ls [] true
  simp only [defaultPath, hsort, hfold, List.nil_append]
  have hf : ¬ (Format.FormatCarbon = Format.FormatCarbonOpenMetrics) := by decide
  simp only [hf, if_false]
  split
  · rfl
  · rename_i h
    have : (qualifying ls).flatMap
        (fun l => bytes "." ++ l ++ bytes "." ++ E.Escape (m.get l)) = [] := by
      apply List.length_eq_zero.1
      omega
    rw [this]
    simp

theorem trimPrefix_append (pfx r : Bytes) : trimPrefix (pfx ++ r) pfx = r := by
  unfold trimPrefix
  have h : pfx.isPrefixOf (pfx ++ r) = true := by
    rw [List.isPrefixOf_iff_prefix]
    exact List.prefix_append pfx r
  rw [if_pos h, List.drop_left]

theorem trimDots_of_head (b : UInt8) (t : Bytes) (h : b ≠ 46) : trimDots (b :: t) = b :: t := by
  simp [trimDots, h]

theorem splitDots_ne_nil (s : Bytes) : splitDots s ≠ [] := by
  induction s with
  | nil => simp [splitDots]
  | cons b rest ih =>
    unfold splitDots
    split
    · simp
    · split <;> simp

theorem splitDots_append_dot (a t : Bytes) (h : (46 : UInt8) ∉ a) :
    splitDots (a ++ 46 :: t) = a :: splitDots t := by
  induction a with
  | nil => simp [splitDots]
  | cons b rest ih =>
    have hb : b ≠ 46 := fun e => h (by simp [e])
    have hr : (46 : UInt8) ∉ rest := fun e => h (List.mem_cons_of_mem _ e)
    rw [List.cons_append, splitDots, if_neg hb, ih hr]

theorem splitDots_of_not_mem (a : Bytes) (h : (46 : UInt8) ∉ a) : splitDots a = [a] := by
  induction a with
  | nil => simp [splitDots]
  | cons b rest ih =>
    have hb : b ≠ 46 := fun e => h (by simp [e])
    have hr : (46 : UInt8) ∉ rest := fun e => h (List.mem_cons_of_mem _ e)
    rw [splitDots, if_neg hb, ih hr]

theorem splitDots_dotted (e : Bytes → Bytes) (he : ∀ v, (46 : UInt8) ∉ e v) (qs : List Bytes) :
    ∀ a : Bytes, (46 : UInt8) ∉ a → (∀ l ∈ qs, (46 : UInt8) ∉ l) →
      splitDots (a ++ qs.flatMap (fun l => bytes "." ++ l ++ bytes "." ++ e l)) =
        a :: qs.flatMap (fun l => [l, e l]) := by
  induction qs with
  | nil => intro a ha _; simp [splitDots_of_not_mem a ha]
  | cons q rest ih =>
    intro a ha hq
    have hdot : bytes "." = [46] := by decide
    have h1 : (46 : UInt8) ∉ q := hq q (List.mem_cons_self _ _)
    have h2 : ∀ l ∈ rest, (46 : UInt8) ∉ l := fun l hl => hq l (List.mem_cons_of_mem _ hl)
    have e1 : a ++ (q :: rest).flatMap (fun l => bytes "." ++ l ++ bytes "." ++ e l) =
        a ++ 46 :: (q ++ 46 :: (e q ++ rest.flatMap (fun l => bytes "." ++ l ++ bytes "." ++ e l))) := by
      simp [List.flatMap_cons, hdot, List.append_assoc]
    rw [e1, splitDots_append_dot a _ ha, splitDots_append_dot q _ h1, ih (e q) (he q) h2]
    simp [List.flatMap_cons]

theorem pairLabels_dotted (e : Bytes → Bytes) (qs : List Bytes) :
    pairLabels (qs.flatMap (fun l => [l, e l])) = some (qs.map (fun l => (l, unescape (e l)))) := by
  induction qs with
  | nil => simp [pairLabels]
  | cons q rest ih =>
    rw [List.flatMap_cons]
    show pairLabels (q :: e q :: rest.flatMap (fun l => [l, e l])) = _
    rw [pairLabels, ih]
    rfl

theorem escape_ne_nil (s : Bytes) (h : s ≠ []) : escape s ≠ [] := by
  cases s with
  | nil => exact absurd rfl h
  | cons b rest =>
    rw [escape_cons]
    have : escapeByte b ≠ [] := by
      unfold escapeByte percentByte
      split
      · simp
      · split
        · simp
        · split <;> simp
    simp [this]

theorem qualifying_of_no_empty (ls : List Bytes) (h : ∀ l ∈ ls, l ≠ []) :
    qualifying ls = ls.filter (fun l => decide (l ≠ MetricNameLabel)) := by
  unfold qualifying
  apply List.filter_congr
  intro l hl
  simp [h l hl]

theorem MetricLabelsFromPath_dotted (pfx name : Bytes) (qs : List Bytes) (value : Bytes → Bytes)
    (hname : name ≠ []) (hqs : ∀ l ∈ qs, (46 : UInt8) ∉ l) :
    MetricLabelsFromPath
        (pfx ++ escape name ++
          qs.flatMap (fun l => bytes "." ++ l ++ bytes "." ++ escape (value l))) pfx =
      some ((MetricNameLabel, escape name) :: qs.map (fun l => (l, value l))) := by
  unfold MetricLabelsFromPath
  rw [List.append_assoc, trimPrefix_append]
  have hne := escape_ne_nil name hname
  have hdot := dot_not_mem_escape name
  have htrim : ∀ t, trimDots (escape name ++ t) = escape name ++ t := by
    intro t
    cases he : escape name with
    | nil => exact absurd he hne
    | cons b rest =>
      rw [he] at hdot
      exact trimDots_of_head b (rest ++ t) (fun e => hdot (by simp [e]))
  rw [htrim, splitDots_dotted (fun v => escape (value v)) (fun v => dot_not_mem_escape _) qs _ hdot hqs]
  simp only []
  rw [pairLabels_dotted (fun v => escape (value v))]
  simp [unescape_escape_id]

/-- C25, amended: for a label set whose metric name is not empty and whose label
names are not empty and hold no dot, and for every prefix,
`MetricLabelsFromPath` applied to the Dotted default path and the prefix
succeeds and returns the metric name label with the escaped metric name, which
is the metric name when `Escape` leaves it unchanged, and after it the other
labels in ascending name order, each with its original value. `ls` is the
ascending arrangement of the label names. -/
theorem MetricLabelsFromPath_defaultPath (E : Ext) (m : Metric) (pfx : Bytes) (ls : List Bytes)
    (hE : E.Escape = escape) (hperm : ls.Perm m.names) (hsorted : ls.Sorted StringLE)
    (hname : m.get MetricNameLabel ≠ [])
    (hnames : ∀ l ∈ m.names, l ≠ [] ∧ (46 : UInt8) ∉ l) :
    MetricLabelsFromPath (defaultPath E m Format.FormatCarbon pfx) pfx =
      some ((MetricNameLabel, escape (m.get MetricNameLabel)) ::
        (ls.filter (fun l => decide (l ≠ MetricNameLabel))).map (fun l => (l, m.get l))) ∧
    (escape (m.get MetricNameLabel) = m.get MetricNameLabel →
      MetricLabelsFromPath (defaultPath E m Format.FormatCarbon pfx) pfx =
        some ((MetricNameLabel, m.get MetricNameLabel) ::
          (ls.filter (fun l => decide (l ≠ MetricNameLabel))).map (fun l => (l, m.get l)))) := by
  have hls : ∀ l ∈ ls, l ≠ [] ∧ (46 : UInt8) ∉ l := fun l hl => hnames l (hperm.mem_iff.1 hl)
  have hq := qualifying_of_no_empty ls (fun l hl => (hls l hl).1)
  have hmain : MetricLabelsFromPath (defaultPath E m Format.FormatCarbon pfx) pfx =
      some ((MetricNameLabel, escape (m.get MetricNameLabel)) ::
        (ls.filter (fun l => decide (l ≠ MetricNameLabel))).map (fun l => (l, m.get l))) := by
    rw [defaultPath_dotted_eq E m pfx ls hperm hsorted, hE, hq]
    apply MetricLabelsFromPath_dotted pfx _ _ (fun l => m.get l) hname
    intro l hl
    exact (hls l (List.mem_of_mem_filter hl)).2
  refine ⟨hmain, ?_⟩
  intro he
  rw [hmain, he]

set_option maxRecDepth 1000000 in
theorem MetricLabelsFromPath_defaultPath_witness :
    MetricLabelsFromPath (defaultPath demo testMetric Format.FormatCarbon (bytes "prefix."))
        (bytes "prefix.") =
      some ((MetricNameLabel, escape (testMetric.get MetricNameLabel)) ::
        (testNames.filter (fun l => decide (l ≠ MetricNameLabel))).map
          (fun l => (l, testMetric.get l))) ∧
    (escape (testMetric.get MetricNameLabel) = testMetric.get MetricNameLabel →
      MetricLabelsFromPath (defaultPath demo testMetric Format.FormatCarbon (bytes "prefix."))
          (bytes "prefix.") =
        some ((MetricNameLabel, testMetric.get MetricNameLabel) ::
          (testNames.filter (fun l => decide (l ≠ MetricNameLabel))).map
            (fun l => (l, testMetric.get l)))) :=
  MetricLabelsFromPath_defaultPath demo testMetric (bytes "prefix.") testNames rfl (by decide)
    (by decide) (by decide) (by decide)

set_option maxRecDepth 1000000 in
theorem MetricLabelsFromPath_not_inverse :
    MetricLabelsFromPath (defaultPath demo dotLabelMetric Format.FormatCarbon (bytes "p."))
      (bytes "p.") = none ∧
    MetricLabelsFromPath (defaultPath demo emptyLabelMetric Format.FormatCarbon (bytes "p."))
      (bytes "p.") = some [(MetricNameLabel, bytes "m")] ∧
    MetricLabelsFromPath (defaultPath demo slashMetric Format.FormatCarbon (bytes "p."))
      (bytes "p.") = some [(MetricNameLabel, bytes "a%2Fb"), (bytes "l", bytes "v")] := by
  decide

set_option maxRecDepth 1000000 in
theorem MetricLabelsFromPath_tests :
    MetricLabelsFromPath (bytes "prometheus-prefix.test.owner.team-X")
        (bytes "prometheus-prefix") =
      some [(MetricNameLabel, bytes "test"), (bytes "owner", bytes "team-X")] ∧
    MetricLabelsFromPath
        (bytes "prometheus-prefix.test.owner.team-Y.interface.Hu0%2F0%2F1%2F3%2E99")
        (bytes "prometheus-prefix") =
      some [(MetricNameLabel, bytes "test"), (bytes "owner", bytes "team-Y"),
        (bytes "interface", bytes "Hu0/0/1/3.99")] := by
  decide

/-- C26: for a query none of whose matchers is on the metric name label,
`queryToTargets` returns the error "invalid remote query: no __name__ label
provided" and no targets, and issues no discovery request. -/
theorem queryToTargets_without_metric_name (expand : Bytes → Except String (List Bytes))
    (matchers : List LabelMatcher) (graphitePrefix : Bytes)
    (h : ∀ m ∈ matchers, m.Name ≠ MetricNameLabel) :
    (queryToTargets expand matchers graphitePrefix).err =
      some "invalid remote query: no __name__ label provided" ∧
    (queryToTargets expand matchers graphitePrefix).targets = none ∧
    (queryToTargets expand matchers graphitePrefix).requests = [] := by
  have hfind : matchers.find? (fun m => decide (m.Name = MetricNameLabel)) = none := by
    rw [List.find?_eq_none]
    intro m hm
    simpa using h m hm
  simp [queryToTargets, hfind]

theorem queryToTargets_without_metric_name_witness :
    (queryToTargets (fun _ => Except.ok []) invalidMatchers (bytes "prometheus-prefix.")).err =
      some "invalid remote query: no __name__ label provided" ∧
    (queryToTargets (fun _ => Except.ok []) invalidMatchers
      (bytes "prometheus-prefix.")).targets = none ∧
    (queryToTargets (fun _ => Except.ok []) invalidMatchers
      (bytes "prometheus-prefix.")).requests = [] :=
  queryToTargets_without_metric_name (fun _ => Except.ok []) invalidMatchers
    (bytes "prometheus-prefix.") (by decide)

set_option maxRecDepth 1000000 in
theorem queryToTargets_tests :
    (queryToTargets testExpand testMatchers (bytes "prometheus-prefix.")).targets =
      some [bytes "prometheus-prefix.test.owner.team-X",
        bytes "prometheus-prefix.test.owner.team-Y"] ∧
    (queryToTargets testExpand testMatchers (bytes "prometheus-prefix.")).requests =
      [bytes "prometheus-prefix.test.**"] ∧
    (queryToTargets testExpand testMatchers (bytes "prometheus-prefix.")).err = none := by
  decide

/-! ## The LZ4 reader -/

theorem pending_of_wellFormed {D : Decompressor} (r : Reader D) (h : r.WellFormed) :
    r.pending = r.buffer.drop r.offset := by
  unfold Reader.pending
  apply List.take_of_length_le
  rw [List.length_drop, h.1]

theorem kept_append (a b : List Chunk) : kept (a ++ b) = kept a ++ kept b := by
  simp [kept, List.filter_append]

theorem fill_of_pending {D : Decompressor} (r : Reader D) (he : r.offset ≠ r.size) :
    r.fill = (r, none) := by
  simp [Reader.fill, he]

theorem fill_of_exhausted {D : Decompressor} (r : Reader D) (he : r.offset = r.size)
    (hs : r.source = []) : r.fill = (r, some "EOF") := by
  simp [Reader.fill, he, hs]

theorem fill_of_error {D : Decompressor} (r : Reader D) (c : Chunk) (rest : List Chunk)
    (e : String) (he : r.offset = r.size) (hs : r.source = c :: rest) (hc : c.err = some e) :
    r.fill = ({ r with source := rest }, some e) := by
  simp [Reader.fill, he, hs, hc]

theorem fill_of_data {D : Decompressor} (r : Reader D) (c : Chunk) (rest : List Chunk)
    (he : r.offset = r.size) (hs : r.source = c :: rest) (hc : c.err = none) :
    r.fill =
      ({ r with source := rest, buffer := c.data, offset := 0, size := c.data.length }, none) := by
  simp [Reader.fill, he, hs, hc]

theorem fill_feeds {D : Decompressor} (r : Reader D) (h : r.WellFormed) :
    ∃ consumed, r.source = consumed ++ r.fill.1.source ∧
      r.fill.1.fed ++ r.fill.1.pending = r.fed ++ r.pending ++ kept consumed ∧
      r.fill.1.WellFormed := by
  by_cases he : r.offset = r.size
  · have hp : r.pending = [] := by
      rw [pending_of_wellFormed r h, he, h.1]; simp
    cases hs : r.source with
    | nil =>
      rw [fill_of_exhausted r he hs]
      exact ⟨[], by simp [hs], by simp [kept], h⟩
    | cons c rest =>
      cases hc : c.err with
      | some e =>
        rw [fill_of_error r c rest e he hs hc]
        refine ⟨[c], by simp, ?_, h⟩
        have : ({ r with source := rest } : Reader D).pending = r.pending := rfl
        simp [this, kept, hc]
      | none =>
        rw [fill_of_data r c rest he hs hc]
        refine ⟨[c], by simp, ?_, ?_⟩
        · rw [hp, List.append_nil]
          simp [Reader.pending, kept, hc]
        · simp [Reader.WellFormed]
  · rw [fill_of_pending r he]
    exact ⟨[], by simp, by simp [kept], h⟩

theorem readLoop_feeds (D : Decompressor) (hD : D.Bounded) (cap : Nat) :
    ∀ (fuel : Nat) (r : Reader D) (out : Bytes) (res : Bytes × Option String × Reader D),
      r.WellFormed → Reader.readLoop cap fuel r out = some res →
      ∃ consumed, r.source = consumed ++ res.2.2.source ∧
        res.2.2.fed ++ res.2.2.pending = r.fed ++ r.pending ++ kept consumed ∧
        res.2.2.WellFormed := by
  intro fuel
  induction fuel with
  | zero => intro r out res _ h; simp [Reader.readLoop] at h
  | succ fuel ih =>
    intro r out res hwf h
    unfold Reader.readLoop at h
    by_cases hlt : out.length < cap
    · rw [if_pos hlt] at h
      obtain ⟨consumed, hsrc, hfed, hwf1⟩ := fill_feeds r hwf
      cases hf : r.fill with
      | mk r1 oe =>
        rw [hf] at hsrc hfed hwf1 h
        simp only at hsrc hfed hwf1
        cases oe with
        | some e =>
          simp only [Option.some.injEq] at h
          subst h
          exact ⟨consumed, hsrc, hfed, hwf1⟩
        | none =>
          simp only at h
          have hb := hD r1.ctx (cap - out.length) r1.pending
          have hp1 := pending_of_wellFormed r1 hwf1
          cases hcode : (D.decompress r1.ctx (cap - out.length) r1.pending).code with
          | error e =>
            rw [hcode] at h
            simp only [Option.some.injEq] at h
            subst h
            exact ⟨consumed, hsrc, hfed, hwf1⟩
          | ok hint =>
            rw [hcode] at h
            simp only at h
            have hlen : (D.decompress r1.ctx (cap - out.length) r1.pending).srcSize ≤
                r1.size - r1.offset := by
              have : r1.pending.length = r1.size - r1.offset := by
                rw [hp1, List.length_drop, hwf1.1]
              omega
            have hwf2 : ({ r1 with
                ctx := (D.decompress r1.ctx (cap - out.length) r1.pending).ctx,
                offset := r1.offset + (D.decompress r1.ctx (cap - out.length) r1.pending).srcSize,
                fed := r1.fed ++ r1.pending.take
                  (D.decompress r1.ctx (cap - out.length) r1.pending).srcSize } :
                  Reader D).WellFormed := by
              refine ⟨hwf1.1, ?_⟩
              have := hwf1.2
              show r1.offset + _ ≤ r1.size
              omega
            have hfed2 : ({ r1 with
                ctx := (D.decompress r1.ctx (cap - out.length) r1.pending).ctx,
                offset := r1.offset + (D.decompress r1.ctx (cap - out.length) r1.pending).srcSize,
                fed := r1.fed ++ r1.pending.take
                  (D.decompress r1.ctx (cap - out.length) r1.pending).srcSize } :
                  Reader D).fed ++ ({ r1 with
                ctx := (D.decompress r1.ctx (cap - out.length) r1.pending).ctx,
                offset := r1.offset + (D.decompress r1.ctx (cap - out.length) r1.pending).srcSize,
                fed := r1.fed ++ r1.pending.take
                  (D.decompress r1.ctx (cap - out.length) r1.pending).srcSize } :
                  Reader D).pending = r1.fed ++ r1.pending := by
              rw [pending_of_wellFormed _ hwf2]
              show (r1.fed ++ r1.pending.take _) ++ r1.buffer.drop (r1.offset + _) = _
              rw [hp1, List.append_assoc, ← List.drop_drop, List.take_append_drop]
            by_cases h0 : hint = 0
            · rw [if_pos h0] at h
              simp only [Option.some.injEq] at h
              subst h
              exact ⟨consumed, hsrc, by rw [hfed2]; exact hfed, hwf2⟩
            · rw [if_neg h0] at h
              obtain ⟨consumed2, hsrc2, hfed3, hwf3⟩ := ih _ _ res hwf2 h
              refine ⟨consumed ++ consumed2, ?_, ?_, hwf3⟩
              · rw [hsrc, List.append_assoc]
                exact congrArg _ hsrc2
              · rw [hfed3, hfed2, hfed, kept_append]
                simp only [List.append_assoc]
    · rw [if_neg hlt] at h
      simp only [Option.some.injEq] at h
      subst h
      exact ⟨[], by simp, by simp [kept], hwf⟩

/-- C28, refuted: when the internal buffer is used up and the underlying reader
answers with bytes together with an error `e`, `Reader.Read` returns `e` and
nothing else, and the bytes of that answer are neither fed to the decompressor
nor kept: the buffer has nothing pending, and whatever later calls of `Read`
feed comes from the answers without error that follow. -/
theorem Read_drops_data_read_with_error (D : Decompressor) (hD : D.Bounded) (r : Reader D)
    (hwf : r.WellFormed) (c : Chunk) (rest : List Chunk) (e : String) (fuel cap : Nat)
    (hempty : r.offset = r.size) (hsrc : r.source = c :: rest) (herr : c.err = some e)
    (hcap : 0 < cap) :
    Reader.Read (fuel + 1) cap r = some ([], some e, { r with source := rest }) ∧
    ({ r with source := rest } : Reader D).pending = [] ∧
    (∀ (fuel2 cap2 : Nat) (res : Bytes × Option String × Reader D),
      Reader.Read fuel2 cap2 { r with source := rest } = some res →
      ∃ consumed, rest = consumed ++ res.2.2.source ∧
        res.2.2.fed ++ res.2.2.pending = r.fed ++ kept consumed) := by
  have hp : ({ r with source := rest } : Reader D).pending = [] := by
    have : ({ r with source := rest } : Reader D).pending = r.pending := rfl
    rw [this, pending_of_wellFormed r hwf, hempty, hwf.1]
    simp
  refine ⟨?_, hp, ?_⟩
  · unfold Reader.Read Reader.readLoop
    have hlt : ([] : Bytes).length < cap := by simpa using hcap
    rw [if_pos hlt, fill_of_error r c rest e hempty hsrc herr]
  · intro fuel2 cap2 res h
    have hwf2 : ({ r with source := rest } : Reader D).WellFormed := hwf
    obtain ⟨consumed, h1, h2, _⟩ := readLoop_feeds D hD cap2 fuel2 _ [] res hwf2 h
    refine ⟨consumed, h1, ?_⟩
    rw [h2, hp, List.append_nil]

theorem copying_bounded : copying.Bounded := by
  intro ctx room src
  exact Nat.min_le_right _ _

theorem Read_drops_data_read_with_error_witness :
    Reader.Read (0 + 1) 8 (newReader copying () [⟨bytes "abc", some "EOF"⟩]) =
      some ([], some "EOF",
        { newReader copying () [⟨bytes "abc", some "EOF"⟩] with source := [] }) ∧
    ({ newReader copying () [⟨bytes "abc", some "EOF"⟩] with source := [] } :
      Reader copying).pending = [] ∧
    (∀ (fuel2 cap2 : Nat) (res : Bytes × Option String × Reader copying),
      Reader.Read fuel2 cap2
          { newReader copying () [⟨bytes "abc", some "EOF"⟩] with source := [] } = some res →
      ∃ consumed, [] = consumed ++ res.2.2.source ∧
        res.2.2.fed ++ res.2.2.pending =
          (newReader copying () [⟨bytes "abc", some "EOF"⟩]).fed ++ kept consumed) :=
  Read_drops_data_read_with_error copying copying_bounded
    (newReader copying () [⟨bytes "abc", some "EOF"⟩]) ⟨rfl, Nat.le_refl 0⟩
    ⟨bytes "abc", some "EOF"⟩ []
    "EOF" 0 8 rfl rfl rfl (by decide)

/-! ## A silencing rule after rendered rules -/

theorem templatedPathsLoop_silenced (E : Ext) (m : Metric)
    (templateData : List (Bytes × E.Value)) (pre : List (Rule E)) (r : Rule E)
    (post : List (Rule E))
    (hm : matchMetric E m r.Match r.MatchRE = true) (hc : r.Continue = false)
    (ht : r.Tmpl = E.zeroTmpl) :
    ∀ (paths ps : List Bytes),
      (∀ q ∈ pre, matchMetric E m q.Match q.MatchRE = true → q.Continue = true) →
      List.Forall₂ (Renders E m templateData) (matching E m pre) ps →
      templatedPathsLoop E m templateData (pre ++ r :: post) paths false = ([], true, none) := by
  induction pre with
  | nil =>
    intro paths ps _ _
    simp [templatedPathsLoop, hm, hc, ht]
  | cons q rest ih =>
    intro paths ps hcont hren
    have hrest : ∀ x ∈ rest, matchMetric E m x.Match x.MatchRE = true → x.Continue = true :=
      fun x hx => hcont x (List.mem_cons_of_mem _ hx)
    by_cases hmq : matchMetric E m q.Match q.MatchRE = true
    · have hcq : q.Continue = true := hcont q (List.mem_cons_self _ _) hmq
      have hfil : matching E m (q :: rest) = q :: matching E m rest := by
        simp [matching, List.filter_cons, hmq]
      rw [hfil] at hren
      cases hren with
      | cons hq htail =>
        rename_i pq ps'
        have hexec : E.Execute q.Tmpl (loadContext templateData m) = Except.ok pq := hq
        have := ih (paths ++ [pq]) ps' hrest htail
        simp only [List.cons_append, templatedPathsLoop, hmq, hcq, hexec]
        simpa using this
    · have hmq' : matchMetric E m q.Match q.MatchRE = false := by simpa using hmq
      have hfil : matching E m (q :: rest) = matching E m rest := by
        simp [matching, List.filter_cons, hmq']
      rw [hfil] at hren
      simp only [List.cons_append, templatedPathsLoop, hmq']
      simpa using ih paths ps hrest hren

/-- C29: if a rule with `continue = false` and no template matches a metric after
earlier matching rules, all with `continue = true`, have rendered the paths
`ps`, `pathsFromMetric` (cache disabled, or no entry for the metric) returns
the empty path list and no error, although the rules before it alone give the
paths `ps` and the default path; `ToDatapoints` on a sample of the metric with
a finite value then returns no line and no error. -/
theorem pathsFromMetric_silenced_after_continue (E : Ext) (cache : PathsCache) (now : Int)
    (m : Metric) (format : Format) (pfx : Bytes) (pre : List (Rule E)) (r : Rule E)
    (post : List (Rule E)) (templateData : List (Bytes × E.Value)) (ps : List Bytes)
    (hcache : cachedPaths E cache now m = none)
    (hcont : ∀ q ∈ pre, matchMetric E m q.Match q.MatchRE = true → q.Continue = true)
    (hren : List.Forall₂ (Renders E m templateData) (matching E m pre) ps)
    (hm : matchMetric E m r.Match r.MatchRE = true) (hc : r.Continue = false)
    (ht : r.Tmpl = E.zeroTmpl) :
    (pathsFromMetric E cache now m format pfx pre templateData).1 =
      ps ++ [defaultPath E m format pfx] ∧
    (pathsFromMetric E cache now m format pfx (pre ++ r :: post) templateData).1 = [] ∧
    (pathsFromMetric E cache now m format pfx (pre ++ r :: post) templateData).2.1 = none ∧
    (∀ (v : Float64) (ts : Int), Finite v →
      (ToDatapoints E cache now ⟨m, v, ts⟩ format pfx (pre ++ r :: post)
          templateData).dataPoints = [] ∧
      (ToDatapoints E cache now ⟨m, v, ts⟩ format pfx (pre ++ r :: post)
          templateData).lines = [] ∧
      (ToDatapoints E cache now ⟨m, v, ts⟩ format pfx (pre ++ r :: post)
          templateData).err = none) := by
  have hloop := templatedPathsLoop_silenced E m templateData pre r post hm hc ht [] ps hcont hren
  have hmiss :=
    pathsFromMetric_of_miss E cache now m format pfx (pre ++ r :: post) templateData hcache
  have htp : templatedPaths E m (pre ++ r :: post) templateData = ([], true, none) := by
    simpa [templatedPaths] using hloop
  rw [htp] at hmiss
  have h1 : (pathsFromMetric E cache now m format pfx (pre ++ r :: post) templateData).1 = [] := by
    simpa using hmiss.1
  have h2 :
      (pathsFromMetric E cache now m format pfx (pre ++ r :: post) templateData).2.1 = none := by
    simpa using hmiss.2
  have hpre := templatedPathsLoop_continue E m templateData pre [] ps hcont hren
  have hmiss0 := pathsFromMetric_of_miss E cache now m format pfx pre templateData hcache
  have htp0 : templatedPaths E m pre templateData = (ps, false, none) := by
    simpa [templatedPaths] using hpre
  rw [htp0] at hmiss0
  refine ⟨by simpa using hmiss0.1, h1, h2, ?_⟩
  intro v ts hv
  have h := ToDatapoints_of_no_paths E cache now ⟨m, v, ts⟩ format pfx (pre ++ r :: post)
    templateData hv h1 h2
  refine ⟨h.1, ?_, h.2⟩
  simp [Datapoints.lines, h.1]

set_option maxRecDepth 1000000 in
theorem pathsFromMetric_silenced_after_continue_witness :
    (pathsFromMetric demo cacheOff 0 metricX Format.FormatCarbon (bytes "prefix.") [rule1]
        []).1 =
      [bytes "tmpl_1.team-X"] ++ [defaultPath demo metricX Format.FormatCarbon (bytes "prefix.")] ∧
    (pathsFromMetric demo cacheOff 0 metricX Format.FormatCarbon (bytes "prefix.")
        ([rule1] ++ silencingRule :: [rule3]) []).1 = [] ∧
    (pathsFromMetric demo cacheOff 0 metricX Format.FormatCarbon (bytes "prefix.")
        ([rule1] ++ silencingRule :: [rule3]) []).2.1 = none ∧
    (∀ (v : Float64) (ts : Int), Finite v →
      (ToDatapoints demo cacheOff 0 ⟨metricX, v, ts⟩ Format.FormatCarbon (bytes "prefix.")
          ([rule1] ++ silencingRule :: [rule3]) []).dataPoints = [] ∧
      (ToDatapoints demo cacheOff 0 ⟨metricX, v, ts⟩ Format.FormatCarbon (bytes "prefix.")
          ([rule1] ++ silencingRule :: [rule3]) []).lines = [] ∧
      (ToDatapoints demo cacheOff 0 ⟨metricX, v, ts⟩ Format.FormatCarbon (bytes "prefix.")
          ([rule1] ++ silencingRule :: [rule3]) []).err = none) :=
  pathsFromMetric_silenced_after_continue demo cacheOff 0 metricX Format.FormatCarbon
    (bytes "prefix.") [rule1] silencingRule [rule3] [] [bytes "tmpl_1.team-X"] (by decide)
    (by decide) (List.Forall₂.cons (by unfold Renders; rfl) List.Forall₂.nil) (by decide)
    (by decide) (by decide)

end GraphiteAdapter
